import Mathlib

/-!
Dora indexer: epoch statistics cache and vote aggregation.

A shallow embedding of `indexer/votes.go`, `indexer/epoch_stats.go` and the method
`parseNamesMap` of `services/validatornames.go`.

* `uint64` values are natural numbers; every addition and multiplication the
  source performs on them is followed by `% 2 ^ 64` here.
* A Go `map[K]V` is an association list with distinct keys (`GoMap`), read with
  `GoMap.find` / `GoMap.get` and written with `GoMap.set`.
* A Go `[]byte` is `Bytes`: `none` is the nil slice.
* A pointer to an `EpochStats` record is its index in the heap of the cache.
-/

namespace Dora

/-! ## Go maps and byte slices -/

/-- The Go type `map[κ]ν`, as the list of its entries (insertion order). -/
abbrev GoMap (κ ν : Type) := List (κ × ν)

namespace GoMap

variable {κ ν : Type} [DecidableEq κ]

/-- The lookup `v, ok := m[k]`. -/
def find : GoMap κ ν → κ → Option ν
  | [], _ => none
  | (k', v) :: m, k => if k' = k then some v else find m k

/-- The read `m[k]`: the zero value of the element type when `k` is absent. -/
def get (m : GoMap κ ν) (k : κ) (zero : ν) : ν := (find m k).getD zero

/-- The write `m[k] = v`. -/
def set : GoMap κ ν → κ → ν → GoMap κ ν
  | [], k, v => [(k, v)]
  | (k', v') :: m, k, v => if k' = k then (k, v) :: m else (k', v') :: set m k v

/-- The statement `delete(m, k)`. -/
def erase : GoMap κ ν → κ → GoMap κ ν
  | [], _ => []
  | (k', v') :: m, k => if k' = k then erase m k else (k', v') :: erase m k

/-- The keys of the map. -/
def keys (m : GoMap κ ν) : List κ := m.map Prod.fst

end GoMap

/-- The Go type `[]byte`; `none` is the nil slice. -/
abbrev Bytes := Option (List Nat)

/-- The function `bytes.Equal`: equal contents, a nil slice being empty. -/
def bytesEqual (a b : Bytes) : Bool := decide (a.getD [] = b.getD [])

/-- The modulus of `uint64` arithmetic. -/
def u64 : Nat := 2 ^ 64

/-! ## Configuration and helpers of package `utils` -/

/-- The parts of `utils.Config.Chain` the indexer reads, and `utils.BitAtVector`
(not part of the sources at hand, so taken as a parameter). -/
structure Env where
  SlotsPerEpoch : Nat
  AltairForkEpoch : Nat
  WhiskForkEpoch : Option Nat
  BitAtVector : List Nat → Nat → Bool

/-- Modelled from the spec: `utils.EpochOfSlot` is not part of the sources at hand;
the spec gives `epoch = slot / SLOTS_PER_EPOCH`. -/
def EpochOfSlot (env : Env) (slot : Nat) : Nat := slot / env.SlotsPerEpoch

/-! ## Data model -/

/-- The fields of an attestation that `aggregateEpochVotes` reads. -/
structure Attestation where
  Slot : Nat
  Index : Nat
  AggregationBits : List Nat
  TargetRoot : List Nat
  BeaconBlockRoot : List Nat
deriving DecidableEq, Repr

/-- A block body: `Attestations()` returns the list, or an error (`none`). -/
structure BlockBody where
  attestations : Option (List Attestation)
deriving DecidableEq, Repr

/-- The parts of a `CacheBlock` the embedded code reads: the fields `Root` and `Slot`,
the results of `GetParentRoot()` and `GetBlockBody()`, and the rendering of the
header's state root. -/
structure CacheBlock where
  Root : Bytes
  Slot : Nat
  parentRoot : Bytes
  stateRoot : String
  body : Option BlockBody
deriving DecidableEq, Repr

/-- The type `EpochValidatorStats`. -/
structure EpochValidatorStats where
  ValidatorCount : Nat
  ValidatorBalance : Nat
  EligibleAmount : Nat
  ValidatorBalances : GoMap Nat Nat
deriving DecidableEq, Repr

/-- The type `EpochStats` without its mutexes and database cache. A nil map, slice or
pointer is `none`. `votes.go` reads the validator snapshot under the name
`stateStats`. -/
structure EpochStats where
  Epoch : Nat
  DependentRoot : Bytes
  dependentStateRef : String
  seenCount : Nat
  proposerAssignments : Option (GoMap Nat Nat)
  attestorAssignments : Option (GoMap String (List Nat))
  syncAssignments : Option (List Nat)
  validatorStats : Option EpochValidatorStats
deriving DecidableEq, Repr

/-- One of the two anonymous structs of `EpochVotes`. -/
structure VoteAmounts where
  targetVoteAmount : Nat
  headVoteAmount : Nat
  totalVoteAmount : Nat
deriving DecidableEq, Repr

/-- The type `EpochVotes`. -/
structure EpochVotes where
  currentEpoch : VoteAmounts
  nextEpoch : VoteAmounts
  VoteCounts : Bool
  ActivityMap : GoMap Nat Bool
deriving DecidableEq, Repr

/-! ## `aggregateEpochVotes` -/

/-- The key `fmt.Sprintf("%v-%v", slot, index)` of `attestorAssignments`. -/
def attKey (slot index : Nat) : String := toString slot ++ "-" ++ toString index

/-- The amount one newly counted validator adds to `voteAmount` (lines 80-84). -/
def voteWeight (epochStats : EpochStats) (validatorIdx : Nat) : Nat :=
  match epochStats.validatorStats with
  | some stateStats => stateStats.ValidatorBalances.get validatorIdx 0
  | none => 1

/-- The loop `for bitIdx, validatorIdx := range voteValidators` (lines 75-87), from
position `bitIdx` on, over the pair `(voteAmount, votes.ActivityMap)`. -/
def voteLoop (env : Env) (epochStats : EpochStats) (voteBitset : List Nat) :
    Nat → List Nat → Nat × GoMap Nat Bool → Nat × GoMap Nat Bool
  | _, [], st => st
  | bitIdx, validatorIdx :: rest, (voteAmount, activity) =>
    if env.BitAtVector voteBitset bitIdx then
      if activity.get validatorIdx false then
        voteLoop env epochStats voteBitset (bitIdx + 1) rest (voteAmount, activity)
      else
        voteLoop env epochStats voteBitset (bitIdx + 1) rest
          ((voteAmount + voteWeight epochStats validatorIdx) % u64,
            activity.set validatorIdx true)
    else
      voteLoop env epochStats voteBitset (bitIdx + 1) rest (voteAmount, activity)

/-- Lines 70-88: the vote amount of one attestation and the activity map after it. -/
def attestationVotes (env : Env) (epochStats : EpochStats) (att : Attestation)
    (activity : GoMap Nat Bool) : Nat × GoMap Nat Bool :=
  match epochStats.attestorAssignments with
  | none => (0, activity)
  | some assignments =>
    voteLoop env epochStats att.AggregationBits 0
      (assignments.get (attKey att.Slot att.Index) []) (0, activity)

/-- The statement `amounts.x += voteAmount` on one of the two buckets (lines 90-110):
`target` and `head` tell whether the target and head comparisons succeeded. -/
def addVotes (amounts : VoteAmounts) (target head : Bool) (voteAmount : Nat) : VoteAmounts :=
  { targetVoteAmount :=
      if target then (amounts.targetVoteAmount + voteAmount) % u64 else amounts.targetVoteAmount
    headVoteAmount :=
      if head then (amounts.headVoteAmount + voteAmount) % u64 else amounts.headVoteAmount
    totalVoteAmount := (amounts.totalVoteAmount + voteAmount) % u64 }

/-- Lines 90-110: add `voteAmount` to the bucket chosen by `isNextEpoch`. -/
def addToBucket (votes : EpochVotes) (isNextEpoch target head : Bool) (voteAmount : Nat)
    (activity : GoMap Nat Bool) : EpochVotes :=
  if isNextEpoch then
    { votes with nextEpoch := addVotes votes.nextEpoch target head voteAmount
                 ActivityMap := activity }
  else
    { votes with currentEpoch := addVotes votes.currentEpoch target head voteAmount
                 ActivityMap := activity }

/-- The body of `for _, att := range attestations` (lines 65-111). -/
def processAttestation (env : Env) (epoch : Nat) (epochStats : EpochStats) (targetRoot : Bytes)
    (isNextEpoch : Bool) (block : CacheBlock) (votes : EpochVotes) (att : Attestation) :
    EpochVotes :=
  if EpochOfSlot env att.Slot ≠ epoch then votes
  else
    let r := attestationVotes env epochStats att votes.ActivityMap
    addToBucket votes isNextEpoch
      (bytesEqual (some att.TargetRoot) targetRoot)
      (bytesEqual (some att.BeaconBlockRoot) block.parentRoot) r.1 r.2

/-- The body of `for slot := firstSlot; slot <= lastSlot; slot++` (lines 50-111). -/
def processSlot (env : Env) (blockMap : Nat → Option CacheBlock) (epoch : Nat)
    (epochStats : EpochStats) (targetRoot : Bytes) (votes : EpochVotes) (slot : Nat) :
    EpochVotes :=
  match blockMap slot with
  | none => votes
  | some block =>
    match block.body with
    | none => votes
    | some blockBody =>
      match blockBody.attestations with
      | none => votes
      | some attestations =>
        attestations.foldl
          (processAttestation env epoch epochStats targetRoot
            (decide (EpochOfSlot env slot > epoch)) block) votes

/-- The loop `for slot := firstSlot; slot <= lastSlot; slot++` with `slot` a `uint64`:
`none` when `fuel` iterations do not reach the exit. -/
def slotLoop {σ : Type} (body : σ → Nat → σ) (lastSlot : Nat) : Nat → Nat → σ → Option σ
  | 0, _, _ => none
  | fuel + 1, slot, votes =>
    if slot ≤ lastSlot then slotLoop body lastSlot fuel ((slot + 1) % u64) (body votes slot)
    else some votes

/-- The value of `firstSlot` (line 29). -/
def firstSlotOf (env : Env) (epoch : Nat) : Nat := (epoch * env.SlotsPerEpoch) % u64

/-- The value of `lastSlot` when the loop starts (lines 30-34); `x - 1` on a `uint64`
is `x + (2 ^ 64 - 1)` modulo `2 ^ 64`. -/
def lastSlotOf (env : Env) (epoch : Nat) (currentOnly : Bool) : Nat :=
  let lastSlot := (firstSlotOf env epoch + env.SlotsPerEpoch + (u64 - 1)) % u64
  if currentOnly then lastSlot else (lastSlot + env.SlotsPerEpoch) % u64

/-- The value of `votes` before the loop (lines 44-47). -/
def initVotes (epochStats : EpochStats) : EpochVotes :=
  { currentEpoch := ⟨0, 0, 0⟩
    nextEpoch := ⟨0, 0, 0⟩
    VoteCounts := epochStats.validatorStats.isNone
    ActivityMap := [] }

/-- The function `aggregateEpochVotes`; `fuel` bounds the iterations of the slot loop,
and `awaitDutiesLoaded` only takes read locks. -/
def aggregateEpochVotes (env : Env) (fuel : Nat) (blockMap : Nat → Option CacheBlock)
    (epoch : Nat) (epochStats : EpochStats) (targetRoot : Bytes) (currentOnly : Bool)
    (_awaitDutiesLoaded : Bool) : Option EpochVotes :=
  slotLoop (processSlot env blockMap epoch epochStats targetRoot)
    (lastSlotOf env epoch currentOnly) fuel (firstSlotOf env epoch) (initVotes epochStats)

/-! ## The epoch statistics cache (`epoch_stats.go`) -/

/-- The part of `indexerCache` that holds the epoch statistics: the records allocated so
far (`heap`; a `*EpochStats` is an index into it) and the field `epochStatsMap`, of type
`map[uint64][]*EpochStats`. -/
structure IndexerCache where
  heap : List EpochStats
  epochStatsMap : GoMap Nat (List Nat)
deriving DecidableEq, Repr

/-- The composite literal `&EpochStats{Epoch: epoch, DependentRoot: dependendRoot}`. -/
def newEpochStats (epoch : Nat) (dependendRoot : Bytes) : EpochStats :=
  { Epoch := epoch, DependentRoot := dependendRoot, dependentStateRef := "", seenCount := 0
    proposerAssignments := none, attestorAssignments := none, syncAssignments := none
    validatorStats := none }

/-- The record a pointer refers to. -/
def IndexerCache.deref (cache : IndexerCache) (ptr : Nat) : EpochStats :=
  cache.heap.getD ptr (newEpochStats 0 none)

/-- The cache after the record behind a pointer was overwritten. -/
def IndexerCache.store (cache : IndexerCache) (ptr : Nat) (epochStats : EpochStats) :
    IndexerCache :=
  { cache with heap := cache.heap.set ptr epochStats }

/-- The loop of `createOrGetEpochStats` (lines 60-64): the first record of the list whose
`DependentRoot` is byte-equal to `dependendRoot`. -/
def findEpochStats (cache : IndexerCache) (dependendRoot : Bytes) : List Nat → Option Nat
  | [] => none
  | ptr :: rest =>
    if bytesEqual (cache.deref ptr).DependentRoot dependendRoot then some ptr
    else findEpochStats cache dependendRoot rest

/-- The method `createOrGetEpochStats`: the cache afterwards, the record returned and the
flag returned. -/
def createOrGetEpochStats (cache : IndexerCache) (epoch : Nat) (dependendRoot : Bytes) :
    IndexerCache × Nat × Bool :=
  let allEpochStats := cache.epochStatsMap.get epoch []
  match findEpochStats cache dependendRoot allEpochStats with
  | some epochStats => (cache, epochStats, false)
  | none =>
    ({ heap := cache.heap ++ [newEpochStats epoch dependendRoot]
       epochStatsMap := cache.epochStatsMap.set epoch (allEpochStats ++ [cache.heap.length]) },
      cache.heap.length, true)

/-- The method `getEpochStats`: with a nil `dependendRoot` the first record of the list
of the epoch, else the first whose `DependentRoot` is byte-equal to it; `none` is nil. -/
def getEpochStats (cache : IndexerCache) (epoch : Nat) (dependendRoot : Bytes) : Option Nat :=
  match cache.epochStatsMap.find epoch with
  | none => none
  | some allEpochStats =>
    allEpochStats.find? (fun epochStats =>
      decide (dependendRoot = none) ||
        bytesEqual (cache.deref epochStats).DependentRoot dependendRoot)

/-- The method `removeEpochStats`. The loop of lines 83-87 leaves in `idx` the index of
the first occurrence of the pointer in the list, or the length of the list. -/
def removeEpochStats (cache : IndexerCache) (epochStats : Nat) : IndexerCache :=
  let epoch := (cache.deref epochStats).Epoch
  match cache.epochStatsMap.find epoch with
  | none => cache
  | some allEpochStats =>
    let idx := allEpochStats.indexOf epochStats
    let len := allEpochStats.length
    if idx < len then
      if len = 1 then { cache with epochStatsMap := cache.epochStatsMap.erase epoch }
      else
        let moved :=
          if idx < len - 1 then allEpochStats.set idx (allEpochStats.getD (len - 1) 0)
          else allEpochStats
        { cache with epochStatsMap := cache.epochStatsMap.set epoch (moved.take (len - 1)) }
    else cache

/-- The key uniqueness invariant of `epochStatsMap`: the list of every epoch key is not
empty, every record in it has the key as its `Epoch`, and no two records in it have
byte-equal dependent roots. -/
def KeyUnique (cache : IndexerCache) : Prop :=
  ∀ entry ∈ cache.epochStatsMap,
    entry.2 ≠ [] ∧ (∀ p ∈ entry.2, (cache.deref p).Epoch = entry.1) ∧
    entry.2.Pairwise (fun p q =>
      bytesEqual (cache.deref p).DependentRoot (cache.deref q).DependentRoot = false)

instance (cache : IndexerCache) : Decidable (KeyUnique cache) := by
  unfold KeyUnique
  infer_instance

/-- Every pointer in `epochStatsMap` refers to a record allocated on the heap, as every Go
pointer does. -/
def ValidPointers (cache : IndexerCache) : Prop :=
  ∀ entry ∈ cache.epochStatsMap, ∀ p ∈ entry.2, p < cache.heap.length

instance (cache : IndexerCache) : Decidable (ValidPointers cache) := by
  unfold ValidPointers
  infer_instance

/-- One entry of a proposer duties response. -/
structure ProposerDuty where
  Slot : Nat
  ValidatorIndex : Nat
deriving DecidableEq, Repr

/-- The type `rpc.ProposerDuties`; `DependentRoot` is a 32 byte array. -/
structure ProposerDuties where
  DependentRoot : List Nat
  Data : List ProposerDuty
deriving DecidableEq, Repr

/-- One committee of a committee duties response. -/
structure Committee where
  Slot : Nat
  Index : Nat
  Validators : List Nat
deriving DecidableEq, Repr

/-- A sync committee duties response. -/
structure SyncCommittee where
  Validators : List Nat
deriving DecidableEq, Repr

/-- The fields of `parsedHeader.Header.Message` that are read: the slot and the rendering
of the state root. -/
structure BlockHeader where
  Slot : Nat
  StateRoot : String
deriving DecidableEq, Repr

/-- What the embedded code asks of its `IndexerClient`: the walks over the block cache,
the database query and the beacon RPC calls. None of these is part of the sources at
hand, so each is a parameter. An RPC call returns an error or a response; a nil response
is `none`. -/
structure IndexerClient where
  getFirstCanonicalBlock : Nat → Bytes → Option CacheBlock
  getLastCanonicalBlock : Nat → Bytes → Option CacheBlock
  getCachedBlock : Bytes → Option CacheBlock
  GetHighestRootBeforeSlot : Nat → Bool → Bytes
  GetProposerDuties : Nat → Except String (Option ProposerDuties)
  GetBlockHeaderByBlockroot : Bytes → Except String (Option BlockHeader)
  GetCommitteeDuties : String → Nat → Except String (List Committee)
  GetSyncCommitteeDuties : String → Nat → Except String (Option SyncCommittee)
  lastEpochStats : Int

/-- The conversion `int64(x)` of a `uint64`. -/
def toInt64 (x : Nat) : Int :=
  if x % u64 < 2 ^ 63 then ((x % u64 : Nat) : Int) else ((x % u64 : Nat) : Int) - (2 : Int) ^ 64

/-- Whether `utils.Config.Chain.WhiskForkEpoch != nil && epoch >= *WhiskForkEpoch`. -/
def whiskActivated (env : Env) (epoch : Nat) : Bool :=
  match env.WhiskForkEpoch with
  | some whiskForkEpoch => decide (epoch ≥ whiskForkEpoch)
  | none => false

/-- What `ensureEpochStats` leaves behind when it returns nil: the cache, the record and
the response handed to the loader it starts with `go`, the flag of
`createOrGetEpochStats`, and `client.lastEpochStats`. -/
structure EnsureResult where
  cache : IndexerCache
  epochStats : Nat
  isNewStats : Bool
  proposerRsp : Option ProposerDuties
  lastEpochStats : Int
deriving DecidableEq, Repr

/-- Lines 158-169 of `ensureEpochStats`: the dependent root taken from the first
canonical block of the epoch. -/
def rootFromFirstBlock (client : IndexerClient) (epoch : Nat) (head : Bytes) : Bytes :=
  match client.getFirstCanonicalBlock epoch head with
  | some firstBlock => if epoch = 0 then firstBlock.Root else firstBlock.parentRoot
  | none => none

/-- Lines 170-176 of `ensureEpochStats`: the fallback to the last canonical block of the
previous epoch. -/
def rootFromLastBlock (client : IndexerClient) (epoch : Nat) (head : Bytes)
    (dependentRoot : Bytes) : Bytes :=
  if dependentRoot = none ∧ epoch > 0 then
    match client.getLastCanonicalBlock (epoch - 1) head with
    | some lastBlock => lastBlock.Root
    | none => dependentRoot
  else dependentRoot

/-- Lines 195-211 of `ensureEpochStats`, once the dependent root is chosen. -/
def ensureWithRoot (client : IndexerClient) (cache : IndexerCache) (epoch : Nat)
    (dependentRoot : Bytes) (proposerRsp : Option ProposerDuties) : EnsureResult :=
  let r := createOrGetEpochStats cache epoch dependentRoot
  { cache := r.1, epochStats := r.2.1, isNewStats := r.2.2, proposerRsp := proposerRsp
    lastEpochStats :=
      if toInt64 epoch > client.lastEpochStats then toInt64 epoch else client.lastEpochStats }

/-- The method `ensureEpochStats`. -/
def ensureEpochStats (env : Env) (client : IndexerClient) (cache : IndexerCache) (epoch : Nat)
    (head : Bytes) : Except String EnsureResult :=
  let dependentRoot :=
    rootFromLastBlock client epoch head (rootFromFirstBlock client epoch head)
  if dependentRoot = none then
    if whiskActivated env epoch then
      let firstSlot := (epoch * env.SlotsPerEpoch) % u64
      .ok (ensureWithRoot client cache epoch (client.GetHighestRootBeforeSlot firstSlot false)
        none)
    else
      match client.GetProposerDuties epoch with
      | .error err =>
        .error ("could not find proposer duties for epoch " ++ toString epoch ++ ": " ++ err)
      | .ok none => .error ("could not find proposer duties for epoch " ++ toString epoch)
      | .ok (some proposerRsp) =>
        .ok (ensureWithRoot client cache epoch (some proposerRsp.DependentRoot)
          (some proposerRsp))
  else .ok (ensureWithRoot client cache epoch dependentRoot none)

/-- A call the loader makes on the client, in the order made; `validatorStatsLazy` is the
statement `go epochStats.ensureValidatorStatsLazy(client, stateRef)`. -/
inductive RpcCall where
  | proposerDuties (epoch : Nat)
  | blockHeader (root : Bytes)
  | validatorStatsLazy (epochStats : Nat) (stateRef : String)
  | committeeDuties (stateRef : String) (epoch : Nat)
  | syncCommitteeDuties (stateRef : String) (epoch : Nat)
deriving DecidableEq, Repr

/-- Whether the call is `GetProposerDuties`. -/
def RpcCall.isProposerDuties : RpcCall → Bool
  | .proposerDuties _ => true
  | _ => false

/-- Whether the call is `GetBlockHeaderByBlockroot`. -/
def RpcCall.isBlockHeader : RpcCall → Bool
  | .blockHeader _ => true
  | _ => false

/-- Whether the call is `GetCommitteeDuties`. -/
def RpcCall.isCommitteeDuties : RpcCall → Bool
  | .committeeDuties _ _ => true
  | _ => false

/-- Whether the call is `GetSyncCommitteeDuties`. -/
def RpcCall.isSyncCommitteeDuties : RpcCall → Bool
  | .syncCommitteeDuties _ _ => true
  | _ => false

/-- The constant `math.MaxInt64`. -/
def maxInt64 : Nat := 2 ^ 63 - 1

/-- The loop of lines 249-251 over `proposerRsp.Data`. -/
def dutiesToAssignments (duties : List ProposerDuty) : GoMap Nat Nat :=
  duties.foldl (fun proposerAssignments duty =>
    proposerAssignments.set duty.Slot duty.ValidatorIndex) []

/-- Lines 243-247: the sentinel for every slot of the epoch; `none` when `fuel`
iterations do not reach the exit of the loop. -/
def sentinelAssignments (env : Env) (fuel : Nat) (epoch : Nat) : Option (GoMap Nat Nat) :=
  let firstSlot := (epoch * env.SlotsPerEpoch) % u64
  let lastSlot := (firstSlot + env.SlotsPerEpoch + (u64 - 1)) % u64
  slotLoop (fun proposerAssignments slot => proposerAssignments.set slot maxInt64) lastSlot
    fuel firstSlot []

/-- How the proposer duties step (lines 219-254) ends. -/
inductive ProposerStep where
  | failed (calls : List RpcCall) (err : String)
  | redirect (calls : List RpcCall) (proposerRsp : ProposerDuties)
  | loaded (calls : List RpcCall) (epochStats : EpochStats)
deriving DecidableEq, Repr

/-- Lines 241-253: build the map and publish it on the record. Without Whisk the
response is there: `proposerStep` has fetched one when none was passed in. -/
def publishProposerAssignments (env : Env) (fuel : Nat) (epochStats : EpochStats)
    (proposerRsp : Option ProposerDuties) (calls : List RpcCall) : Option ProposerStep :=
  if whiskActivated env epochStats.Epoch then
    match sentinelAssignments env fuel epochStats.Epoch with
    | none => none
    | some proposerAssignments =>
      some (.loaded calls { epochStats with proposerAssignments := some proposerAssignments })
  else
    match proposerRsp with
    | some rsp =>
      some (.loaded calls
        { epochStats with proposerAssignments := some (dutiesToAssignments rsp.Data) })
    | none => none

/-- The proposer duties step of `ensureEpochStatsLazy` (lines 219-254) on the record
`epochStats`; `none` when the sentinel loop does not end within `fuel` iterations. -/
def proposerStep (env : Env) (client : IndexerClient) (fuel : Nat) (epochStats : EpochStats)
    (proposerRsp : Option ProposerDuties) : Option ProposerStep :=
  match epochStats.proposerAssignments with
  | some _ => some (.loaded [] epochStats)
  | none =>
    if proposerRsp = none ∧ whiskActivated env epochStats.Epoch = false then
      match client.GetProposerDuties epochStats.Epoch with
      | .error err =>
        some (.failed [.proposerDuties epochStats.Epoch]
          ("could not lazy load proposer duties for epoch " ++ toString epochStats.Epoch ++
            ": " ++ err))
      | .ok none =>
        some (.failed [.proposerDuties epochStats.Epoch]
          ("could not find proposer duties for epoch " ++ toString epochStats.Epoch))
      | .ok (some rsp) =>
        if bytesEqual (some rsp.DependentRoot) epochStats.DependentRoot then
          publishProposerAssignments env fuel epochStats (some rsp)
            [.proposerDuties epochStats.Epoch]
        else some (.redirect [.proposerDuties epochStats.Epoch] rsp)
    else publishProposerAssignments env fuel epochStats proposerRsp []

/-- The record, the calls made and the error returned, if any, by the steps after the
proposer duties. The error texts leave out the rendering of the roots. -/
structure LoadStep where
  epochStats : EpochStats
  calls : List RpcCall
  error : Option String
deriving DecidableEq, Repr

/-- The value of `dependentStateRef` for a block or header at `slot` (lines 261-266 and
276-280). -/
def stateRefOf (slot : Nat) (stateRoot : String) : String :=
  if slot = 0 then "genesis" else stateRoot

/-- The dependent state reference step (lines 257-282). -/
def stateRefStep (client : IndexerClient) (epochStats : EpochStats) : LoadStep :=
  if epochStats.dependentStateRef = "" then
    if epochStats.Epoch = 0 then
      ⟨{ epochStats with dependentStateRef := "genesis" }, [], none⟩
    else
      match client.getCachedBlock epochStats.DependentRoot with
      | some dependendBlock =>
        ⟨{ epochStats with
            dependentStateRef := stateRefOf dependendBlock.Slot dependendBlock.stateRoot },
          [], none⟩
      | none =>
        match client.GetBlockHeaderByBlockroot epochStats.DependentRoot with
        | .error err =>
          ⟨epochStats, [.blockHeader epochStats.DependentRoot],
            some ("could not get dependent block header for epoch " ++
              toString epochStats.Epoch ++ ": " ++ err)⟩
        | .ok none =>
          ⟨epochStats, [.blockHeader epochStats.DependentRoot],
            some ("could not get dependent block header for epoch " ++
              toString epochStats.Epoch ++ ": not found")⟩
        | .ok (some parsedHeader) =>
          ⟨{ epochStats with
              dependentStateRef := stateRefOf parsedHeader.Slot parsedHeader.StateRoot },
            [.blockHeader epochStats.DependentRoot], none⟩
  else ⟨epochStats, [], none⟩

/-- Lines 285-287: start the validator snapshot when there is none. -/
def validatorStatsCalls (ptr : Nat) (epochStats : EpochStats) : List RpcCall :=
  if epochStats.validatorStats = none then
    [.validatorStatsLazy ptr epochStats.dependentStateRef]
  else []

/-- Lines 297-306: the map from `"slot-index"` to the validators of the committee, in
the order of the response. -/
def committeesToAssignments (parsedCommittees : List Committee) : GoMap String (List Nat) :=
  parsedCommittees.foldl (fun attestorAssignments committee =>
    committee.Validators.foldl (fun attestorAssignments valIndex =>
      let k := attKey committee.Slot committee.Index
      attestorAssignments.set k (attestorAssignments.get k [] ++ [valIndex]))
      attestorAssignments) []

/-- The committee duties step (lines 290-308). -/
def committeeStep (client : IndexerClient) (epochStats : EpochStats) : LoadStep :=
  if epochStats.attestorAssignments = none then
    match client.GetCommitteeDuties epochStats.dependentStateRef epochStats.Epoch with
    | .error err =>
      ⟨epochStats, [.committeeDuties epochStats.dependentStateRef epochStats.Epoch],
        some ("error retrieving committees data: " ++ err)⟩
    | .ok parsedCommittees =>
      ⟨{ epochStats with
          attestorAssignments := some (committeesToAssignments parsedCommittees) },
        [.committeeDuties epochStats.dependentStateRef epochStats.Epoch], none⟩
  else ⟨epochStats, [], none⟩

/-- The state reference of the sync committee call (lines 312-315). -/
def syncCommitteeState (env : Env) (epochStats : EpochStats) : String :=
  if epochStats.Epoch > 0 ∧ epochStats.Epoch = env.AltairForkEpoch then
    toString ((env.AltairForkEpoch * env.SlotsPerEpoch) % u64)
  else epochStats.dependentStateRef

/-- The sync committee duties step (lines 311-328). -/
def syncStep (env : Env) (client : IndexerClient) (epochStats : EpochStats) : LoadStep :=
  if epochStats.syncAssignments = none ∧ epochStats.Epoch ≥ env.AltairForkEpoch then
    match client.GetSyncCommitteeDuties (syncCommitteeState env epochStats)
        epochStats.Epoch with
    | .error err =>
      ⟨epochStats, [.syncCommitteeDuties (syncCommitteeState env epochStats) epochStats.Epoch],
        some ("error retrieving sync_committees for epoch " ++ toString epochStats.Epoch ++
          ": " ++ err)⟩
    | .ok none =>
      ⟨epochStats, [.syncCommitteeDuties (syncCommitteeState env epochStats) epochStats.Epoch],
        none⟩
    | .ok (some parsedSyncCommittees) =>
      ⟨{ epochStats with syncAssignments := some parsedSyncCommittees.Validators },
        [.syncCommitteeDuties (syncCommitteeState env epochStats) epochStats.Epoch], none⟩
  else ⟨epochStats, [], none⟩

/-- Lines 256-332 of `ensureEpochStatsLazy`: the steps after the proposer duties, each
run only when the one before returned no error, and `seenCount++` at the end. -/
def loadAfterProposer (env : Env) (client : IndexerClient) (ptr : Nat)
    (epochStats : EpochStats) : LoadStep :=
  let s1 := stateRefStep client epochStats
  match s1.error with
  | some err => ⟨s1.epochStats, s1.calls, some err⟩
  | none =>
    let vcalls := validatorStatsCalls ptr s1.epochStats
    let s2 := committeeStep client s1.epochStats
    match s2.error with
    | some err => ⟨s2.epochStats, s1.calls ++ vcalls ++ s2.calls, some err⟩
    | none =>
      let s3 := syncStep env client s2.epochStats
      match s3.error with
      | some err => ⟨s3.epochStats, s1.calls ++ vcalls ++ s2.calls ++ s3.calls, some err⟩
      | none =>
        ⟨{ s3.epochStats with seenCount := (s3.epochStats.seenCount + 1) % u64 },
          s1.calls ++ vcalls ++ s2.calls ++ s3.calls, none⟩

/-- What a call of `ensureEpochStatsLazy` leaves behind: the cache, the calls made on the
client, the error returned (`none` for nil), and the number of nested calls of the method
on another record. -/
structure LazyResult where
  cache : IndexerCache
  calls : List RpcCall
  error : Option String
  redirects : Nat
deriving DecidableEq, Repr

/-- The method `ensureEpochStatsLazy` on the record behind `ptr`; `none` when `fuel` is
used up by nested calls or by the sentinel loop. -/
def ensureEpochStatsLazy (env : Env) (client : IndexerClient) :
    Nat → IndexerCache → Nat → Option ProposerDuties → Option LazyResult
  | 0, _, _, _ => none
  | fuel + 1, cache, ptr, proposerRsp =>
    match proposerStep env client fuel (cache.deref ptr) proposerRsp with
    | none => none
    | some (.failed calls err) =>
      some { cache := cache, calls := calls, error := some err, redirects := 0 }
    | some (.redirect calls rsp) =>
      let r := createOrGetEpochStats cache (cache.deref ptr).Epoch (some rsp.DependentRoot)
      match ensureEpochStatsLazy env client fuel r.1 r.2.1 (some rsp) with
      | none => none
      | some res => some { res with calls := calls ++ res.calls, redirects := res.redirects + 1 }
    | some (.loaded calls epochStats) =>
      let rest := loadAfterProposer env client ptr epochStats
      some { cache := cache.store ptr rest.epochStats, calls := calls ++ rest.calls
             error := rest.error, redirects := 0 }

/-! ## The validator snapshot (`loadValidatorStats`) -/

/-- The fields of a `v1.Validator` that `loadValidatorStats` reads: `Index`, `Balance`,
and `EffectiveBalance`, `ActivationEpoch` and `ExitEpoch` of its `Validator` field. -/
structure ValidatorEntry where
  Index : Nat
  Balance : Nat
  EffectiveBalance : Nat
  ActivationEpoch : Nat
  ExitEpoch : Nat
deriving DecidableEq, Repr

/-- The condition of line 374. -/
def ValidatorEntry.isActive (validator : ValidatorEntry) (epoch : Nat) : Bool :=
  decide (validator.ActivationEpoch ≤ epoch ∧ epoch < validator.ExitEpoch)

/-- The body of the loop `for _, validator := range epochValidators` (lines 373-378). -/
def validatorStep (epoch : Nat) (validatorStats : EpochValidatorStats)
    (validator : ValidatorEntry) : EpochValidatorStats :=
  let balances :=
    validatorStats.ValidatorBalances.set validator.Index validator.EffectiveBalance
  if validator.isActive epoch then
    { ValidatorCount := (validatorStats.ValidatorCount + 1) % u64
      ValidatorBalance := (validatorStats.ValidatorBalance + validator.Balance) % u64
      EligibleAmount := (validatorStats.EligibleAmount + validator.EffectiveBalance) % u64
      ValidatorBalances := balances }
  else { validatorStats with ValidatorBalances := balances }

/-- Lines 369-379: the snapshot of the validators, visited in the order of the list. -/
def foldValidatorStats (epoch : Nat) (epochValidators : List ValidatorEntry) :
    EpochValidatorStats :=
  epochValidators.foldl (validatorStep epoch)
    { ValidatorCount := 0, ValidatorBalance := 0, EligibleAmount := 0, ValidatorBalances := [] }

/-- The method `loadValidatorStats` on the record `epochStats`; the RPC call
`GetStateValidators` is a parameter and returns the validators in the order in which the
loop visits the map. The concurrency limit and `setLastValidators` are left out. -/
def loadValidatorStats (GetStateValidators : String → Except String (List ValidatorEntry))
    (epochStats : EpochStats) (stateRef : String) : EpochStats :=
  match epochStats.validatorStats with
  | some _ => epochStats
  | none =>
    match GetStateValidators (if epochStats.Epoch = 0 then "genesis" else stateRef) with
    | .error _ => epochStats
    | .ok epochValidators =>
      { epochStats with
        validatorStats := some (foldValidatorStats epochStats.Epoch epochValidators) }

/-! ## The validator names (`services/validatornames.go`) -/

/-- The function `strings.Split` for a separator of one character, on the characters of
the string: the parts between the occurrences of the separator. -/
def splitChars (sep : Char) : List Char → List (List Char)
  | [] => [[]]
  | c :: cs =>
    if c = sep then [] :: splitChars sep cs
    else
      match splitChars sep cs with
      | [] => [[c]]
      | part :: parts => (c :: part) :: parts

/-- The value of a string of decimal digits. -/
def digitsValue (ds : List Char) : Nat := ds.foldl (fun acc c => acc * 10 + (c.toNat - 48)) 0

/-- The function `strconv.ParseUint(s, 10, 64)`: `none` is an error, returned for the
empty string, for a character that is no decimal digit and for a value that does not fit
64 bits. -/
def parseUint (s : List Char) : Option Nat :=
  if s = [] then none
  else if s.all Char.isDigit then
    if digitsValue s < u64 then some (digitsValue s) else none
  else none

/-- The increment of an `int` (64 bits). -/
def incInt (n : Int) : Int := (n + 1 + 2 ^ 63) % 2 ^ 64 - 2 ^ 63

/-- The maps of `ValidatorNames`; an address is the list of its bytes. -/
structure ValidatorNames where
  namesByIndex : GoMap Nat String
  namesByWithdrawal : GoMap (List Nat) String
deriving DecidableEq, Repr

/-- The body of the loop of `parseNamesMap` (lines 168-194) for one entry of `names`, on
the maps and `nameCount`; `none` when the loop over the indices does not end within
`fuel` iterations. `common.HexToAddress` is not part of the sources at hand and is a
parameter. -/
def parseNamesEntry (HexToAddress : String → List Nat) (fuel : Nat)
    (state : ValidatorNames × Int) (idxStr name : String) : Option (ValidatorNames × Int) :=
  let rangeParts := splitChars ':' idxStr.data
  if rangeParts.length > 1 then
    if String.mk (rangeParts.getD 0 []) = "withdrawal" then
      some ({ state.1 with
              namesByWithdrawal :=
                state.1.namesByWithdrawal.set (HexToAddress (String.mk (rangeParts.getD 1 [])))
                  name },
            incInt state.2)
    else some state
  else
    let rangeParts := splitChars '-' idxStr.data
    match parseUint (rangeParts.getD 0 []) with
    | none => some state
    | some minIdx =>
      let maxIdx :=
        if rangeParts.length > 1 then parseUint (rangeParts.getD 1 [])
        else some ((minIdx + 1) % u64)
      match maxIdx with
      | none => some state
      | some maxIdx =>
        slotLoop (fun state idx =>
          ({ state.1 with namesByIndex := state.1.namesByIndex.set idx name }, incInt state.2))
          maxIdx fuel minIdx state

/-- The method `parseNamesMap` on the entries of `names` in the order of the iteration;
the maps afterwards and the count returned. -/
def parseNamesMap (HexToAddress : String → List Nat) (fuel : Nat) (vn : ValidatorNames)
    (names : List (String × String)) : Option (ValidatorNames × Int) :=
  names.foldl (fun state entry =>
    match state with
    | none => none
    | some state => parseNamesEntry HexToAddress fuel state entry.1 entry.2) (some (vn, 0))

/-! ## Definitions used to state the claims -/

/-- The record the proposer duties step leaves when a response is passed in and the
Whisk fork is not active: the duties are published unless a map is there already. -/
def publishedRecord (epochStats : EpochStats) (rsp : ProposerDuties) : EpochStats :=
  match epochStats.proposerAssignments with
  | some _ => epochStats
  | none => { epochStats with proposerAssignments := some (dutiesToAssignments rsp.Data) }

/-! ## The scan of `aggregateEpochVotes` as a list of candidate votes

These definitions follow the wording of the specification, not the code: the
candidate votes of the scan in scan order, and the first candidate of every
validator. The theorems below relate them to `aggregateEpochVotes`. -/

/-- A candidate vote: the block at `slot` holds, at position `attIdx`, an attestation
of the aggregated epoch in which committee position `bitIdx`, held by `validator`, has
its aggregation bit set. `isNextEpoch`, `target` and `head` are the three tests the
code makes on the block and the attestation. -/
structure VoteEvent where
  slot : Nat
  attIdx : Nat
  bitIdx : Nat
  validator : Nat
  isNextEpoch : Bool
  target : Bool
  head : Bool
deriving DecidableEq, Repr

/-- The candidate votes of one attestation from committee position `bitIdx` on. -/
def bitEvents (env : Env) (voteBitset : List Nat) (mk : Nat → Nat → VoteEvent) :
    Nat → List Nat → List VoteEvent
  | _, [] => []
  | bitIdx, validatorIdx :: rest =>
    if env.BitAtVector voteBitset bitIdx then
      mk bitIdx validatorIdx :: bitEvents env voteBitset mk (bitIdx + 1) rest
    else bitEvents env voteBitset mk (bitIdx + 1) rest

/-- The candidate votes of the attestation at position `attIdx` of the block at `slot`. -/
def attestationEvents (env : Env) (epoch : Nat) (epochStats : EpochStats) (targetRoot : Bytes)
    (slot : Nat) (block : CacheBlock) (attIdx : Nat) (att : Attestation) : List VoteEvent :=
  if EpochOfSlot env att.Slot ≠ epoch then []
  else
    match epochStats.attestorAssignments with
    | none => []
    | some assignments =>
      bitEvents env att.AggregationBits
        (fun bitIdx validatorIdx =>
          { slot := slot, attIdx := attIdx, bitIdx := bitIdx, validator := validatorIdx
            isNextEpoch := decide (EpochOfSlot env slot > epoch)
            target := bytesEqual (some att.TargetRoot) targetRoot
            head := bytesEqual (some att.BeaconBlockRoot) block.parentRoot })
        0 (assignments.get (attKey att.Slot att.Index) [])

/-- The candidate votes of the attestations of a block from position `attIdx` on. -/
def attestationsEvents (env : Env) (epoch : Nat) (epochStats : EpochStats) (targetRoot : Bytes)
    (slot : Nat) (block : CacheBlock) : Nat → List Attestation → List VoteEvent
  | _, [] => []
  | attIdx, att :: rest =>
    attestationEvents env epoch epochStats targetRoot slot block attIdx att ++
      attestationsEvents env epoch epochStats targetRoot slot block (attIdx + 1) rest

/-- The candidate votes of the block at `slot`, if the map has one with a readable body. -/
def slotEvents (env : Env) (blockMap : Nat → Option CacheBlock) (epoch : Nat)
    (epochStats : EpochStats) (targetRoot : Bytes) (slot : Nat) : List VoteEvent :=
  match blockMap slot with
  | none => []
  | some block =>
    match block.body with
    | none => []
    | some blockBody =>
      match blockBody.attestations with
      | none => []
      | some attestations =>
        attestationsEvents env epoch epochStats targetRoot slot block 0 attestations

/-- The slots `firstSlot, ..., lastSlot` in ascending order. -/
def scanSlots (env : Env) (epoch : Nat) (currentOnly : Bool) : List Nat :=
  List.range' (firstSlotOf env epoch)
    (lastSlotOf env epoch currentOnly + 1 - firstSlotOf env epoch)

/-- All candidate votes of the scan, in ascending slot order, then attestation order,
then committee position. -/
def scanEvents (env : Env) (blockMap : Nat → Option CacheBlock) (epoch : Nat)
    (epochStats : EpochStats) (targetRoot : Bytes) (currentOnly : Bool) : List VoteEvent :=
  (scanSlots env epoch currentOnly).flatMap (slotEvents env blockMap epoch epochStats targetRoot)

/-- The candidates that are the first of their validator, `seen` being the validators
of earlier candidates. -/
def firstVotes : List Nat → List VoteEvent → List VoteEvent
  | _, [] => []
  | seen, e :: rest =>
    if e.validator ∈ seen then firstVotes seen rest
    else e :: firstVotes (e.validator :: seen) rest

/-- The sum of the weights of the votes of `log` that satisfy `p`. -/
def weightSum (epochStats : EpochStats) (p : VoteEvent → Bool) (log : List VoteEvent) : Nat :=
  ((log.filter p).map (fun e => voteWeight epochStats e.validator)).sum

/-- The three amounts of a bucket when exactly the votes of `log` that satisfy `p` are
counted in it. -/
def tallyAmounts (epochStats : EpochStats) (p : VoteEvent → Bool) (log : List VoteEvent) :
    VoteAmounts :=
  { targetVoteAmount := weightSum epochStats (fun e => p e && e.target) log % u64
    headVoteAmount := weightSum epochStats (fun e => p e && e.head) log % u64
    totalVoteAmount := weightSum epochStats p log % u64 }

/-- The `EpochVotes` in which exactly the votes of `log` are counted, each in the bucket
of its block. -/
def tallyOf (epochStats : EpochStats) (log : List VoteEvent) : EpochVotes :=
  { currentEpoch := tallyAmounts epochStats (fun e => !e.isNextEpoch) log
    nextEpoch := tallyAmounts epochStats (fun e => e.isNextEpoch) log
    VoteCounts := epochStats.validatorStats.isNone
    ActivityMap := log.map (fun e => (e.validator, true)) }

/-- The step of the scan seen one candidate at a time: a validator already in the
activity map is skipped, any other is counted with its weight. -/
def tallyStep (epochStats : EpochStats) (votes : EpochVotes) (e : VoteEvent) : EpochVotes :=
  if votes.ActivityMap.get e.validator false then votes
  else
    addToBucket votes e.isNextEpoch e.target e.head (voteWeight epochStats e.validator)
      (votes.ActivityMap.set e.validator true)

/-- The six amounts are `uint64` values. -/
def EpochVotes.InRange (votes : EpochVotes) : Prop :=
  votes.currentEpoch.targetVoteAmount < u64 ∧ votes.currentEpoch.headVoteAmount < u64 ∧
  votes.currentEpoch.totalVoteAmount < u64 ∧ votes.nextEpoch.targetVoteAmount < u64 ∧
  votes.nextEpoch.headVoteAmount < u64 ∧ votes.nextEpoch.totalVoteAmount < u64

/-- The event `e` is a candidate vote of the scan: its slot is one of the scanned slots,
the block map has a block there whose body lists at position `e.attIdx` an attestation
whose slot lies in `epoch`, the committee of that attestation has `e.validator` at
position `e.bitIdx`, and that aggregation bit is set. -/
def IsCandidate (env : Env) (blockMap : Nat → Option CacheBlock) (epoch : Nat)
    (epochStats : EpochStats) (targetRoot : Bytes) (currentOnly : Bool) (e : VoteEvent) : Prop :=
  firstSlotOf env epoch ≤ e.slot ∧ e.slot ≤ lastSlotOf env epoch currentOnly ∧
  ∃ (block : CacheBlock) (blockBody : BlockBody) (attestations : List Attestation)
    (att : Attestation) (assignments : GoMap String (List Nat)),
    blockMap e.slot = some block ∧ block.body = some blockBody ∧
    blockBody.attestations = some attestations ∧
    attestations[e.attIdx]? = some att ∧
    EpochOfSlot env att.Slot = epoch ∧
    epochStats.attestorAssignments = some assignments ∧
    (assignments.get (attKey att.Slot att.Index) [])[e.bitIdx]? = some e.validator ∧
    env.BitAtVector att.AggregationBits e.bitIdx = true ∧
    e.isNextEpoch = decide (EpochOfSlot env e.slot > epoch) ∧
    e.target = bytesEqual (some att.TargetRoot) targetRoot ∧
    e.head = bytesEqual (some att.BeaconBlockRoot) block.parentRoot

/-- The order of the scan: ascending slot, then attestation position, then committee
position. -/
def scanBefore (c e : VoteEvent) : Prop :=
  c.slot < e.slot ∨ (c.slot = e.slot ∧
    (c.attIdx < e.attIdx ∨ (c.attIdx = e.attIdx ∧ c.bitIdx < e.bitIdx)))

/-- No dependent root comes from the canonical blocks: for epoch 0 the first canonical
block of the epoch is unknown or has a nil root; for a later epoch the first canonical
block is unknown or has a nil parent root, and the last canonical block of the epoch
before is unknown or has a nil root. -/
def NoCanonicalRoot (client : IndexerClient) (epoch : Nat) (head : Bytes) : Prop :=
  (epoch = 0 ∧
    (client.getFirstCanonicalBlock epoch head = none ∨
      ∃ b, client.getFirstCanonicalBlock epoch head = some b ∧ b.Root = none)) ∨
  (epoch > 0 ∧
    (client.getFirstCanonicalBlock epoch head = none ∨
      ∃ b, client.getFirstCanonicalBlock epoch head = some b ∧ b.parentRoot = none) ∧
    (client.getLastCanonicalBlock (epoch - 1) head = none ∨
      ∃ b, client.getLastCanonicalBlock (epoch - 1) head = some b ∧ b.Root = none))

/-- The validators a committee duties response lists under the key `k`: those of the
committees with that key, in the order of the response. -/
def committeeValidators (k : String) : List Committee → List Nat
  | [] => []
  | committee :: rest =>
    if attKey committee.Slot committee.Index = k then
      committee.Validators ++ committeeValidators k rest
    else committeeValidators k rest

/-! ## A small chain used to evaluate the definitions -/

/-- A bit test for the examples: bit `i % 8` of byte `i / 8`. -/
def exampleBitAt (bits : List Nat) (i : Nat) : Bool := (bits.getD (i / 8) 0).testBit (i % 8)

/-- Four slots per epoch: epoch 1 is slots 4 to 7, epoch 2 is slots 8 to 11. -/
def exampleEnv : Env :=
  { SlotsPerEpoch := 4, AltairForkEpoch := 100, WhiskForkEpoch := none
    BitAtVector := exampleBitAt }

/-- Epoch 1 with two committees and no validator snapshot. -/
def exampleStats : EpochStats :=
  { Epoch := 1, DependentRoot := some [9], dependentStateRef := "", seenCount := 0
    proposerAssignments := none
    attestorAssignments := some [("4-0", [10, 11, 12]), ("5-0", [13, 14])]
    syncAssignments := none, validatorStats := none }

/-- The same epoch with the balances of validators 10, 11 and 12. -/
def exampleStatsBalances : EpochStats :=
  { exampleStats with
    validatorStats := some
      { ValidatorCount := 3, ValidatorBalance := 68, EligibleAmount := 68
        ValidatorBalances := [(10, 32), (11, 31), (12, 5)] } }

/-- A block at `slot` with the given parent root and attestations. -/
def exampleBlock (slot : Nat) (parent : List Nat) (atts : List Attestation) : CacheBlock :=
  { Root := some [slot], Slot := slot, parentRoot := some parent, stateRoot := ""
    body := some { attestations := some atts } }

/-- One block, at slot 9 (epoch 2): validators 10 and 11 attest slot 4 with target root
`[1]` and head root `[8]`. -/
def exampleMap : Nat → Option CacheBlock := fun slot =>
  if slot = 9 then
    some (exampleBlock 9 [8]
      [{ Slot := 4, Index := 0, AggregationBits := [3], TargetRoot := [1],
         BeaconBlockRoot := [8] }])
  else none

/-- The block added at slot 6 (epoch 1): validator 10 attests slot 4 with target root
`[2]`. -/
def exampleNewBlock : CacheBlock :=
  exampleBlock 6 [5]
    [{ Slot := 4, Index := 0, AggregationBits := [1], TargetRoot := [2],
       BeaconBlockRoot := [5] }]

/-- The map `blockMap` extended with `slot -> block`. -/
def extendMap (blockMap : Nat → Option CacheBlock) (slot : Nat) (block : CacheBlock) :
    Nat → Option CacheBlock :=
  fun s => if s = slot then some block else blockMap s

/-- A client that knows no block and whose beacon node answers every call: proposer
duties with dependent root `[7]` and the given duties, a header at slot 5, one committee
and no sync committee. -/
def exampleClient (duties : List ProposerDuty) : IndexerClient :=
  { getFirstCanonicalBlock := fun _ _ => none
    getLastCanonicalBlock := fun _ _ => none
    getCachedBlock := fun _ => none
    GetHighestRootBeforeSlot := fun _ _ => some [3]
    GetProposerDuties := fun _ => .ok (some { DependentRoot := [7], Data := duties })
    GetBlockHeaderByBlockroot := fun _ => .ok (some { Slot := 5, StateRoot := "0xaa" })
    GetCommitteeDuties := fun _ _ => .ok [{ Slot := 4, Index := 0, Validators := [10, 11] }]
    GetSyncCommitteeDuties := fun _ _ => .ok none
    lastEpochStats := 0 }

/-- A client that knows the first canonical block of epoch 1, without parent root, and
the last canonical block of epoch 0, with root `[3]`. -/
def exampleClientBlocks : IndexerClient :=
  { exampleClient [] with
    getFirstCanonicalBlock := fun _ _ =>
      some { Root := some [4], Slot := 4, parentRoot := none, stateRoot := "", body := none }
    getLastCanonicalBlock := fun _ _ =>
      some { Root := some [3], Slot := 3, parentRoot := some [2], stateRoot := ""
             body := none } }

/-- The empty epoch statistics cache. -/
def emptyCache : IndexerCache := { heap := [], epochStatsMap := [] }

/-- A cache with one record, for epoch 1 and dependent root `[7]`, the root the example
beacon node answers with. -/
def exampleCacheMatching : IndexerCache :=
  { heap := [newEpochStats 1 (some [7])], epochStatsMap := [(1, [0])] }

/-- What the load on `exampleCacheMatching` leaves when the beacon node lists the four
slots of epoch 1. -/
def exampleLoaded : LazyResult :=
  { cache :=
      { heap :=
          [{ Epoch := 1, DependentRoot := some [7], dependentStateRef := "0xaa"
             seenCount := 1, proposerAssignments := some [(4, 1), (5, 2), (6, 3), (7, 4)]
             attestorAssignments := some [("4-0", [10, 11])]
             syncAssignments := none, validatorStats := none }]
        epochStatsMap := [(1, [0])] }
    calls := [.proposerDuties 1, .blockHeader (some [7]), .validatorStatsLazy 0 "0xaa",
      .committeeDuties "0xaa" 1]
    error := none, redirects := 0 }

/-- A cache with one record, for epoch 1 and dependent root `[9]`. -/
def exampleCache : IndexerCache :=
  { heap := [newEpochStats 1 (some [9])], epochStatsMap := [(1, [0])] }

/-- Three validators for the snapshot of epoch 1: 10 and 11 are active, 12 has exited. -/
def exampleValidators : List ValidatorEntry :=
  [{ Index := 10, Balance := 33, EffectiveBalance := 32, ActivationEpoch := 0, ExitEpoch := 9 },
   { Index := 11, Balance := 31, EffectiveBalance := 31, ActivationEpoch := 1, ExitEpoch := 9 },
   { Index := 12, Balance := 5, EffectiveBalance := 5, ActivationEpoch := 0, ExitEpoch := 1 }]

/-- The example configuration with the Altair fork at genesis. -/
def exampleEnvAltairGenesis : Env := { exampleEnv with AltairForkEpoch := 0 }

/-- A cache with one record, for epoch 0 and dependent root `[7]`. -/
def exampleCacheGenesis : IndexerCache :=
  { heap := [newEpochStats 0 (some [7])], epochStatsMap := [(0, [0])] }

/-- The example configuration with the Altair fork at epoch 1. -/
def exampleEnvAltair : Env := { exampleEnv with AltairForkEpoch := 1 }

/-- A cache whose only record is loaded and has been seen `2 ^ 64 - 1` times. -/
def exampleCacheSeenMax : IndexerCache :=
  { heap :=
      [{ Epoch := 1, DependentRoot := some [7], dependentStateRef := "0xaa"
         seenCount := 2 ^ 64 - 1, proposerAssignments := some [(4, 1)]
         attestorAssignments := some [("4-0", [10, 11])]
         syncAssignments := none, validatorStats := none }]
    epochStatsMap := [(1, [0])] }

/-- A client whose beacon node knows no block header. -/
def exampleClientNoHeader : IndexerClient :=
  { exampleClient [] with GetBlockHeaderByBlockroot := fun _ => .ok none }

/-- What the load on `exampleCacheMatching` leaves with the Altair fork at epoch 1, when
the beacon node lists no proposer duty. -/
def exampleLoadedAltair : LazyResult :=
  { cache :=
      { heap :=
          [{ Epoch := 1, DependentRoot := some [7], dependentStateRef := "0xaa"
             seenCount := 1, proposerAssignments := some []
             attestorAssignments := some [("4-0", [10, 11])]
             syncAssignments := none, validatorStats := none }]
        epochStatsMap := [(1, [0])] }
    calls := [.proposerDuties 1, .blockHeader (some [7]), .validatorStatsLazy 0 "0xaa",
      .committeeDuties "0xaa" 1, .syncCommitteeDuties "4" 1]
    error := none, redirects := 0 }

/-- A cache with two records for epoch 1, with dependent roots `[9]` and `[7]`, and one
for epoch 2. -/
def exampleCacheThree : IndexerCache :=
  { heap := [newEpochStats 1 (some [9]), newEpochStats 1 (some [7]), newEpochStats 2 (some [5])]
    epochStatsMap := [(1, [0, 1]), (2, [2])] }

/-- A committee duties response with three committees: two for slot 4, the second of
them without validators, and one for slot 5. -/
def exampleCommittees : List Committee :=
  [{ Slot := 4, Index := 0, Validators := [10, 11] },
   { Slot := 4, Index := 1, Validators := [] },
   { Slot := 5, Index := 0, Validators := [12] }]

/-- The example client with a beacon node that answers every committee duties call with
`exampleCommittees`. -/
def exampleClientCommittees : IndexerClient :=
  { exampleClient [] with GetCommitteeDuties := fun _ _ => .ok exampleCommittees }

/-! ## Theorems on Go maps -/

namespace GoMap

variable {κ ν : Type} [DecidableEq κ]

theorem find_set (m : GoMap κ ν) (k k' : κ) (v : ν) :
    find (set m k v) k' = if k = k' then some v else find m k' := by
  induction m with
  | nil => simp [set, find]
  | cons hd tl ih =>
    obtain ⟨a, b⟩ := hd
    by_cases h : a = k
    · subst h
      by_cases h' : a = k' <;> simp [set, find, h']
    · by_cases h' : a = k'
      · subst h'
        have : ¬ k = a := fun e => h e.symm
        simp [set, find, h, this]
      · simp [set, find, h, h', ih]

theorem find_eq_none_iff (m : GoMap κ ν) (k : κ) : find m k = none ↔ k ∉ keys m := by
  induction m with
  | nil => simp [find, keys]
  | cons hd tl ih =>
    obtain ⟨a, b⟩ := hd
    by_cases h : a = k
    · simp [find, keys, h]
    · have h' : ¬ k = a := fun e => h e.symm
      simpa [find, keys, h, h'] using ih

theorem set_of_not_mem (m : GoMap κ ν) (k : κ) (v : ν) (h : k ∉ keys m) :
    set m k v = m ++ [(k, v)] := by
  induction m with
  | nil => simp [set]
  | cons hd tl ih =>
    obtain ⟨a, b⟩ := hd
    have hk : ¬ a = k := by
      intro e; apply h; simp [keys, e]
    have ht : k ∉ keys tl := by
      intro e; apply h; simp only [keys, List.map_cons, List.mem_cons]; exact Or.inr e
    simp [set, hk, ih ht]

/-- Reading a set of keys all mapped to `true`. -/
theorem get_trueMap (l : List κ) (k : κ) :
    get (l.map (fun x => (x, true))) k false = decide (k ∈ l) := by
  induction l with
  | nil => simp [get, find]
  | cons hd tl ih =>
    by_cases h : hd = k
    · simp [get, find, h]
    · have h' : ¬ k = hd := fun e => h e.symm
      simp only [get, find, List.map_cons, h, if_false, List.mem_cons, h', false_or]
      exact ih

omit [DecidableEq κ] in
theorem keys_trueMap (l : List κ) : keys (l.map (fun x => (x, true))) = l := by
  simp [keys, Function.comp_def]

end GoMap

/-! ## The slot loop -/

theorem u64_pos : 0 < u64 := by unfold u64; norm_num

/-- With `lastSlot` the largest `uint64` the loop condition never fails. -/
theorem slotLoop_none {σ : Type} (body : σ → Nat → σ) (lastSlot : Nat)
    (hlast : u64 ≤ lastSlot + 1) (fuel : Nat) :
    ∀ (slot : Nat) (votes : σ), slot < u64 →
      slotLoop body lastSlot fuel slot votes = none := by
  induction fuel with
  | zero => intro slot votes _; rfl
  | succ n ih =>
    intro slot votes hslot
    have hle : slot ≤ lastSlot := by omega
    simp only [slotLoop, hle, if_true]
    exact ih _ _ (Nat.mod_lt _ u64_pos)

/-- Below the largest `uint64` the loop, when it returns, has folded its body over the
slots `slot, ..., lastSlot`. -/
theorem slotLoop_some {σ : Type} (body : σ → Nat → σ) (lastSlot : Nat)
    (hlast : lastSlot + 1 < u64) (fuel : Nat) :
    ∀ (slot : Nat) (votes r : σ),
      slotLoop body lastSlot fuel slot votes = some r →
      r = (List.range' slot (lastSlot + 1 - slot)).foldl body votes := by
  induction fuel with
  | zero => intro slot votes r h; simp [slotLoop] at h
  | succ n ih =>
    intro slot votes r h
    by_cases hle : slot ≤ lastSlot
    · simp only [slotLoop, hle, if_true] at h
      have hmod : (slot + 1) % u64 = slot + 1 := Nat.mod_eq_of_lt (by omega)
      rw [hmod] at h
      have := ih _ _ _ h
      have hn : lastSlot + 1 - slot = (lastSlot + 1 - (slot + 1)) + 1 := by omega
      rw [hn, List.range'_succ, List.foldl_cons]
      exact this
    · simp only [slotLoop, hle, if_false, Option.some.injEq] at h
      have hn : lastSlot + 1 - slot = 0 := by omega
      rw [hn]
      simp [h]

/-- Below the largest `uint64` the loop returns once the fuel exceeds the number of
slots left. -/
theorem slotLoop_total {σ : Type} (body : σ → Nat → σ) (lastSlot : Nat)
    (hlast : lastSlot + 1 < u64) (fuel : Nat) :
    ∀ (slot : Nat) (votes : σ), lastSlot + 1 - slot < fuel →
      slotLoop body lastSlot fuel slot votes =
        some ((List.range' slot (lastSlot + 1 - slot)).foldl body votes) := by
  induction fuel with
  | zero => intro slot votes h; omega
  | succ n ih =>
    intro slot votes h
    by_cases hle : slot ≤ lastSlot
    · simp only [slotLoop, hle, if_true]
      have hmod : (slot + 1) % u64 = slot + 1 := Nat.mod_eq_of_lt (by omega)
      rw [hmod, ih _ _ (by omega)]
      have hn : lastSlot + 1 - slot = (lastSlot + 1 - (slot + 1)) + 1 := by omega
      rw [hn, List.range'_succ, List.foldl_cons]
    · simp only [slotLoop, hle, if_false]
      have hn : lastSlot + 1 - slot = 0 := by omega
      rw [hn]
      simp

theorem firstSlotOf_lt (env : Env) (epoch : Nat) : firstSlotOf env epoch < u64 :=
  Nat.mod_lt _ u64_pos

theorem lastSlotOf_lt (env : Env) (epoch : Nat) (currentOnly : Bool) :
    lastSlotOf env epoch currentOnly < u64 := by
  unfold lastSlotOf
  cases currentOnly <;> simp only [Bool.false_eq_true, if_false, if_true] <;>
    exact Nat.mod_lt _ u64_pos

/-! ## The scan counts the first candidate of every validator -/

theorem addVotes_zero (a : VoteAmounts) (t h : Bool)
    (h1 : a.targetVoteAmount < u64) (h2 : a.headVoteAmount < u64)
    (h3 : a.totalVoteAmount < u64) : addVotes a t h 0 = a := by
  cases a
  simp only [addVotes, Nat.add_zero] at *
  simp [Nat.mod_eq_of_lt h1, Nat.mod_eq_of_lt h2, Nat.mod_eq_of_lt h3]

theorem addVotes_addVotes (a : VoteAmounts) (t h : Bool) (x y : Nat) :
    addVotes (addVotes a t h x) t h y = addVotes a t h ((x + y) % u64) := by
  have key : ∀ z : Nat, ((z + x) % u64 + y) % u64 = (z + (x + y) % u64) % u64 := by
    intro z
    rw [Nat.mod_add_mod, Nat.add_mod_mod, Nat.add_assoc]
  cases t <;> cases h <;> simp [addVotes, key]

theorem addToBucket_zero (votes : EpochVotes) (b t h : Bool) (hr : votes.InRange) :
    addToBucket votes b t h 0 votes.ActivityMap = votes := by
  obtain ⟨h1, h2, h3, h4, h5, h6⟩ := hr
  cases b <;> simp [addToBucket, addVotes_zero, h1, h2, h3, h4, h5, h6]

theorem addToBucket_addToBucket (votes : EpochVotes) (b t h : Bool) (x y : Nat)
    (act act' : GoMap Nat Bool) :
    addToBucket (addToBucket votes b t h x act) b t h y act' =
      addToBucket votes b t h ((x + y) % u64) act' := by
  cases b <;> simp [addToBucket, addVotes_addVotes]

theorem addToBucket_activity (votes : EpochVotes) (b t h : Bool) (x : Nat)
    (act : GoMap Nat Bool) : (addToBucket votes b t h x act).ActivityMap = act := by
  cases b <;> simp [addToBucket]

theorem addVotes_inRange (a : VoteAmounts) (t h : Bool) (x : Nat)
    (h1 : a.targetVoteAmount < u64) (h2 : a.headVoteAmount < u64) :
    (addVotes a t h x).targetVoteAmount < u64 ∧ (addVotes a t h x).headVoteAmount < u64 ∧
      (addVotes a t h x).totalVoteAmount < u64 := by
  refine ⟨?_, ?_, Nat.mod_lt _ u64_pos⟩
  · cases t
    · simpa [addVotes] using h1
    · simpa [addVotes] using Nat.mod_lt _ u64_pos
  · cases h
    · simpa [addVotes] using h2
    · simpa [addVotes] using Nat.mod_lt _ u64_pos

theorem addToBucket_inRange (votes : EpochVotes) (b t h : Bool) (x : Nat)
    (act : GoMap Nat Bool) (hr : votes.InRange) : (addToBucket votes b t h x act).InRange := by
  obtain ⟨h1, h2, h3, h4, h5, h6⟩ := hr
  cases b
  · have := addVotes_inRange votes.currentEpoch t h x h1 h2
    simp only [addToBucket, Bool.false_eq_true, if_false, EpochVotes.InRange]
    exact ⟨this.1, this.2.1, this.2.2, h4, h5, h6⟩
  · have := addVotes_inRange votes.nextEpoch t h x h4 h5
    simp only [addToBucket, if_true, EpochVotes.InRange]
    exact ⟨h1, h2, h3, this.1, this.2.1, this.2.2⟩

theorem tallyStep_inRange (epochStats : EpochStats) (votes : EpochVotes) (e : VoteEvent)
    (hr : votes.InRange) : (tallyStep epochStats votes e).InRange := by
  unfold tallyStep
  split
  · exact hr
  · exact addToBucket_inRange _ _ _ _ _ _ hr

theorem foldl_tallyStep_inRange (epochStats : EpochStats) (l : List VoteEvent) :
    ∀ votes : EpochVotes, votes.InRange → (l.foldl (tallyStep epochStats) votes).InRange := by
  induction l with
  | nil => intro votes h; exact h
  | cons e tl ih => intro votes h; exact ih _ (tallyStep_inRange _ _ _ h)

/-- The committee loop adds to `voteAmount` what the candidate-by-candidate tally adds
to the bucket directly. -/
theorem voteLoop_tally (env : Env) (epochStats : EpochStats) (voteBitset : List Nat)
    (votes : EpochVotes) (b t h : Bool) (mk : Nat → Nat → VoteEvent)
    (hv : ∀ i x, (mk i x).validator = x) (hb : ∀ i x, (mk i x).isNextEpoch = b)
    (ht : ∀ i x, (mk i x).target = t) (hh : ∀ i x, (mk i x).head = h)
    (validators : List Nat) :
    ∀ (bitIdx voteAmount : Nat) (activity : GoMap Nat Bool),
      addToBucket votes b t h
          (voteLoop env epochStats voteBitset bitIdx validators (voteAmount, activity)).1
          (voteLoop env epochStats voteBitset bitIdx validators (voteAmount, activity)).2 =
        (bitEvents env voteBitset mk bitIdx validators).foldl (tallyStep epochStats)
          (addToBucket votes b t h voteAmount activity) := by
  induction validators with
  | nil => intro bitIdx voteAmount activity; simp [voteLoop, bitEvents]
  | cons x rest ih =>
    intro bitIdx voteAmount activity
    by_cases hbit : env.BitAtVector voteBitset bitIdx = true
    · by_cases hact : GoMap.get activity x false = true
      · simp only [voteLoop, bitEvents, hbit, hact, if_true, List.foldl_cons]
        rw [ih]
        simp [tallyStep, addToBucket_activity, hv, hact]
      · simp only [voteLoop, bitEvents, hbit, hact, if_true, if_false, Bool.false_eq_true,
          List.foldl_cons]
        rw [ih]
        simp only [tallyStep, addToBucket_activity, hv, hb, ht, hh, hact, if_false,
          addToBucket_addToBucket]
        simp
    · simp only [voteLoop, bitEvents, hbit, if_false]
      exact ih _ _ _

theorem processAttestation_tally (env : Env) (epoch : Nat) (epochStats : EpochStats)
    (targetRoot : Bytes) (slot : Nat) (block : CacheBlock) (attIdx : Nat) (att : Attestation)
    (votes : EpochVotes) (hr : votes.InRange) :
    processAttestation env epoch epochStats targetRoot (decide (EpochOfSlot env slot > epoch))
        block votes att =
      (attestationEvents env epoch epochStats targetRoot slot block attIdx att).foldl
        (tallyStep epochStats) votes := by
  unfold processAttestation attestationEvents attestationVotes
  by_cases he : EpochOfSlot env att.Slot = epoch
  · simp only [he, ne_eq, not_true_eq_false, if_false]
    cases hA : epochStats.attestorAssignments with
    | none => simp [addToBucket_zero _ _ _ _ hr]
    | some assignments =>
      have key := voteLoop_tally env epochStats att.AggregationBits votes
        (decide (EpochOfSlot env slot > epoch))
        (bytesEqual (some att.TargetRoot) targetRoot)
        (bytesEqual (some att.BeaconBlockRoot) block.parentRoot)
        (fun bitIdx validatorIdx =>
          { slot := slot, attIdx := attIdx, bitIdx := bitIdx, validator := validatorIdx
            isNextEpoch := decide (EpochOfSlot env slot > epoch)
            target := bytesEqual (some att.TargetRoot) targetRoot
            head := bytesEqual (some att.BeaconBlockRoot) block.parentRoot })
        (fun _ _ => rfl) (fun _ _ => rfl) (fun _ _ => rfl) (fun _ _ => rfl)
        (assignments.get (attKey att.Slot att.Index) []) 0 0 votes.ActivityMap
      rw [addToBucket_zero _ _ _ _ hr] at key
      exact key
  · simp [he]

theorem attestations_tally (env : Env) (epoch : Nat) (epochStats : EpochStats)
    (targetRoot : Bytes) (slot : Nat) (block : CacheBlock) (atts : List Attestation) :
    ∀ (attIdx : Nat) (votes : EpochVotes), votes.InRange →
      atts.foldl (processAttestation env epoch epochStats targetRoot
          (decide (EpochOfSlot env slot > epoch)) block) votes =
        (attestationsEvents env epoch epochStats targetRoot slot block attIdx atts).foldl
          (tallyStep epochStats) votes := by
  induction atts with
  | nil => intro attIdx votes _; simp [attestationsEvents]
  | cons att rest ih =>
    intro attIdx votes hr
    simp only [List.foldl_cons, attestationsEvents, List.foldl_append]
    rw [processAttestation_tally env epoch epochStats targetRoot slot block attIdx att votes hr]
    exact ih _ _ (foldl_tallyStep_inRange _ _ _ hr)

theorem processSlot_tally (env : Env) (blockMap : Nat → Option CacheBlock) (epoch : Nat)
    (epochStats : EpochStats) (targetRoot : Bytes) (votes : EpochVotes) (slot : Nat)
    (hr : votes.InRange) :
    processSlot env blockMap epoch epochStats targetRoot votes slot =
      (slotEvents env blockMap epoch epochStats targetRoot slot).foldl
        (tallyStep epochStats) votes := by
  unfold processSlot slotEvents
  cases blockMap slot with
  | none => simp
  | some block =>
    simp only []
    cases block.body with
    | none => simp
    | some blockBody =>
      simp only []
      cases blockBody.attestations with
      | none => simp
      | some atts => exact attestations_tally _ _ _ _ _ _ _ 0 _ hr

theorem slots_tally (env : Env) (blockMap : Nat → Option CacheBlock) (epoch : Nat)
    (epochStats : EpochStats) (targetRoot : Bytes) (slots : List Nat) :
    ∀ votes : EpochVotes, votes.InRange →
      slots.foldl (processSlot env blockMap epoch epochStats targetRoot) votes =
        (slots.flatMap (slotEvents env blockMap epoch epochStats targetRoot)).foldl
          (tallyStep epochStats) votes := by
  induction slots with
  | nil => intro votes _; simp
  | cons s rest ih =>
    intro votes hr
    simp only [List.foldl_cons, List.flatMap_cons, List.foldl_append]
    rw [processSlot_tally _ _ _ _ _ _ _ hr]
    exact ih _ (foldl_tallyStep_inRange _ _ _ hr)

theorem weightSum_append (epochStats : EpochStats) (p : VoteEvent → Bool)
    (l : List VoteEvent) (e : VoteEvent) :
    weightSum epochStats p (l ++ [e]) =
      weightSum epochStats p l + (if p e then voteWeight epochStats e.validator else 0) := by
  unfold weightSum
  by_cases h : p e = true <;> simp [List.filter_append, List.filter_cons, h]

theorem tallyAmounts_append (epochStats : EpochStats) (p : VoteEvent → Bool)
    (l : List VoteEvent) (e : VoteEvent) :
    tallyAmounts epochStats p (l ++ [e]) =
      if p e then
        addVotes (tallyAmounts epochStats p l) e.target e.head (voteWeight epochStats e.validator)
      else tallyAmounts epochStats p l := by
  by_cases h : p e = true
  · cases ht : e.target <;> cases hh : e.head <;>
      simp [tallyAmounts, addVotes, weightSum_append, h, ht, hh, Nat.mod_add_mod]
  · simp [tallyAmounts, weightSum_append, h]

/-- One step of the tally on the votes of a log: a validator of the log is skipped, any
other candidate is appended. -/
theorem tallyStep_tallyOf (epochStats : EpochStats) (log : List VoteEvent) (e : VoteEvent) :
    tallyStep epochStats (tallyOf epochStats log) e =
      if e.validator ∈ log.map VoteEvent.validator then tallyOf epochStats log
      else tallyOf epochStats (log ++ [e]) := by
  have hmap : (log.map (fun e => (e.validator, true)) : GoMap Nat Bool) =
      (log.map VoteEvent.validator).map (fun x => (x, true)) := by
    simp [List.map_map, Function.comp_def]
  by_cases hm : e.validator ∈ log.map VoteEvent.validator
  · have : GoMap.get (tallyOf epochStats log).ActivityMap e.validator false = true := by
      simp only [tallyOf, hmap, GoMap.get_trueMap]
      simpa using hm
    simp only [tallyStep, this, if_true, hm]
  · have hget : ¬ GoMap.get (tallyOf epochStats log).ActivityMap e.validator false = true := by
      simp only [tallyOf, hmap, GoMap.get_trueMap]
      simpa using hm
    have hset : GoMap.set (tallyOf epochStats log).ActivityMap e.validator true =
        (log ++ [e]).map (fun e => (e.validator, true)) := by
      simp only [tallyOf]
      rw [GoMap.set_of_not_mem]
      · simp
      · rw [hmap, GoMap.keys_trueMap]; exact hm
    simp only [tallyStep, hget, if_false, hm, hset]
    cases hb : e.isNextEpoch <;>
      simp [addToBucket, tallyOf, tallyAmounts_append, hb]

theorem foldl_tallyStep_tallyOf (epochStats : EpochStats) (events : List VoteEvent) :
    ∀ (seen : List Nat) (log : List VoteEvent),
      (∀ x, x ∈ seen ↔ x ∈ log.map VoteEvent.validator) →
      events.foldl (tallyStep epochStats) (tallyOf epochStats log) =
        tallyOf epochStats (log ++ firstVotes seen events) := by
  induction events with
  | nil => intro seen log _; simp [firstVotes]
  | cons e rest ih =>
    intro seen log hseen
    rw [List.foldl_cons, tallyStep_tallyOf]
    by_cases hm : e.validator ∈ seen
    · have hm' := (hseen _).1 hm
      simp only [hm', if_true, firstVotes, hm]
      exact ih seen log hseen
    · have hm' : ¬ e.validator ∈ log.map VoteEvent.validator := fun h => hm ((hseen _).2 h)
      simp only [hm', if_false, firstVotes, hm]
      rw [ih (e.validator :: seen) (log ++ [e])]
      · simp
      · intro x
        simp only [List.mem_cons, List.map_append, List.mem_append, List.map_cons, List.map_nil,
          List.mem_singleton, hseen x]
        tauto

theorem initVotes_eq (epochStats : EpochStats) : initVotes epochStats = tallyOf epochStats [] := by
  simp [initVotes, tallyOf, tallyAmounts, weightSum]

theorem initVotes_inRange (epochStats : EpochStats) : (initVotes epochStats).InRange := by
  simp [initVotes, EpochVotes.InRange, u64_pos]

/-- The fold of the loop body over the scanned slots counts exactly the first candidate of
every validator. -/
theorem scan_eq_tallyOf (env : Env) (blockMap : Nat → Option CacheBlock) (epoch : Nat)
    (epochStats : EpochStats) (targetRoot : Bytes) (currentOnly : Bool) :
    (scanSlots env epoch currentOnly).foldl
        (processSlot env blockMap epoch epochStats targetRoot) (initVotes epochStats) =
      tallyOf epochStats
        (firstVotes [] (scanEvents env blockMap epoch epochStats targetRoot currentOnly)) := by
  rw [slots_tally _ _ _ _ _ _ _ (initVotes_inRange epochStats), initVotes_eq,
    foldl_tallyStep_tallyOf epochStats _ [] [] (by simp)]
  simp [scanEvents]

/-- What `aggregateEpochVotes` returns, when it returns: the tally of the first candidate
of every validator; and then `lastSlot` is not the largest `uint64`. -/
theorem aggregateEpochVotes_some (env : Env) (fuel : Nat) (blockMap : Nat → Option CacheBlock)
    (epoch : Nat) (epochStats : EpochStats) (targetRoot : Bytes) (currentOnly await : Bool)
    (votes : EpochVotes)
    (h : aggregateEpochVotes env fuel blockMap epoch epochStats targetRoot currentOnly await =
      some votes) :
    lastSlotOf env epoch currentOnly + 1 < u64 ∧
    votes = tallyOf epochStats
      (firstVotes [] (scanEvents env blockMap epoch epochStats targetRoot currentOnly)) := by
  unfold aggregateEpochVotes at h
  have hlt : lastSlotOf env epoch currentOnly + 1 < u64 := by
    by_contra hc
    rw [slotLoop_none _ _ (by omega) _ _ _ (firstSlotOf_lt env epoch)] at h
    exact Option.noConfusion h
  refine ⟨hlt, ?_⟩
  rw [slotLoop_some _ _ hlt _ _ _ _ h]
  exact scan_eq_tallyOf env blockMap epoch epochStats targetRoot currentOnly

/-! ## The candidates of the scan -/

theorem mem_bitEvents (env : Env) (voteBitset : List Nat) (mk : Nat → Nat → VoteEvent)
    (e : VoteEvent) (validators : List Nat) :
    ∀ bitIdx : Nat, e ∈ bitEvents env voteBitset mk bitIdx validators ↔
      ∃ k x, validators[k]? = some x ∧ env.BitAtVector voteBitset (bitIdx + k) = true ∧
        e = mk (bitIdx + k) x := by
  induction validators with
  | nil => intro bitIdx; simp [bitEvents]
  | cons v rest ih =>
    intro bitIdx
    have hstep : (∃ k x, (v :: rest)[k]? = some x ∧
        env.BitAtVector voteBitset (bitIdx + k) = true ∧ e = mk (bitIdx + k) x) ↔
        ((env.BitAtVector voteBitset bitIdx = true ∧ e = mk bitIdx v) ∨
          ∃ k x, rest[k]? = some x ∧ env.BitAtVector voteBitset (bitIdx + 1 + k) = true ∧
            e = mk (bitIdx + 1 + k) x) := by
      constructor
      · rintro ⟨k, x, hk, hb, he⟩
        cases k with
        | zero =>
          simp only [List.getElem?_cons_zero, Option.some.injEq] at hk
          subst hk
          exact Or.inl ⟨by simpa using hb, by simpa using he⟩
        | succ k =>
          simp only [List.getElem?_cons_succ] at hk
          refine Or.inr ⟨k, x, hk, ?_, ?_⟩
          · rw [Nat.add_assoc, Nat.add_comm 1 k]; exact hb
          · rw [Nat.add_assoc, Nat.add_comm 1 k]; exact he
      · rintro (⟨hb, he⟩ | ⟨k, x, hk, hb, he⟩)
        · exact ⟨0, v, by simp, by simpa using hb, by simpa using he⟩
        · refine ⟨k + 1, x, by simpa using hk, ?_, ?_⟩
          · rw [Nat.add_assoc, Nat.add_comm 1 k] at hb; exact hb
          · rw [Nat.add_assoc, Nat.add_comm 1 k] at he; exact he
    rw [hstep, ← ih (bitIdx + 1)]
    by_cases hb : env.BitAtVector voteBitset bitIdx = true
    · simp [bitEvents, hb]
    · simp [bitEvents, hb]

theorem mem_attestationsEvents (env : Env) (epoch : Nat) (epochStats : EpochStats)
    (targetRoot : Bytes) (slot : Nat) (block : CacheBlock) (e : VoteEvent)
    (atts : List Attestation) :
    ∀ attIdx : Nat,
      e ∈ attestationsEvents env epoch epochStats targetRoot slot block attIdx atts ↔
      ∃ k att, atts[k]? = some att ∧
        e ∈ attestationEvents env epoch epochStats targetRoot slot block (attIdx + k) att := by
  induction atts with
  | nil => intro attIdx; simp [attestationsEvents]
  | cons a rest ih =>
    intro attIdx
    simp only [attestationsEvents, List.mem_append, ih (attIdx + 1)]
    constructor
    · rintro (h | ⟨k, att, hk, he⟩)
      · exact ⟨0, a, by simp, by simpa using h⟩
      · refine ⟨k + 1, att, by simpa using hk, ?_⟩
        rw [Nat.add_assoc, Nat.add_comm 1 k] at he; exact he
    · rintro ⟨k, att, hk, he⟩
      cases k with
      | zero =>
        simp only [List.getElem?_cons_zero, Option.some.injEq] at hk
        subst hk
        exact Or.inl (by simpa using he)
      | succ k =>
        simp only [List.getElem?_cons_succ] at hk
        refine Or.inr ⟨k, att, hk, ?_⟩
        rw [Nat.add_assoc, Nat.add_comm 1 k]; exact he

theorem mem_scanSlots (env : Env) (epoch : Nat) (currentOnly : Bool) (slot : Nat) :
    slot ∈ scanSlots env epoch currentOnly ↔
      firstSlotOf env epoch ≤ slot ∧ slot ≤ lastSlotOf env epoch currentOnly := by
  unfold scanSlots
  rw [List.mem_range']
  constructor
  · rintro ⟨i, hi, rfl⟩; omega
  · rintro ⟨h1, h2⟩
    exact ⟨slot - firstSlotOf env epoch, by omega, by omega⟩

/-- The list `scanEvents` holds exactly the candidate votes. -/
theorem mem_scanEvents (env : Env) (blockMap : Nat → Option CacheBlock) (epoch : Nat)
    (epochStats : EpochStats) (targetRoot : Bytes) (currentOnly : Bool) (e : VoteEvent) :
    e ∈ scanEvents env blockMap epoch epochStats targetRoot currentOnly ↔
      IsCandidate env blockMap epoch epochStats targetRoot currentOnly e := by
  unfold scanEvents IsCandidate
  rw [List.mem_flatMap]
  constructor
  · rintro ⟨slot, hslot, he⟩
    rw [mem_scanSlots] at hslot
    unfold slotEvents at he
    cases hb : blockMap slot with
    | none => simp [hb] at he
    | some block =>
      simp only [hb] at he
      cases hbody : block.body with
      | none => simp [hbody] at he
      | some blockBody =>
        simp only [hbody] at he
        cases hatts : blockBody.attestations with
        | none => simp [hatts] at he
        | some atts =>
          simp only [hatts] at he
          rw [mem_attestationsEvents] at he
          obtain ⟨k, att, hk, he⟩ := he
          unfold attestationEvents at he
          by_cases hep : EpochOfSlot env att.Slot = epoch
          · simp only [hep, ne_eq, not_true_eq_false, if_false] at he
            cases hA : epochStats.attestorAssignments with
            | none => simp [hA] at he
            | some assignments =>
              simp only [hA] at he
              rw [mem_bitEvents] at he
              obtain ⟨i, x, hi, hbit, rfl⟩ := he
              refine ⟨hslot.1, hslot.2, block, blockBody, atts, att, assignments, hb, hbody,
                hatts, ?_, hep, rfl, ?_, ?_, rfl, rfl, rfl⟩
              · simpa using hk
              · simpa using hi
              · simpa using hbit
          · simp [hep] at he
  · rintro ⟨h1, h2, block, blockBody, atts, att, assignments, hb, hbody, hatts, hk, hep, hA,
      hi, hbit, hnext, htarget, hhead⟩
    refine ⟨e.slot, (mem_scanSlots _ _ _ _).2 ⟨h1, h2⟩, ?_⟩
    unfold slotEvents
    simp only [hb, hbody, hatts]
    rw [mem_attestationsEvents]
    refine ⟨e.attIdx, att, hk, ?_⟩
    unfold attestationEvents
    simp only [hep, ne_eq, not_true_eq_false, if_false, hA]
    rw [mem_bitEvents]
    refine ⟨e.bitIdx, e.validator, hi, by simpa using hbit, ?_⟩
    cases e
    simp only [Nat.zero_add] at *
    simp [hnext, htarget, hhead]

theorem scanBefore_irrefl (e : VoteEvent) : ¬ scanBefore e e := by
  unfold scanBefore; omega

theorem scanBefore_asymm (c e : VoteEvent) (h : scanBefore c e) : ¬ scanBefore e c := by
  unfold scanBefore at *; omega

theorem attestationEvents_fields (env : Env) (epoch : Nat) (epochStats : EpochStats)
    (targetRoot : Bytes) (slot : Nat) (block : CacheBlock) (attIdx : Nat) (att : Attestation)
    (e : VoteEvent)
    (h : e ∈ attestationEvents env epoch epochStats targetRoot slot block attIdx att) :
    e.slot = slot ∧ e.attIdx = attIdx := by
  unfold attestationEvents at h
  split at h
  · simp at h
  · split at h
    · simp at h
    · rw [mem_bitEvents] at h
      obtain ⟨k, x, _, _, rfl⟩ := h
      exact ⟨rfl, rfl⟩

theorem bitEvents_sorted (env : Env) (voteBitset : List Nat) (mk : Nat → Nat → VoteEvent)
    (hmk : ∀ i x, (mk i x).bitIdx = i) (validators : List Nat) :
    ∀ bitIdx : Nat, List.Pairwise (fun a b => a.bitIdx < b.bitIdx)
      (bitEvents env voteBitset mk bitIdx validators) := by
  induction validators with
  | nil => intro bitIdx; simp [bitEvents]
  | cons v rest ih =>
    intro bitIdx
    unfold bitEvents
    split
    · rw [List.pairwise_cons]
      refine ⟨?_, ih _⟩
      intro b hb
      rw [mem_bitEvents] at hb
      obtain ⟨k, x, _, _, rfl⟩ := hb
      rw [hmk, hmk]; omega
    · exact ih _

theorem attestationEvents_sorted (env : Env) (epoch : Nat) (epochStats : EpochStats)
    (targetRoot : Bytes) (slot : Nat) (block : CacheBlock) (attIdx : Nat) (att : Attestation) :
    List.Pairwise scanBefore
      (attestationEvents env epoch epochStats targetRoot slot block attIdx att) := by
  have hf := attestationEvents_fields env epoch epochStats targetRoot slot block attIdx att
  have hp : List.Pairwise (fun a b : VoteEvent => a.bitIdx < b.bitIdx)
      (attestationEvents env epoch epochStats targetRoot slot block attIdx att) := by
    unfold attestationEvents
    split
    · exact List.Pairwise.nil
    · split
      · exact List.Pairwise.nil
      · exact bitEvents_sorted _ _ _ (fun _ _ => rfl) _ _
  refine List.Pairwise.imp_of_mem ?_ hp
  intro a b ha hb hab
  have h1 := hf a ha
  have h2 := hf b hb
  unfold scanBefore
  omega

theorem attestationsEvents_fields (env : Env) (epoch : Nat) (epochStats : EpochStats)
    (targetRoot : Bytes) (slot : Nat) (block : CacheBlock) (atts : List Attestation)
    (attIdx : Nat) (e : VoteEvent)
    (h : e ∈ attestationsEvents env epoch epochStats targetRoot slot block attIdx atts) :
    e.slot = slot ∧ attIdx ≤ e.attIdx := by
  rw [mem_attestationsEvents] at h
  obtain ⟨k, att, _, he⟩ := h
  have := attestationEvents_fields _ _ _ _ _ _ _ _ _ he
  omega

theorem attestationsEvents_sorted (env : Env) (epoch : Nat) (epochStats : EpochStats)
    (targetRoot : Bytes) (slot : Nat) (block : CacheBlock) (atts : List Attestation) :
    ∀ attIdx : Nat, List.Pairwise scanBefore
      (attestationsEvents env epoch epochStats targetRoot slot block attIdx atts) := by
  induction atts with
  | nil => intro attIdx; simp [attestationsEvents]
  | cons a rest ih =>
    intro attIdx
    unfold attestationsEvents
    rw [List.pairwise_append]
    refine ⟨attestationEvents_sorted _ _ _ _ _ _ _ _, ih _, ?_⟩
    intro x hx y hy
    have h1 := attestationEvents_fields _ _ _ _ _ _ _ _ _ hx
    have h2 := attestationsEvents_fields _ _ _ _ _ _ _ _ _ hy
    unfold scanBefore
    omega

theorem slotEvents_slot (env : Env) (blockMap : Nat → Option CacheBlock) (epoch : Nat)
    (epochStats : EpochStats) (targetRoot : Bytes) (slot : Nat) (e : VoteEvent)
    (h : e ∈ slotEvents env blockMap epoch epochStats targetRoot slot) : e.slot = slot := by
  unfold slotEvents at h
  split at h
  · simp at h
  · split at h
    · simp at h
    · split at h
      · simp at h
      · exact (attestationsEvents_fields _ _ _ _ _ _ _ _ _ h).1

theorem slotEvents_sorted (env : Env) (blockMap : Nat → Option CacheBlock) (epoch : Nat)
    (epochStats : EpochStats) (targetRoot : Bytes) (slot : Nat) :
    List.Pairwise scanBefore (slotEvents env blockMap epoch epochStats targetRoot slot) := by
  unfold slotEvents
  split
  · exact List.Pairwise.nil
  · split
    · exact List.Pairwise.nil
    · split
      · exact List.Pairwise.nil
      · exact attestationsEvents_sorted _ _ _ _ _ _ _ _

theorem rangeEvents_sorted (f : Nat → List VoteEvent)
    (hslot : ∀ s e, e ∈ f s → e.slot = s) (hs : ∀ s, List.Pairwise scanBefore (f s))
    (n : Nat) : ∀ s : Nat, List.Pairwise scanBefore ((List.range' s n).flatMap f) := by
  induction n with
  | zero => intro s; simp
  | succ n ih =>
    intro s
    rw [List.range'_succ, List.flatMap_cons, List.pairwise_append]
    refine ⟨hs s, ih _, ?_⟩
    intro a ha b hb
    rw [List.mem_flatMap] at hb
    obtain ⟨t, ht, hb⟩ := hb
    rw [List.mem_range'] at ht
    obtain ⟨i, _, rfl⟩ := ht
    have h1 := hslot _ _ ha
    have h2 := hslot _ _ hb
    unfold scanBefore
    omega

/-- The candidates are listed in the order of the scan. -/
theorem scanEvents_sorted (env : Env) (blockMap : Nat → Option CacheBlock) (epoch : Nat)
    (epochStats : EpochStats) (targetRoot : Bytes) (currentOnly : Bool) :
    List.Pairwise scanBefore
      (scanEvents env blockMap epoch epochStats targetRoot currentOnly) :=
  rangeEvents_sorted _ (slotEvents_slot env blockMap epoch epochStats targetRoot)
    (slotEvents_sorted env blockMap epoch epochStats targetRoot) _ _

/-! ## The first candidate of every validator -/

theorem firstVotes_not_seen (l : List VoteEvent) :
    ∀ (seen : List Nat) (e : VoteEvent), e ∈ firstVotes seen l → e.validator ∉ seen := by
  induction l with
  | nil => intro seen e h; simp [firstVotes] at h
  | cons a rest ih =>
    intro seen e h
    unfold firstVotes at h
    split at h
    · exact ih _ _ h
    · rename_i hna
      rcases List.mem_cons.1 h with rfl | h'
      · exact hna
      · intro hs
        exact ih _ _ h' (List.mem_cons_of_mem _ hs)

theorem firstVotes_nodup (l : List VoteEvent) :
    ∀ seen : List Nat, ((firstVotes seen l).map VoteEvent.validator).Nodup := by
  induction l with
  | nil => intro seen; simp [firstVotes]
  | cons a rest ih =>
    intro seen
    unfold firstVotes
    split
    · exact ih _
    · rw [List.map_cons, List.nodup_cons]
      refine ⟨?_, ih _⟩
      intro hm
      rw [List.mem_map] at hm
      obtain ⟨e, he, hv⟩ := hm
      exact firstVotes_not_seen _ _ _ he (by rw [hv]; exact List.mem_cons_self _ _)

theorem firstVotes_sublist (l : List VoteEvent) :
    ∀ seen : List Nat, List.Sublist (firstVotes seen l) l := by
  induction l with
  | nil => intro seen; simp [firstVotes]
  | cons a rest ih =>
    intro seen
    unfold firstVotes
    split
    · exact List.Sublist.cons _ (ih _)
    · exact List.Sublist.cons₂ _ (ih _)

/-- Every validator with a candidate is seen already or has a counted vote. -/
theorem firstVotes_covers (l : List VoteEvent) :
    ∀ (seen : List Nat) (c : VoteEvent), c ∈ l →
      c.validator ∈ seen ∨ c.validator ∈ (firstVotes seen l).map VoteEvent.validator := by
  induction l with
  | nil => intro seen c h; simp at h
  | cons a rest ih =>
    intro seen c h
    unfold firstVotes
    rcases List.mem_cons.1 h with rfl | h'
    · split
      · rename_i hs; exact Or.inl hs
      · exact Or.inr (by simp)
    · split
      · exact ih _ _ h'
      · rcases ih (a.validator :: seen) c h' with h1 | h1
        · rcases List.mem_cons.1 h1 with h2 | h2
          · exact Or.inr (by simp [h2])
          · exact Or.inl h2
        · exact Or.inr (by
            rw [List.map_cons]; exact List.mem_cons_of_mem _ h1)

/-- In a list in scan order, the counted votes are the candidates with no earlier
candidate of the same validator. -/
theorem mem_firstVotes (l : List VoteEvent) :
    ∀ (seen : List Nat) (e : VoteEvent), List.Pairwise scanBefore l →
      (e ∈ firstVotes seen l ↔
        e ∈ l ∧ e.validator ∉ seen ∧
          ∀ c ∈ l, c.validator = e.validator → ¬ scanBefore c e) := by
  induction l with
  | nil => intro seen e _; simp [firstVotes]
  | cons a rest ih =>
    intro seen e hp
    rw [List.pairwise_cons] at hp
    obtain ⟨ha, hrest⟩ := hp
    unfold firstVotes
    by_cases hs : a.validator ∈ seen
    · simp only [hs, if_true]
      rw [ih seen e hrest]
      constructor
      · rintro ⟨h1, h2, h3⟩
        refine ⟨List.mem_cons_of_mem _ h1, h2, ?_⟩
        intro c hc hv
        rcases List.mem_cons.1 hc with rfl | hc'
        · exact absurd (hv ▸ hs) h2
        · exact h3 c hc' hv
      · rintro ⟨h1, h2, h3⟩
        rcases List.mem_cons.1 h1 with rfl | h1'
        · exact absurd hs h2
        · exact ⟨h1', h2, fun c hc hv => h3 c (List.mem_cons_of_mem _ hc) hv⟩
    · simp only [hs, if_false, List.mem_cons]
      rw [ih (a.validator :: seen) e hrest]
      constructor
      · rintro (rfl | ⟨h1, h2, h3⟩)
        · refine ⟨Or.inl rfl, hs, ?_⟩
          rintro c (rfl | hc) hv
          · exact scanBefore_irrefl _
          · exact scanBefore_asymm _ _ (ha c hc)
        · refine ⟨Or.inr h1, fun h => h2 (List.mem_cons_of_mem _ h), ?_⟩
          rintro c (rfl | hc) hv
          · exact absurd (by rw [hv]; exact List.mem_cons_self _ _) h2
          · exact h3 c hc hv
      · rintro ⟨h1 | h1, h2, h3⟩
        · exact Or.inl h1
        · refine Or.inr ⟨h1, ?_, fun c hc hv => h3 c (Or.inr hc) hv⟩
          intro hm
          rcases List.mem_cons.1 hm with h4 | h4
          · exact h3 a (Or.inl rfl) h4.symm (ha e h1)
          · exact h2 h4

/-- With `lastSlot` below the largest `uint64`, `aggregateEpochVotes` returns once the fuel
exceeds the number of slots to scan. -/
theorem aggregateEpochVotes_total (env : Env) (fuel : Nat) (blockMap : Nat → Option CacheBlock)
    (epoch : Nat) (epochStats : EpochStats) (targetRoot : Bytes) (currentOnly await : Bool)
    (hlast : lastSlotOf env epoch currentOnly + 1 < u64)
    (hfuel : lastSlotOf env epoch currentOnly + 1 - firstSlotOf env epoch < fuel) :
    aggregateEpochVotes env fuel blockMap epoch epochStats targetRoot currentOnly await =
      some (tallyOf epochStats
        (firstVotes [] (scanEvents env blockMap epoch epochStats targetRoot currentOnly))) := by
  unfold aggregateEpochVotes
  rw [slotLoop_total _ _ hlast _ _ _ hfuel]
  exact congrArg some (scan_eq_tallyOf env blockMap epoch epochStats targetRoot currentOnly)

/-! ## Adding a block to the map -/

theorem sum_map_le_of_subset (w : Nat → Nat) (l₁ l₂ : List Nat) (h1 : l₁.Nodup)
    (h2 : l₁ ⊆ l₂) : (l₁.map w).sum ≤ (l₂.map w).sum := by
  obtain ⟨l, hl, hs⟩ := List.subperm_of_subset h1 h2
  rw [← (hl.map w).sum_eq]
  exact (hs.map w).sum_le_sum (fun _ _ => Nat.zero_le _)

theorem weightSum_eq (epochStats : EpochStats) (p : VoteEvent → Bool) (log : List VoteEvent) :
    weightSum epochStats p log =
      (((log.filter p).map VoteEvent.validator).map (voteWeight epochStats)).sum := by
  simp [weightSum, List.map_map, Function.comp_def]

theorem weightSum_all (epochStats : EpochStats) (log : List VoteEvent) :
    weightSum epochStats (fun _ => true) log =
      ((log.map VoteEvent.validator).map (voteWeight epochStats)).sum := by
  simp [weightSum, List.map_map, Function.comp_def]

theorem weightSum_split (epochStats : EpochStats) (log : List VoteEvent) :
    weightSum epochStats (fun e => !e.isNextEpoch) log +
        weightSum epochStats (fun e => e.isNextEpoch) log =
      weightSum epochStats (fun _ => true) log := by
  induction log with
  | nil => simp [weightSum]
  | cons e rest ih =>
    simp only [weightSum] at ih ⊢
    cases hb : e.isNextEpoch <;>
      simp only [List.filter_cons, hb, Bool.not_false, Bool.not_true, if_true, if_false,
        Bool.false_eq_true, List.map_cons, List.sum_cons] <;> omega

theorem weightSum_mono (epochStats : EpochStats) (p : VoteEvent → Bool)
    (l₁ l₂ : List VoteEvent) (hn : (l₁.map VoteEvent.validator).Nodup)
    (hsub : ∀ e ∈ l₁, p e = true → ∃ e' ∈ l₂, e'.validator = e.validator ∧ p e' = true) :
    weightSum epochStats p l₁ ≤ weightSum epochStats p l₂ := by
  rw [weightSum_eq, weightSum_eq]
  apply sum_map_le_of_subset
  · exact List.Nodup.sublist ((List.filter_sublist l₁).map _) hn
  · intro x hx
    rw [List.mem_map] at hx ⊢
    obtain ⟨e, he, rfl⟩ := hx
    rw [List.mem_filter] at he
    obtain ⟨e', he', hv, hp⟩ := hsub e he.1 he.2
    exact ⟨e', List.mem_filter.2 ⟨he', hp⟩, hv⟩

theorem isCandidate_extendMap (env : Env) (blockMap : Nat → Option CacheBlock) (epoch : Nat)
    (epochStats : EpochStats) (targetRoot : Bytes) (currentOnly : Bool) (slot : Nat)
    (block : CacheBlock) (hslot : blockMap slot = none) (e : VoteEvent)
    (h : IsCandidate env blockMap epoch epochStats targetRoot currentOnly e) :
    IsCandidate env (extendMap blockMap slot block) epoch epochStats targetRoot currentOnly e := by
  obtain ⟨h1, h2, blk, body, atts, att, asg, hb, hrest⟩ := h
  have hne : ¬ e.slot = slot := by
    intro heq; rw [heq, hslot] at hb; exact Option.noConfusion hb
  exact ⟨h1, h2, blk, body, atts, att, asg, by simp [extendMap, hne, hb], hrest⟩

/-- Adding a block keeps every counted validator counted, by a vote that is not later in
scan order. -/
theorem firstVotes_extendMap (env : Env) (blockMap : Nat → Option CacheBlock) (epoch : Nat)
    (epochStats : EpochStats) (targetRoot : Bytes) (currentOnly : Bool) (slot : Nat)
    (block : CacheBlock) (hslot : blockMap slot = none) (e : VoteEvent)
    (he : e ∈ firstVotes [] (scanEvents env blockMap epoch epochStats targetRoot currentOnly)) :
    ∃ e' ∈ firstVotes []
        (scanEvents env (extendMap blockMap slot block) epoch epochStats targetRoot currentOnly),
      e'.validator = e.validator ∧ e'.slot ≤ e.slot ∧
        (e.isNextEpoch = false → e'.isNextEpoch = false) := by
  have hc : IsCandidate env blockMap epoch epochStats targetRoot currentOnly e :=
    (mem_scanEvents _ _ _ _ _ _ _).1 ((firstVotes_sublist _ _).subset he)
  have hc' := isCandidate_extendMap env blockMap epoch epochStats targetRoot currentOnly slot
    block hslot e hc
  have hm' := (mem_scanEvents _ _ _ _ _ _ _).2 hc'
  rcases firstVotes_covers _ [] e hm' with h | h
  · simp at h
  · rw [List.mem_map] at h
    obtain ⟨e', he', hv⟩ := h
    have hmin := ((mem_firstVotes _ [] e' (scanEvents_sorted _ _ _ _ _ _)).1 he').2.2 e hm'
      hv.symm
    have hle : e'.slot ≤ e.slot := by
      unfold scanBefore at hmin; omega
    refine ⟨e', he', hv, hle, ?_⟩
    intro hcur
    have hc2 : IsCandidate env (extendMap blockMap slot block) epoch epochStats targetRoot
        currentOnly e' :=
      (mem_scanEvents _ _ _ _ _ _ _).1 ((firstVotes_sublist _ _).subset he')
    have hn := hc.2.2
    obtain ⟨_, _, _, _, _, _, _, _, _, _, _, _, _, hnext, _, _⟩ := hn
    have hn' := hc2.2.2
    obtain ⟨_, _, _, _, _, _, _, _, _, _, _, _, _, hnext', _, _⟩ := hn'
    rw [hnext] at hcur
    rw [hnext']
    simp only [gt_iff_lt, decide_eq_false_iff_not, not_lt] at hcur ⊢
    exact le_trans (Nat.div_le_div_right hle) hcur

/-! ## The epochs of the scanned slots -/

theorem lastSlotOf_currentOnly_le (env : Env) (epoch : Nat) (h : 0 < env.SlotsPerEpoch) :
    lastSlotOf env epoch true + 1 ≤ firstSlotOf env epoch + env.SlotsPerEpoch := by
  unfold lastSlotOf
  simp only [if_true]
  have hu := u64_pos
  have heq : firstSlotOf env epoch + env.SlotsPerEpoch + (u64 - 1) =
      (firstSlotOf env epoch + env.SlotsPerEpoch - 1) + u64 := by omega
  rw [heq, Nat.add_mod_right]
  have := Nat.mod_le (firstSlotOf env epoch + env.SlotsPerEpoch - 1) u64
  omega

theorem lastSlotOf_le (env : Env) (epoch : Nat) (currentOnly : Bool)
    (h : 0 < env.SlotsPerEpoch) :
    lastSlotOf env epoch currentOnly + 1 ≤
      firstSlotOf env epoch +
        (if currentOnly then 1 else 2) * env.SlotsPerEpoch := by
  cases currentOnly
  · have h1 := lastSlotOf_currentOnly_le env epoch h
    have h2 : lastSlotOf env epoch false =
        (lastSlotOf env epoch true + env.SlotsPerEpoch) % u64 := by
      simp [lastSlotOf]
    have h3 := Nat.mod_le (lastSlotOf env epoch true + env.SlotsPerEpoch) u64
    simp only [Bool.false_eq_true, if_false]
    omega
  · have h1 := lastSlotOf_currentOnly_le env epoch h
    simp only [if_true]
    omega

/-- Every scanned slot lies in an epoch up to `epoch`, or up to `epoch + 1` when the next
epoch is scanned too. -/
theorem scanned_epoch_le (env : Env) (epoch : Nat) (currentOnly : Bool) (slot : Nat)
    (h2 : slot ≤ lastSlotOf env epoch currentOnly) :
    EpochOfSlot env slot ≤ epoch + (if currentOnly then 0 else 1) := by
  unfold EpochOfSlot
  rcases Nat.eq_zero_or_pos env.SlotsPerEpoch with h0 | hpos
  · rw [h0, Nat.div_zero]; exact Nat.zero_le _
  · have hl := lastSlotOf_le env epoch currentOnly hpos
    have hf : firstSlotOf env epoch ≤ epoch * env.SlotsPerEpoch := Nat.mod_le _ _
    have hlt : slot < env.SlotsPerEpoch * (epoch + (if currentOnly then 0 else 1) + 1) := by
      cases currentOnly
      · simp only [Bool.false_eq_true, if_false] at hl ⊢
        have : env.SlotsPerEpoch * (epoch + 1 + 1) =
            epoch * env.SlotsPerEpoch + 2 * env.SlotsPerEpoch := by ring
        omega
      · simp only [if_true] at hl ⊢
        have : env.SlotsPerEpoch * (epoch + 0 + 1) =
            epoch * env.SlotsPerEpoch + 1 * env.SlotsPerEpoch := by ring
        omega
    exact Nat.lt_succ_iff.1 (Nat.div_lt_of_lt_mul hlt)

theorem tallyAmounts_congr (epochStats : EpochStats) (p q : VoteEvent → Bool)
    (log : List VoteEvent) (h : ∀ e ∈ log, p e = q e) :
    tallyAmounts epochStats p log = tallyAmounts epochStats q log := by
  have h1 : log.filter p = log.filter q := List.filter_congr h
  have h2 : log.filter (fun e => p e && e.target) = log.filter (fun e => q e && e.target) :=
    List.filter_congr (fun e he => by simp only [h e he])
  have h3 : log.filter (fun e => p e && e.head) = log.filter (fun e => q e && e.head) :=
    List.filter_congr (fun e he => by simp only [h e he])
  simp only [tallyAmounts, weightSum, h1, h2, h3]

theorem tallyAmounts_of_none (epochStats : EpochStats) (p : VoteEvent → Bool)
    (log : List VoteEvent) (h : ∀ e ∈ log, p e = false) :
    tallyAmounts epochStats p log = ⟨0, 0, 0⟩ := by
  rw [tallyAmounts_congr epochStats p (fun _ => false) log h]
  simp [tallyAmounts, weightSum]

/-- The candidates depend on the block map only at the scanned slots. -/
theorem scanEvents_congr (env : Env) (blockMap blockMap' : Nat → Option CacheBlock)
    (epoch : Nat) (epochStats : EpochStats) (targetRoot : Bytes) (currentOnly : Bool)
    (h : ∀ slot, firstSlotOf env epoch ≤ slot → slot ≤ lastSlotOf env epoch currentOnly →
      blockMap' slot = blockMap slot) :
    scanEvents env blockMap' epoch epochStats targetRoot currentOnly =
      scanEvents env blockMap epoch epochStats targetRoot currentOnly := by
  unfold scanEvents
  apply List.flatMap_congr
  intro slot hslot
  rw [mem_scanSlots] at hslot
  unfold slotEvents
  rw [h slot hslot.1 hslot.2]

/-! ## The sum of the two totals -/

/-- Modulo `2 ^ 64` the two totals of a tally add up to the weights of its validators. -/
theorem tallyOf_totals (epochStats : EpochStats) (log : List VoteEvent) :
    ((tallyOf epochStats log).currentEpoch.totalVoteAmount +
        (tallyOf epochStats log).nextEpoch.totalVoteAmount) % u64 =
      (((tallyOf epochStats log).ActivityMap.keys).map (voteWeight epochStats)).sum % u64 := by
  have hkeys : (tallyOf epochStats log).ActivityMap.keys = log.map VoteEvent.validator := by
    simp [tallyOf, GoMap.keys, Function.comp_def]
  rw [hkeys, ← weightSum_all, ← weightSum_split]
  simp only [tallyOf, tallyAmounts]
  exact (Nat.add_mod _ _ _).symm

theorem tallyOf_keys_nodup (epochStats : EpochStats) (l : List VoteEvent) (seen : List Nat) :
    ((tallyOf epochStats (firstVotes seen l)).ActivityMap.keys).Nodup := by
  have hkeys : (tallyOf epochStats (firstVotes seen l)).ActivityMap.keys =
      (firstVotes seen l).map VoteEvent.validator := by
    simp [tallyOf, GoMap.keys, Function.comp_def]
  rw [hkeys]
  exact firstVotes_nodup _ _

theorem sum_map_one (l : List Nat) (w : Nat → Nat) (h : ∀ x, w x = 1) :
    (l.map w).sum = l.length := by
  induction l with
  | nil => rfl
  | cons a rest ih => simp [h a, ih, Nat.add_comm]

theorem tallyOf_totals_lt (epochStats : EpochStats) (log : List VoteEvent)
    (h : (((tallyOf epochStats log).ActivityMap.keys).map (voteWeight epochStats)).sum < u64) :
    (tallyOf epochStats log).currentEpoch.totalVoteAmount +
        (tallyOf epochStats log).nextEpoch.totalVoteAmount =
      (((tallyOf epochStats log).ActivityMap.keys).map (voteWeight epochStats)).sum := by
  have hkeys : (tallyOf epochStats log).ActivityMap.keys = log.map VoteEvent.validator := by
    simp [tallyOf, GoMap.keys, Function.comp_def]
  rw [hkeys, ← weightSum_all] at h ⊢
  have hsplit := weightSum_split epochStats log
  have h1 : weightSum epochStats (fun e => !e.isNextEpoch) log < u64 := by omega
  have h2 : weightSum epochStats (fun e => e.isNextEpoch) log < u64 := by omega
  simp only [tallyOf, tallyAmounts, Nat.mod_eq_of_lt h1, Nat.mod_eq_of_lt h2]
  exact hsplit

/-! ## The epoch statistics cache -/

theorem findEpochStats_some (cache : IndexerCache) (dependendRoot : Bytes) (l : List Nat)
    (ptr : Nat) (h : findEpochStats cache dependendRoot l = some ptr) :
    ptr ∈ l ∧ bytesEqual (cache.deref ptr).DependentRoot dependendRoot = true := by
  induction l with
  | nil => simp [findEpochStats] at h
  | cons q rest ih =>
    unfold findEpochStats at h
    split at h
    · rename_i hq
      simp only [Option.some.injEq] at h
      subst h
      exact ⟨List.mem_cons_self _ _, hq⟩
    · exact ⟨List.mem_cons_of_mem _ (ih h).1, (ih h).2⟩

theorem findEpochStats_eq_none (cache : IndexerCache) (dependendRoot : Bytes) (l : List Nat) :
    findEpochStats cache dependendRoot l = none ↔
      ∀ q ∈ l, bytesEqual (cache.deref q).DependentRoot dependendRoot = false := by
  induction l with
  | nil => simp [findEpochStats]
  | cons q rest ih =>
    unfold findEpochStats
    by_cases hq : bytesEqual (cache.deref q).DependentRoot dependendRoot = true
    · simp [hq]
    · simp only [Bool.not_eq_true] at hq
      simp [hq, ih]

theorem createOrGetEpochStats_found (cache : IndexerCache) (epoch : Nat)
    (dependendRoot : Bytes) (ptr : Nat)
    (h : findEpochStats cache dependendRoot (cache.epochStatsMap.get epoch []) = some ptr) :
    createOrGetEpochStats cache epoch dependendRoot = (cache, ptr, false) := by
  simp only [createOrGetEpochStats, h]

theorem createOrGetEpochStats_new (cache : IndexerCache) (epoch : Nat)
    (dependendRoot : Bytes)
    (h : findEpochStats cache dependendRoot (cache.epochStatsMap.get epoch []) = none) :
    createOrGetEpochStats cache epoch dependendRoot =
      ({ heap := cache.heap ++ [newEpochStats epoch dependendRoot]
         epochStatsMap :=
          cache.epochStatsMap.set epoch (cache.epochStatsMap.get epoch [] ++ [cache.heap.length]) },
        cache.heap.length, true) := by
  simp only [createOrGetEpochStats, h]

theorem GoMap.get_set {κ ν : Type} [DecidableEq κ] (m : GoMap κ ν) (k k' : κ) (v zero : ν) :
    GoMap.get (GoMap.set m k v) k' zero = if k = k' then v else GoMap.get m k' zero := by
  unfold GoMap.get
  rw [GoMap.find_set]
  split <;> rfl

theorem deref_append (heap : List EpochStats) (m : GoMap Nat (List Nat)) (x : EpochStats)
    (m' : GoMap Nat (List Nat)) (q : Nat) (h : q < heap.length) :
    IndexerCache.deref { heap := heap ++ [x], epochStatsMap := m' } q =
      IndexerCache.deref { heap := heap, epochStatsMap := m } q := by
  simp [IndexerCache.deref, List.getD_eq_getElem?_getD, List.getElem?_append_left h]

theorem deref_new (heap : List EpochStats) (x : EpochStats) (m' : GoMap Nat (List Nat)) :
    IndexerCache.deref { heap := heap ++ [x], epochStatsMap := m' } heap.length = x := by
  simp [IndexerCache.deref, List.getD_eq_getElem?_getD]

/-- The record `ensureWithRoot` hands to the loader is in the list of the epoch and its
`DependentRoot` is byte-equal to the chosen root. -/
theorem ensureWithRoot_keyed (client : IndexerClient) (cache : IndexerCache) (epoch : Nat)
    (dependentRoot : Bytes) (proposerRsp : Option ProposerDuties) :
    (ensureWithRoot client cache epoch dependentRoot proposerRsp).proposerRsp = proposerRsp ∧
    (ensureWithRoot client cache epoch dependentRoot proposerRsp).epochStats ∈
      (ensureWithRoot client cache epoch dependentRoot proposerRsp).cache.epochStatsMap.get
        epoch [] ∧
    bytesEqual
      ((ensureWithRoot client cache epoch dependentRoot proposerRsp).cache.deref
        (ensureWithRoot client cache epoch dependentRoot proposerRsp).epochStats).DependentRoot
      dependentRoot = true := by
  refine ⟨rfl, ?_, ?_⟩
  · cases hf : findEpochStats cache dependentRoot (cache.epochStatsMap.get epoch []) with
    | some ptr =>
      simp only [ensureWithRoot, createOrGetEpochStats, hf]
      exact (findEpochStats_some _ _ _ _ hf).1
    | none =>
      simp only [ensureWithRoot, createOrGetEpochStats, hf]
      simp [GoMap.get_set]
  · cases hf : findEpochStats cache dependentRoot (cache.epochStatsMap.get epoch []) with
    | some ptr =>
      simp only [ensureWithRoot, createOrGetEpochStats, hf]
      exact (findEpochStats_some _ _ _ _ hf).2
    | none =>
      simp only [ensureWithRoot, createOrGetEpochStats, hf, deref_new]
      simp [newEpochStats, bytesEqual]

/-! ## Maps built by repeated writes -/

theorem GoMap.keys_set {κ ν : Type} [DecidableEq κ] (m : GoMap κ ν) (k : κ) (v : ν) :
    GoMap.keys (GoMap.set m k v) =
      if k ∈ GoMap.keys m then GoMap.keys m else GoMap.keys m ++ [k] := by
  induction m with
  | nil => simp [GoMap.set, GoMap.keys]
  | cons hd tl ih =>
    obtain ⟨a, b⟩ := hd
    by_cases h : a = k
    · subst h; simp [GoMap.set, GoMap.keys]
    · have h' : ¬ k = a := fun e => h e.symm
      simp only [GoMap.keys] at ih
      by_cases hk : k ∈ tl.map Prod.fst
      · simp [GoMap.set, GoMap.keys, h, h', ih, hk]
      · simp [GoMap.set, GoMap.keys, h, h', ih, hk]

theorem GoMap.keys_set_nodup {κ ν : Type} [DecidableEq κ] (m : GoMap κ ν) (k : κ) (v : ν)
    (h : (GoMap.keys m).Nodup) : (GoMap.keys (GoMap.set m k v)).Nodup := by
  rw [GoMap.keys_set]
  split
  · exact h
  · rename_i hk
    rw [List.nodup_append]
    refine ⟨h, List.nodup_singleton _, ?_⟩
    intro x hx hx'
    rw [List.mem_singleton] at hx'
    subst hx'
    exact hk hx

theorem GoMap.mem_keys_set {κ ν : Type} [DecidableEq κ] (m : GoMap κ ν) (k x : κ) (v : ν) :
    x ∈ GoMap.keys (GoMap.set m k v) ↔ x ∈ GoMap.keys m ∨ x = k := by
  rw [GoMap.keys_set]
  split
  · rename_i hk
    constructor
    · exact fun h => Or.inl h
    · rintro (h | rfl)
      · exact h
      · exact hk
  · simp

/-- The keys of the map built from proposer duties are distinct and are the slots of the
duties. -/
theorem foldl_duties_keys (duties : List ProposerDuty) :
    ∀ m : GoMap Nat Nat, (GoMap.keys m).Nodup →
      (GoMap.keys (duties.foldl (fun proposerAssignments duty =>
          GoMap.set proposerAssignments duty.Slot duty.ValidatorIndex) m)).Nodup ∧
      ∀ k, k ∈ GoMap.keys (duties.foldl (fun proposerAssignments duty =>
          GoMap.set proposerAssignments duty.Slot duty.ValidatorIndex) m) ↔
        k ∈ GoMap.keys m ∨ ∃ d ∈ duties, d.Slot = k := by
  induction duties with
  | nil => intro m h; simp [h]
  | cons d rest ih =>
    intro m h
    have := ih (GoMap.set m d.Slot d.ValidatorIndex) (GoMap.keys_set_nodup _ _ _ h)
    refine ⟨this.1, ?_⟩
    intro k
    rw [List.foldl_cons, this.2 k, GoMap.mem_keys_set]
    constructor
    · rintro ((h1 | h1) | ⟨d', hd', h1⟩)
      · exact Or.inl h1
      · exact Or.inr ⟨d, List.mem_cons_self _ _, h1.symm⟩
      · exact Or.inr ⟨d', List.mem_cons_of_mem _ hd', h1⟩
    · rintro (h1 | ⟨d', hd', h1⟩)
      · exact Or.inl (Or.inl h1)
      · rcases List.mem_cons.1 hd' with rfl | hd''
        · exact Or.inl (Or.inr h1.symm)
        · exact Or.inr ⟨d', hd'', h1⟩

theorem dutiesToAssignments_keys (duties : List ProposerDuty) :
    (GoMap.keys (dutiesToAssignments duties)).Nodup ∧
    ∀ k, k ∈ GoMap.keys (dutiesToAssignments duties) ↔ ∃ d ∈ duties, d.Slot = k := by
  have := foldl_duties_keys duties [] (by simp [GoMap.keys])
  refine ⟨this.1, fun k => ?_⟩
  rw [dutiesToAssignments, this.2 k]
  simp [GoMap.keys]

/-- Writing one value under distinct new keys appends the entries in order. -/
theorem foldl_set_const (v : Nat) (l : List Nat) :
    ∀ m : GoMap Nat Nat, l.Nodup → (∀ x ∈ l, x ∉ GoMap.keys m) →
      l.foldl (fun proposerAssignments slot => GoMap.set proposerAssignments slot v) m =
        m ++ l.map (fun slot => (slot, v)) := by
  induction l with
  | nil => intro m _ _; simp
  | cons a rest ih =>
    intro m hn hm
    rw [List.nodup_cons] at hn
    rw [List.foldl_cons, GoMap.set_of_not_mem m a v (hm a (List.mem_cons_self _ _)),
      ih _ hn.2]
    · simp
    · intro x hx hk
      simp only [GoMap.keys, List.map_append, List.map_cons, List.map_nil, List.mem_append,
        List.mem_singleton] at hk
      rcases hk with hk | hk
      · exact hm x (List.mem_cons_of_mem _ hx) hk
      · exact hn.1 (hk ▸ hx)

/-- Without overflow the sentinel loop fills exactly the slots of the epoch. -/
theorem sentinelAssignments_eq (env : Env) (fuel epoch : Nat) (hpos : 0 < env.SlotsPerEpoch)
    (hno : (epoch + 1) * env.SlotsPerEpoch < u64) (hfuel : env.SlotsPerEpoch < fuel) :
    sentinelAssignments env fuel epoch =
      some ((List.range' (epoch * env.SlotsPerEpoch) env.SlotsPerEpoch).map
        (fun slot => (slot, maxInt64))) := by
  have hmul : (epoch + 1) * env.SlotsPerEpoch = epoch * env.SlotsPerEpoch + env.SlotsPerEpoch := by
    ring
  have hfirst : (epoch * env.SlotsPerEpoch) % u64 = epoch * env.SlotsPerEpoch :=
    Nat.mod_eq_of_lt (by omega)
  have hlast : (epoch * env.SlotsPerEpoch + env.SlotsPerEpoch + (u64 - 1)) % u64 =
      epoch * env.SlotsPerEpoch + env.SlotsPerEpoch - 1 := by
    have heq : epoch * env.SlotsPerEpoch + env.SlotsPerEpoch + (u64 - 1) =
        (epoch * env.SlotsPerEpoch + env.SlotsPerEpoch - 1) + u64 := by
      have := u64_pos; omega
    rw [heq, Nat.add_mod_right]
    exact Nat.mod_eq_of_lt (by omega)
  unfold sentinelAssignments
  simp only [hfirst, hlast]
  rw [slotLoop_total _ _ (by omega) _ _ _ (by omega)]
  have hlen : epoch * env.SlotsPerEpoch + env.SlotsPerEpoch - 1 + 1 -
      epoch * env.SlotsPerEpoch = env.SlotsPerEpoch := by omega
  rw [hlen, foldl_set_const _ _ [] (List.nodup_range' _ _) (by simp [GoMap.keys])]
  simp

/-! ## The validator snapshot -/

theorem GoMap.find_foldl_set_of_not_mem {α κ ν : Type} [DecidableEq κ] (f : α → κ)
    (g : α → ν) (k : κ) (l : List α) :
    ∀ m : GoMap κ ν, k ∉ l.map f →
      GoMap.find (l.foldl (fun m a => GoMap.set m (f a) (g a)) m) k = GoMap.find m k := by
  induction l with
  | nil => intro m _; rfl
  | cons a rest ih =>
    intro m hk
    simp only [List.map_cons, List.mem_cons, not_or] at hk
    rw [List.foldl_cons, ih _ hk.2, GoMap.find_set]
    have : ¬ f a = k := fun e => hk.1 e.symm
    simp [this]

/-- After writing `g a` under `f a` for every `a` of a list with distinct keys, each key
reads its own value. -/
theorem GoMap.find_foldl_set_of_nodup {α κ ν : Type} [DecidableEq κ] (f : α → κ)
    (g : α → ν) (l : List α) :
    ∀ m : GoMap κ ν, (l.map f).Nodup → ∀ a ∈ l,
      GoMap.find (l.foldl (fun m a => GoMap.set m (f a) (g a)) m) (f a) = some (g a) := by
  induction l with
  | nil => intro m _ a ha; simp at ha
  | cons b rest ih =>
    intro m hn a ha
    rw [List.map_cons, List.nodup_cons] at hn
    rw [List.foldl_cons]
    rcases List.mem_cons.1 ha with rfl | ha'
    · rw [GoMap.find_foldl_set_of_not_mem f g _ rest _ hn.1, GoMap.find_set]
      simp
    · exact ih _ hn.2 a ha'

theorem GoMap.keys_foldl_set {α κ ν : Type} [DecidableEq κ] (f : α → κ) (g : α → ν)
    (l : List α) :
    ∀ m : GoMap κ ν, (GoMap.keys m).Nodup →
      (GoMap.keys (l.foldl (fun m a => GoMap.set m (f a) (g a)) m)).Nodup ∧
      ∀ k, k ∈ GoMap.keys (l.foldl (fun m a => GoMap.set m (f a) (g a)) m) ↔
        k ∈ GoMap.keys m ∨ k ∈ l.map f := by
  induction l with
  | nil => intro m h; simp [h]
  | cons a rest ih =>
    intro m h
    have := ih (GoMap.set m (f a) (g a)) (GoMap.keys_set_nodup _ _ _ h)
    refine ⟨this.1, fun k => ?_⟩
    rw [List.foldl_cons, this.2 k, GoMap.mem_keys_set, List.map_cons, List.mem_cons]
    tauto

theorem validatorStep_balances (epoch : Nat) (validatorStats : EpochValidatorStats)
    (validator : ValidatorEntry) :
    (validatorStep epoch validatorStats validator).ValidatorBalances =
      GoMap.set validatorStats.ValidatorBalances validator.Index validator.EffectiveBalance := by
  unfold validatorStep
  split <;> rfl

theorem foldl_validatorStep_balances (epoch : Nat) (l : List ValidatorEntry) :
    ∀ acc : EpochValidatorStats,
      (l.foldl (validatorStep epoch) acc).ValidatorBalances =
        l.foldl (fun m v => GoMap.set m v.Index v.EffectiveBalance) acc.ValidatorBalances := by
  induction l with
  | nil => intro acc; rfl
  | cons v rest ih =>
    intro acc
    rw [List.foldl_cons, ih, validatorStep_balances, List.foldl_cons]

/-- The three counters of the snapshot, by the validators visited so far. -/
theorem foldValidatorStats_counters (epoch : Nat) (l : List ValidatorEntry) :
    (foldValidatorStats epoch l).ValidatorCount =
      (l.filter (fun v => v.isActive epoch)).length % u64 ∧
    (foldValidatorStats epoch l).ValidatorBalance =
      ((l.filter (fun v => v.isActive epoch)).map ValidatorEntry.Balance).sum % u64 ∧
    (foldValidatorStats epoch l).EligibleAmount =
      ((l.filter (fun v => v.isActive epoch)).map ValidatorEntry.EffectiveBalance).sum % u64 := by
  induction l using List.reverseRecOn with
  | nil => simp [foldValidatorStats]
  | append_singleton rest v ih =>
    obtain ⟨h1, h2, h3⟩ := ih
    unfold foldValidatorStats at h1 h2 h3 ⊢
    rw [List.foldl_append, List.foldl_cons, List.foldl_nil]
    by_cases ha : v.isActive epoch = true
    · simp only [validatorStep, ha, if_true, h1, h2, h3, List.filter_append, List.filter_cons,
        List.filter_nil, List.length_append, List.length_singleton, List.map_append,
        List.map_cons, List.map_nil, List.sum_append, List.sum_cons, List.sum_nil,
        Nat.add_zero, Nat.mod_add_mod, and_self]
    · simp only [validatorStep, ha, if_false, h1, h2, h3, List.filter_append, List.filter_cons,
        List.filter_nil, List.append_nil, Bool.false_eq_true, and_self]

/-! ## The loader `ensureEpochStatsLazy` -/

theorem bytesEqual_comm (a b : Bytes) : bytesEqual a b = bytesEqual b a := by
  unfold bytesEqual
  by_cases h : a.getD [] = b.getD []
  · simp [h]
  · have h' : ¬ b.getD [] = a.getD [] := fun e => h e.symm
    simp [h, h']

theorem deref_store_self (cache : IndexerCache) (ptr : Nat) (epochStats : EpochStats)
    (h : ptr < cache.heap.length) : (cache.store ptr epochStats).deref ptr = epochStats := by
  simp [IndexerCache.deref, IndexerCache.store, List.getD_eq_getElem?_getD,
    List.getElem?_set_self h]

theorem deref_store_ne (cache : IndexerCache) (ptr q : Nat) (epochStats : EpochStats)
    (h : ptr ≠ q) : (cache.store ptr epochStats).deref q = cache.deref q := by
  simp [IndexerCache.deref, IndexerCache.store, List.getD_eq_getElem?_getD,
    List.getElem?_set_ne h]

theorem stateRefStep_fields (client : IndexerClient) (epochStats : EpochStats) :
    (stateRefStep client epochStats).epochStats.Epoch = epochStats.Epoch ∧
    (stateRefStep client epochStats).epochStats.DependentRoot = epochStats.DependentRoot ∧
    (stateRefStep client epochStats).epochStats.proposerAssignments =
      epochStats.proposerAssignments ∧
    ∀ c ∈ (stateRefStep client epochStats).calls, c.isProposerDuties = false := by
  unfold stateRefStep
  split
  · split
    · simp
    · split
      · simp
      · split <;> simp [RpcCall.isProposerDuties]
  · simp

theorem committeeStep_fields (client : IndexerClient) (epochStats : EpochStats) :
    (committeeStep client epochStats).epochStats.Epoch = epochStats.Epoch ∧
    (committeeStep client epochStats).epochStats.DependentRoot = epochStats.DependentRoot ∧
    (committeeStep client epochStats).epochStats.proposerAssignments =
      epochStats.proposerAssignments ∧
    ∀ c ∈ (committeeStep client epochStats).calls, c.isProposerDuties = false := by
  unfold committeeStep
  split
  · split <;> simp [RpcCall.isProposerDuties]
  · simp

theorem syncStep_fields (env : Env) (client : IndexerClient) (epochStats : EpochStats) :
    (syncStep env client epochStats).epochStats.Epoch = epochStats.Epoch ∧
    (syncStep env client epochStats).epochStats.DependentRoot = epochStats.DependentRoot ∧
    (syncStep env client epochStats).epochStats.proposerAssignments =
      epochStats.proposerAssignments ∧
    ∀ c ∈ (syncStep env client epochStats).calls, c.isProposerDuties = false := by
  unfold syncStep
  split
  · split <;> simp [RpcCall.isProposerDuties]
  · simp

theorem validatorStatsCalls_not_proposer (ptr : Nat) (epochStats : EpochStats) :
    ∀ c ∈ validatorStatsCalls ptr epochStats, c.isProposerDuties = false := by
  unfold validatorStatsCalls
  split <;> simp [RpcCall.isProposerDuties]

/-- The steps after the proposer duties keep the epoch, the dependent root and the
proposer assignments of the record and make no proposer duties call. -/
theorem loadAfterProposer_fields (env : Env) (client : IndexerClient) (ptr : Nat)
    (epochStats : EpochStats) :
    (loadAfterProposer env client ptr epochStats).epochStats.Epoch = epochStats.Epoch ∧
    (loadAfterProposer env client ptr epochStats).epochStats.DependentRoot =
      epochStats.DependentRoot ∧
    (loadAfterProposer env client ptr epochStats).epochStats.proposerAssignments =
      epochStats.proposerAssignments ∧
    ∀ c ∈ (loadAfterProposer env client ptr epochStats).calls, c.isProposerDuties = false := by
  have h1 := stateRefStep_fields client epochStats
  have h2 := committeeStep_fields client (stateRefStep client epochStats).epochStats
  have h3 := syncStep_fields env client
    (committeeStep client (stateRefStep client epochStats).epochStats).epochStats
  have hv := validatorStatsCalls_not_proposer ptr (stateRefStep client epochStats).epochStats
  obtain ⟨a1, b1, c1, d1⟩ := h1
  obtain ⟨a2, b2, c2, d2⟩ := h2
  obtain ⟨a3, b3, c3, d3⟩ := h3
  unfold loadAfterProposer
  simp only []
  split
  · exact ⟨a1, b1, c1, d1⟩
  · split
    · refine ⟨a2.trans a1, b2.trans b1, c2.trans c1, ?_⟩
      intro c hc
      simp only [List.mem_append] at hc
      rcases hc with (hc | hc) | hc
      · exact d1 c hc
      · exact hv c hc
      · exact d2 c hc
    · have hcalls : ∀ c ∈ (stateRefStep client epochStats).calls ++
          validatorStatsCalls ptr (stateRefStep client epochStats).epochStats ++
          (committeeStep client (stateRefStep client epochStats).epochStats).calls ++
          (syncStep env client
            (committeeStep client (stateRefStep client epochStats).epochStats).epochStats).calls,
          c.isProposerDuties = false := by
        intro c hc
        simp only [List.mem_append] at hc
        rcases hc with ((hc | hc) | hc) | hc
        · exact d1 c hc
        · exact hv c hc
        · exact d2 c hc
        · exact d3 c hc
      split
      · exact ⟨a3.trans (a2.trans a1), b3.trans (b2.trans b1), c3.trans (c2.trans c1), hcalls⟩
      · exact ⟨a3.trans (a2.trans a1), b3.trans (b2.trans b1), c3.trans (c2.trans c1), hcalls⟩

theorem proposerStep_whisk (env : Env) (client : IndexerClient) (fuel : Nat)
    (epochStats : EpochStats) (proposerRsp : Option ProposerDuties)
    (hunset : epochStats.proposerAssignments = none)
    (hw : whiskActivated env epochStats.Epoch = true) (hpos : 0 < env.SlotsPerEpoch)
    (hno : (epochStats.Epoch + 1) * env.SlotsPerEpoch < u64)
    (hfuel : env.SlotsPerEpoch < fuel) :
    proposerStep env client fuel epochStats proposerRsp =
      some (.loaded []
        { epochStats with
          proposerAssignments := some
            ((List.range' (epochStats.Epoch * env.SlotsPerEpoch) env.SlotsPerEpoch).map
              (fun slot => (slot, maxInt64))) }) := by
  simp [proposerStep, hunset, hw, publishProposerAssignments,
    sentinelAssignments_eq env fuel epochStats.Epoch hpos hno hfuel]

theorem proposerStep_passed (env : Env) (client : IndexerClient) (fuel : Nat)
    (epochStats : EpochStats) (rsp : ProposerDuties)
    (hunset : epochStats.proposerAssignments = none)
    (hw : whiskActivated env epochStats.Epoch = false) :
    proposerStep env client fuel epochStats (some rsp) =
      some (.loaded []
        { epochStats with proposerAssignments := some (dutiesToAssignments rsp.Data) }) := by
  simp [proposerStep, hunset, hw, publishProposerAssignments]

theorem proposerStep_fetched (env : Env) (client : IndexerClient) (fuel : Nat)
    (epochStats : EpochStats) (rsp : ProposerDuties)
    (hunset : epochStats.proposerAssignments = none)
    (hw : whiskActivated env epochStats.Epoch = false)
    (hrsp : client.GetProposerDuties epochStats.Epoch = .ok (some rsp))
    (hroot : bytesEqual (some rsp.DependentRoot) epochStats.DependentRoot = true) :
    proposerStep env client fuel epochStats none =
      some (.loaded [.proposerDuties epochStats.Epoch]
        { epochStats with proposerAssignments := some (dutiesToAssignments rsp.Data) }) := by
  simp [proposerStep, hunset, hw, hrsp, hroot, publishProposerAssignments]

theorem proposerStep_redirect (env : Env) (client : IndexerClient) (fuel : Nat)
    (epochStats : EpochStats) (rsp : ProposerDuties)
    (hunset : epochStats.proposerAssignments = none)
    (hw : whiskActivated env epochStats.Epoch = false)
    (hrsp : client.GetProposerDuties epochStats.Epoch = .ok (some rsp))
    (hroot : bytesEqual (some rsp.DependentRoot) epochStats.DependentRoot = false) :
    proposerStep env client fuel epochStats none =
      some (.redirect [.proposerDuties epochStats.Epoch] rsp) := by
  simp [proposerStep, hunset, hw, hrsp, hroot]

theorem proposerStep_set (env : Env) (client : IndexerClient) (fuel : Nat)
    (epochStats : EpochStats) (proposerRsp : Option ProposerDuties) (m : GoMap Nat Nat)
    (hset : epochStats.proposerAssignments = some m) :
    proposerStep env client fuel epochStats proposerRsp = some (.loaded [] epochStats) := by
  simp [proposerStep, hset]

theorem ensureEpochStatsLazy_loaded (env : Env) (client : IndexerClient) (fuel : Nat)
    (cache : IndexerCache) (ptr : Nat) (proposerRsp : Option ProposerDuties)
    (calls : List RpcCall) (epochStats : EpochStats)
    (h : proposerStep env client fuel (cache.deref ptr) proposerRsp =
      some (.loaded calls epochStats)) :
    ensureEpochStatsLazy env client (fuel + 1) cache ptr proposerRsp =
      some
        { cache := cache.store ptr (loadAfterProposer env client ptr epochStats).epochStats
          calls := calls ++ (loadAfterProposer env client ptr epochStats).calls
          error := (loadAfterProposer env client ptr epochStats).error
          redirects := 0 } := by
  rw [ensureEpochStatsLazy]
  simp only [h]

theorem ensureEpochStatsLazy_redirected (env : Env) (client : IndexerClient) (fuel : Nat)
    (cache : IndexerCache) (ptr : Nat) (proposerRsp : Option ProposerDuties)
    (calls : List RpcCall) (rsp : ProposerDuties) (res : LazyResult)
    (h : proposerStep env client fuel (cache.deref ptr) proposerRsp =
      some (.redirect calls rsp))
    (hinner : ensureEpochStatsLazy env client fuel
      (createOrGetEpochStats cache (cache.deref ptr).Epoch (some rsp.DependentRoot)).1
      (createOrGetEpochStats cache (cache.deref ptr).Epoch (some rsp.DependentRoot)).2.1
      (some rsp) = some res) :
    ensureEpochStatsLazy env client (fuel + 1) cache ptr proposerRsp =
      some { res with calls := calls ++ res.calls, redirects := res.redirects + 1 } := by
  rw [ensureEpochStatsLazy]
  simp only [h, hinner]

/-- A load with the response passed in and the Whisk fork not active makes no proposer
duties call and no nested call. -/
theorem ensureEpochStatsLazy_passed (env : Env) (client : IndexerClient) (fuel : Nat)
    (cache : IndexerCache) (ptr : Nat) (rsp : ProposerDuties)
    (hw : whiskActivated env (cache.deref ptr).Epoch = false) :
    ensureEpochStatsLazy env client (fuel + 1) cache ptr (some rsp) =
      some
        { cache := cache.store ptr
            (loadAfterProposer env client ptr (publishedRecord (cache.deref ptr) rsp)).epochStats
          calls := (loadAfterProposer env client ptr
            (publishedRecord (cache.deref ptr) rsp)).calls
          error := (loadAfterProposer env client ptr
            (publishedRecord (cache.deref ptr) rsp)).error
          redirects := 0 } := by
  cases hpa : (cache.deref ptr).proposerAssignments with
  | some m =>
    rw [ensureEpochStatsLazy_loaded env client fuel cache ptr (some rsp) [] _
      (proposerStep_set env client fuel _ (some rsp) m hpa)]
    simp [publishedRecord, hpa]
  | none =>
    rw [ensureEpochStatsLazy_loaded env client fuel cache ptr (some rsp) [] _
      (proposerStep_passed env client fuel _ rsp hpa hw)]
    simp [publishedRecord, hpa]

/-- When the sentinel loop ends without overflow it has filled exactly the slots of the
epoch. -/
theorem sentinelAssignments_some (env : Env) (fuel epoch : Nat) (m : GoMap Nat Nat)
    (hpos : 0 < env.SlotsPerEpoch) (hno : (epoch + 1) * env.SlotsPerEpoch < u64)
    (h : sentinelAssignments env fuel epoch = some m) :
    m = (List.range' (epoch * env.SlotsPerEpoch) env.SlotsPerEpoch).map
      (fun slot => (slot, maxInt64)) := by
  have hmul : (epoch + 1) * env.SlotsPerEpoch = epoch * env.SlotsPerEpoch + env.SlotsPerEpoch := by
    ring
  have hfirst : (epoch * env.SlotsPerEpoch) % u64 = epoch * env.SlotsPerEpoch :=
    Nat.mod_eq_of_lt (by omega)
  have hlast : (epoch * env.SlotsPerEpoch + env.SlotsPerEpoch + (u64 - 1)) % u64 =
      epoch * env.SlotsPerEpoch + env.SlotsPerEpoch - 1 := by
    have heq : epoch * env.SlotsPerEpoch + env.SlotsPerEpoch + (u64 - 1) =
        (epoch * env.SlotsPerEpoch + env.SlotsPerEpoch - 1) + u64 := by
      have := u64_pos; omega
    rw [heq, Nat.add_mod_right]
    exact Nat.mod_eq_of_lt (by omega)
  unfold sentinelAssignments at h
  simp only [hfirst, hlast] at h
  rw [slotLoop_some _ _ (by omega) _ _ _ _ h]
  have hlen : epoch * env.SlotsPerEpoch + env.SlotsPerEpoch - 1 + 1 -
      epoch * env.SlotsPerEpoch = env.SlotsPerEpoch := by omega
  rw [hlen, foldl_set_const _ _ [] (List.nodup_range' _ _) (by simp [GoMap.keys])]
  simp

/-- A map whose keys are distinct and are the slots of the epoch has `SlotsPerEpoch`
entries. -/
theorem length_of_keys_range (m : GoMap Nat Nat) (first n : Nat) (hn : (GoMap.keys m).Nodup)
    (hk : ∀ k, k ∈ GoMap.keys m ↔ first ≤ k ∧ k < first + n) : m.length = n := by
  have hperm : (GoMap.keys m).Perm (List.range' first n) :=
    (List.perm_ext_iff_of_nodup hn (List.nodup_range' _ _)).2
      (fun k => by rw [hk, List.mem_range'_1])
  have := hperm.length_eq
  simpa [GoMap.keys] using this

/-- A load that returns without error and without nested call on a record that had no
proposer assignments has published the map the proposer duties step built: the
sentinel map with the Whisk fork active, else the map of the duties of the response
passed in or fetched. -/
theorem ensureEpochStatsLazy_published (env : Env) (client : IndexerClient) (fuel : Nat)
    (cache : IndexerCache) (ptr : Nat) (proposerRsp : Option ProposerDuties)
    (res : LazyResult) (hptr : ptr < cache.heap.length)
    (hunset : (cache.deref ptr).proposerAssignments = none)
    (hres : ensureEpochStatsLazy env client fuel cache ptr proposerRsp = some res)
    (hok : res.error = none) (hdirect : res.redirects = 0) :
    ∃ m, (res.cache.deref ptr).proposerAssignments = some m ∧
      ((whiskActivated env (cache.deref ptr).Epoch = true ∧
          ∃ n, sentinelAssignments env n (cache.deref ptr).Epoch = some m) ∨
        (whiskActivated env (cache.deref ptr).Epoch = false ∧
          ∃ rsp, (proposerRsp = some rsp ∨
              (proposerRsp = none ∧
                client.GetProposerDuties (cache.deref ptr).Epoch = .ok (some rsp))) ∧
            m = dutiesToAssignments rsp.Data)) := by
  cases fuel with
  | zero => simp [ensureEpochStatsLazy] at hres
  | succ n =>
    rw [ensureEpochStatsLazy] at hres
    cases hstep : proposerStep env client n (cache.deref ptr) proposerRsp with
    | none => simp [hstep] at hres
    | some step =>
      cases step with
      | failed calls err =>
        simp only [hstep, Option.some.injEq] at hres
        subst hres
        simp at hok
      | redirect calls rsp =>
        simp only [hstep] at hres
        split at hres
        · simp at hres
        · simp only [Option.some.injEq] at hres
          subst hres
          simp at hdirect
      | loaded calls st =>
        simp only [hstep, Option.some.injEq] at hres
        subst hres
        have hfields := loadAfterProposer_fields env client ptr st
        simp only []
        rw [deref_store_self _ _ _ hptr, hfields.2.2.1]
        -- the record the proposer step leaves
        unfold proposerStep at hstep
        simp only [hunset] at hstep
        by_cases hw : whiskActivated env (cache.deref ptr).Epoch = true
        · simp only [hw, Bool.true_eq_false, and_false, if_false, publishProposerAssignments,
            if_true] at hstep
          cases hs : sentinelAssignments env n (cache.deref ptr).Epoch with
          | none => simp [hs] at hstep
          | some pa =>
            simp only [hs, Option.some.injEq, ProposerStep.loaded.injEq] at hstep
            obtain ⟨_, rfl⟩ := hstep
            exact ⟨pa, rfl, Or.inl ⟨hw, n, hs⟩⟩
        · simp only [Bool.not_eq_true] at hw
          cases hp : proposerRsp with
          | some rsp =>
            simp only [hp, hw, publishProposerAssignments, Bool.false_eq_true, if_false,
              Option.some.injEq, ProposerStep.loaded.injEq, reduceCtorEq, false_and] at hstep
            obtain ⟨_, rfl⟩ := hstep
            exact ⟨_, rfl, Or.inr ⟨hw, rsp, Or.inl rfl, rfl⟩⟩
          | none =>
            simp only [hp, hw, and_self, if_true] at hstep
            cases hr : client.GetProposerDuties (cache.deref ptr).Epoch with
            | error err => simp [hr] at hstep
            | ok r =>
              cases r with
              | none => simp [hr] at hstep
              | some rsp =>
                simp only [hr] at hstep
                split at hstep
                · simp only [publishProposerAssignments, hw, Bool.false_eq_true, if_false,
                    Option.some.injEq, ProposerStep.loaded.injEq] at hstep
                  obtain ⟨_, rfl⟩ := hstep
                  exact ⟨_, rfl, Or.inr ⟨hw, rsp, Or.inr ⟨rfl, rfl⟩, rfl⟩⟩
                · simp at hstep

theorem weightSum_and_le (epochStats : EpochStats) (p q : VoteEvent → Bool)
    (log : List VoteEvent) :
    weightSum epochStats (fun e => p e && q e) log ≤ weightSum epochStats p log := by
  induction log with
  | nil => simp [weightSum]
  | cons e rest ih =>
    simp only [weightSum] at ih ⊢
    cases hp : p e <;> cases hq : q e <;>
      simp only [List.filter_cons, hp, hq, Bool.and_self, Bool.and_true, Bool.and_false,
        Bool.false_and, Bool.true_and, if_true, if_false, Bool.false_eq_true, List.map_cons,
        List.sum_cons] <;> omega

theorem weightSum_le_all (epochStats : EpochStats) (p : VoteEvent → Bool)
    (log : List VoteEvent) :
    weightSum epochStats p log ≤ weightSum epochStats (fun _ => true) log := by
  induction log with
  | nil => simp [weightSum]
  | cons e rest ih =>
    simp only [weightSum] at ih ⊢
    cases hp : p e <;>
      simp only [List.filter_cons, hp, if_true, if_false, Bool.false_eq_true, List.map_cons,
        List.sum_cons] <;> omega

/-- Without overflow the target and head amounts of a bucket are at most its total. -/
theorem tallyAmounts_le_total (epochStats : EpochStats) (p : VoteEvent → Bool)
    (log : List VoteEvent) (h : weightSum epochStats (fun _ => true) log < u64) :
    (tallyAmounts epochStats p log).targetVoteAmount ≤
        (tallyAmounts epochStats p log).totalVoteAmount ∧
    (tallyAmounts epochStats p log).headVoteAmount ≤
        (tallyAmounts epochStats p log).totalVoteAmount := by
  have h1 := weightSum_le_all epochStats p log
  have h2 := weightSum_and_le epochStats p (fun e => e.target) log
  have h3 := weightSum_and_le epochStats p (fun e => e.head) log
  simp only [tallyAmounts]
  rw [Nat.mod_eq_of_lt (lt_of_le_of_lt h1 h),
    Nat.mod_eq_of_lt (lt_of_le_of_lt (le_trans h2 h1) h),
    Nat.mod_eq_of_lt (lt_of_le_of_lt (le_trans h3 h1) h)]
  exact ⟨h2, h3⟩

/-! ## The steps of the loader, field by field -/

/-- The dependent state reference step writes no other field, calls only
`GetBlockHeaderByBlockroot`, does nothing when the field is set, and writes nothing when
it fails. -/
theorem stateRefStep_frame (client : IndexerClient) (epochStats : EpochStats) :
    (∃ ref, (stateRefStep client epochStats).epochStats =
      { epochStats with dependentStateRef := ref }) ∧
    (∀ c ∈ (stateRefStep client epochStats).calls,
      c = .blockHeader epochStats.DependentRoot) ∧
    (epochStats.dependentStateRef ≠ "" →
      stateRefStep client epochStats = ⟨epochStats, [], none⟩) ∧
    ((stateRefStep client epochStats).error ≠ none →
      (stateRefStep client epochStats).epochStats = epochStats) := by
  unfold stateRefStep
  by_cases h : epochStats.dependentStateRef = ""
  · simp only [h, if_true]
    by_cases h0 : epochStats.Epoch = 0
    · simp only [h0, if_true]
      exact ⟨⟨_, rfl⟩, by simp, by simp, by simp⟩
    · simp only [h0, if_false]
      cases client.getCachedBlock epochStats.DependentRoot with
      | some b => exact ⟨⟨_, rfl⟩, by simp, by simp, by simp⟩
      | none =>
        cases client.GetBlockHeaderByBlockroot epochStats.DependentRoot with
        | error err => exact ⟨⟨epochStats.dependentStateRef, rfl⟩, by simp, by simp, by simp⟩
        | ok r =>
          cases r with
          | none =>
            exact ⟨⟨epochStats.dependentStateRef, rfl⟩, by simp, by simp, by simp⟩
          | some hdr => exact ⟨⟨_, rfl⟩, by simp, by simp, by simp⟩
  · simp only [h, if_false]
    exact ⟨⟨_, rfl⟩, by simp, by simp, by simp⟩

/-- The committee duties step writes no other field, calls only `GetCommitteeDuties` with
the dependent state reference, does nothing when the field is set, and writes nothing
when it fails. -/
theorem committeeStep_frame (client : IndexerClient) (epochStats : EpochStats) :
    (∃ m, (committeeStep client epochStats).epochStats =
      { epochStats with attestorAssignments := m }) ∧
    (∀ c ∈ (committeeStep client epochStats).calls,
      c = .committeeDuties epochStats.dependentStateRef epochStats.Epoch) ∧
    (epochStats.attestorAssignments ≠ none →
      committeeStep client epochStats = ⟨epochStats, [], none⟩) ∧
    ((committeeStep client epochStats).error ≠ none →
      (committeeStep client epochStats).epochStats = epochStats) := by
  unfold committeeStep
  by_cases h : epochStats.attestorAssignments = none
  · simp only [h, if_true]
    cases client.GetCommitteeDuties epochStats.dependentStateRef epochStats.Epoch with
    | error err =>
      exact ⟨⟨epochStats.attestorAssignments, rfl⟩, by simp, by simp, by simp⟩
    | ok r => exact ⟨⟨_, rfl⟩, by simp, by simp, by simp⟩
  · simp only [h, if_false]
    exact ⟨⟨_, rfl⟩, by simp, by simp, by simp⟩

/-- The sync committee step writes no other field, calls only `GetSyncCommitteeDuties`,
with the state reference of `syncCommitteeState`, does nothing when the field is set or
the epoch is before Altair, writes nothing when it fails, and makes its call otherwise. -/
theorem syncStep_frame (env : Env) (client : IndexerClient) (epochStats : EpochStats) :
    (∃ l, (syncStep env client epochStats).epochStats =
      { epochStats with syncAssignments := l }) ∧
    (∀ c ∈ (syncStep env client epochStats).calls,
      c = .syncCommitteeDuties (syncCommitteeState env epochStats) epochStats.Epoch ∧
        epochStats.syncAssignments = none ∧ epochStats.Epoch ≥ env.AltairForkEpoch) ∧
    (epochStats.syncAssignments ≠ none →
      syncStep env client epochStats = ⟨epochStats, [], none⟩) ∧
    ((syncStep env client epochStats).error ≠ none →
      (syncStep env client epochStats).epochStats = epochStats) ∧
    (epochStats.syncAssignments = none → epochStats.Epoch ≥ env.AltairForkEpoch →
      (syncStep env client epochStats).calls =
        [.syncCommitteeDuties (syncCommitteeState env epochStats) epochStats.Epoch]) := by
  unfold syncStep
  by_cases h : epochStats.syncAssignments = none ∧ epochStats.Epoch ≥ env.AltairForkEpoch
  · simp only [h, and_self, if_true]
    cases client.GetSyncCommitteeDuties (syncCommitteeState env epochStats)
        epochStats.Epoch with
    | error err =>
      exact ⟨⟨epochStats.syncAssignments, rfl⟩, by simp [h.1, h.2], by simp [h.1], by simp,
        by simp⟩
    | ok r =>
      cases r with
      | none =>
        exact ⟨⟨epochStats.syncAssignments, rfl⟩, by simp [h.1, h.2], by simp [h.1], by simp,
          by simp⟩
      | some rsp => exact ⟨⟨_, rfl⟩, by simp [h.1, h.2], by simp [h.1], by simp, by simp⟩
  · simp only [h, if_false]
    refine ⟨⟨_, rfl⟩, by simp, by simp, by simp, ?_⟩
    intro h1 h2
    exact absurd ⟨h1, h2⟩ h

/-- The steps after the proposer duties, by the first step that fails. -/
theorem loadAfterProposer_eq (env : Env) (client : IndexerClient) (ptr : Nat)
    (epochStats : EpochStats) :
    ((stateRefStep client epochStats).error ≠ none →
      loadAfterProposer env client ptr epochStats =
        ⟨(stateRefStep client epochStats).epochStats, (stateRefStep client epochStats).calls,
          (stateRefStep client epochStats).error⟩) ∧
    ((stateRefStep client epochStats).error = none →
      (committeeStep client (stateRefStep client epochStats).epochStats).error ≠ none →
      loadAfterProposer env client ptr epochStats =
        ⟨(committeeStep client (stateRefStep client epochStats).epochStats).epochStats,
          (stateRefStep client epochStats).calls ++
            validatorStatsCalls ptr (stateRefStep client epochStats).epochStats ++
            (committeeStep client (stateRefStep client epochStats).epochStats).calls,
          (committeeStep client (stateRefStep client epochStats).epochStats).error⟩) ∧
    ((stateRefStep client epochStats).error = none →
      (committeeStep client (stateRefStep client epochStats).epochStats).error = none →
      (syncStep env client
        (committeeStep client (stateRefStep client epochStats).epochStats).epochStats).error ≠
        none →
      loadAfterProposer env client ptr epochStats =
        ⟨(syncStep env client
            (committeeStep client (stateRefStep client epochStats).epochStats).epochStats).epochStats,
          (stateRefStep client epochStats).calls ++
            validatorStatsCalls ptr (stateRefStep client epochStats).epochStats ++
            (committeeStep client (stateRefStep client epochStats).epochStats).calls ++
            (syncStep env client
              (committeeStep client (stateRefStep client epochStats).epochStats).epochStats).calls,
          (syncStep env client
            (committeeStep client
              (stateRefStep client epochStats).epochStats).epochStats).error⟩) ∧
    ((stateRefStep client epochStats).error = none →
      (committeeStep client (stateRefStep client epochStats).epochStats).error = none →
      (syncStep env client
        (committeeStep client (stateRefStep client epochStats).epochStats).epochStats).error =
        none →
      loadAfterProposer env client ptr epochStats =
        ⟨{ (syncStep env client
              (committeeStep client
                (stateRefStep client epochStats).epochStats).epochStats).epochStats with
            seenCount :=
              ((syncStep env client
                (committeeStep client
                  (stateRefStep client epochStats).epochStats).epochStats).epochStats.seenCount
                + 1) % u64 },
          (stateRefStep client epochStats).calls ++
            validatorStatsCalls ptr (stateRefStep client epochStats).epochStats ++
            (committeeStep client (stateRefStep client epochStats).epochStats).calls ++
            (syncStep env client
              (committeeStep client (stateRefStep client epochStats).epochStats).epochStats).calls,
          none⟩) := by
  refine ⟨?_, ?_, ?_, ?_⟩
  · intro h1
    unfold loadAfterProposer
    cases he : (stateRefStep client epochStats).error with
    | none => exact absurd he h1
    | some err => simp only [he]
  · intro h1 h2
    unfold loadAfterProposer
    simp only [h1]
    cases he : (committeeStep client (stateRefStep client epochStats).epochStats).error with
    | none => exact absurd he h2
    | some err => simp only [he]
  · intro h1 h2 h3
    unfold loadAfterProposer
    simp only [h1, h2]
    cases he : (syncStep env client
        (committeeStep client (stateRefStep client epochStats).epochStats).epochStats).error with
    | none => exact absurd he h3
    | some err => simp only [he]
  · intro h1 h2 h3
    unfold loadAfterProposer
    simp only [h1, h2, h3]

/-- The record the steps after the proposer duties leave is the record of the step that
failed, or the record of the last step with `seenCount` incremented. -/
theorem loadAfterProposer_record (env : Env) (client : IndexerClient) (ptr : Nat)
    (st : EpochStats) (s1 s2 s3 : LoadStep) (h1 : s1 = stateRefStep client st)
    (h2 : s2 = committeeStep client s1.epochStats)
    (h3 : s3 = syncStep env client s2.epochStats) :
    ((loadAfterProposer env client ptr st).error ≠ none ∧
      ((loadAfterProposer env client ptr st).epochStats = s1.epochStats ∨
        (loadAfterProposer env client ptr st).epochStats = s2.epochStats ∨
        (loadAfterProposer env client ptr st).epochStats = s3.epochStats)) ∨
    ((loadAfterProposer env client ptr st).error = none ∧
      (loadAfterProposer env client ptr st).epochStats =
        { s3.epochStats with seenCount := (s3.epochStats.seenCount + 1) % u64 }) := by
  subst h1 h2 h3
  obtain ⟨q1, q2, q3, q4⟩ := loadAfterProposer_eq env client ptr st
  by_cases e1 : (stateRefStep client st).error = none
  · by_cases e2 : (committeeStep client (stateRefStep client st).epochStats).error = none
    · by_cases e3 : (syncStep env client
          (committeeStep client (stateRefStep client st).epochStats).epochStats).error = none
      · rw [q4 e1 e2 e3]
        exact Or.inr ⟨rfl, rfl⟩
      · rw [q3 e1 e2 e3]
        exact Or.inl ⟨e3, Or.inr (Or.inr rfl)⟩
    · rw [q2 e1 e2]
      exact Or.inl ⟨e2, Or.inr (Or.inl rfl)⟩
  · rw [q1 e1]
    exact Or.inl ⟨e1, Or.inl rfl⟩

/-- The calls of the steps after the proposer duties are calls of one of the steps. -/
theorem loadAfterProposer_calls (env : Env) (client : IndexerClient) (ptr : Nat)
    (st : EpochStats) (s1 s2 s3 : LoadStep) (h1 : s1 = stateRefStep client st)
    (h2 : s2 = committeeStep client s1.epochStats)
    (h3 : s3 = syncStep env client s2.epochStats) :
    ∀ c ∈ (loadAfterProposer env client ptr st).calls,
      c ∈ s1.calls ∨ c ∈ validatorStatsCalls ptr s1.epochStats ∨ c ∈ s2.calls ∨
        c ∈ s3.calls := by
  subst h1 h2 h3
  obtain ⟨q1, q2, q3, q4⟩ := loadAfterProposer_eq env client ptr st
  intro c hc
  by_cases e1 : (stateRefStep client st).error = none
  · by_cases e2 : (committeeStep client (stateRefStep client st).epochStats).error = none
    · by_cases e3 : (syncStep env client
          (committeeStep client (stateRefStep client st).epochStats).epochStats).error = none
      · rw [q4 e1 e2 e3] at hc
        simp only [List.mem_append] at hc
        tauto
      · rw [q3 e1 e2 e3] at hc
        simp only [List.mem_append] at hc
        tauto
    · rw [q2 e1 e2] at hc
      simp only [List.mem_append] at hc
      tauto
  · rw [q1 e1] at hc
    exact Or.inl hc

/-- A call that starts the validator snapshot is no RPC of the loader. -/
theorem validatorStatsCalls_kind (ptr : Nat) (epochStats : EpochStats) :
    ∀ c ∈ validatorStatsCalls ptr epochStats,
      c = .validatorStatsLazy ptr epochStats.dependentStateRef := by
  unfold validatorStatsCalls
  split <;> simp

/-- The steps after the proposer duties, field by field: a field that is set is kept and
no call is made for it; `seenCount` is incremented when no step fails and kept
otherwise; the dependent state reference is the one the first step leaves; and a sync
committee call is made only for a record without sync assignments at or after the Altair
fork, with the state reference of `syncCommitteeState`. -/
theorem loadAfterProposer_frame (env : Env) (client : IndexerClient) (ptr : Nat)
    (st : EpochStats) :
    (st.dependentStateRef ≠ "" →
      (loadAfterProposer env client ptr st).epochStats.dependentStateRef =
        st.dependentStateRef ∧
      ∀ c ∈ (loadAfterProposer env client ptr st).calls, c.isBlockHeader = false) ∧
    (st.attestorAssignments ≠ none →
      (loadAfterProposer env client ptr st).epochStats.attestorAssignments =
        st.attestorAssignments ∧
      ∀ c ∈ (loadAfterProposer env client ptr st).calls, c.isCommitteeDuties = false) ∧
    (st.syncAssignments ≠ none →
      (loadAfterProposer env client ptr st).epochStats.syncAssignments =
        st.syncAssignments ∧
      ∀ c ∈ (loadAfterProposer env client ptr st).calls, c.isSyncCommitteeDuties = false) ∧
    ((loadAfterProposer env client ptr st).error = none →
      (loadAfterProposer env client ptr st).epochStats.seenCount =
        (st.seenCount + 1) % u64) ∧
    ((loadAfterProposer env client ptr st).error ≠ none →
      (loadAfterProposer env client ptr st).epochStats.seenCount = st.seenCount) ∧
    (loadAfterProposer env client ptr st).epochStats.dependentStateRef =
      (stateRefStep client st).epochStats.dependentStateRef ∧
    (∀ ref e, RpcCall.syncCommitteeDuties ref e ∈ (loadAfterProposer env client ptr st).calls →
      e = st.Epoch ∧ st.syncAssignments = none ∧ st.Epoch ≥ env.AltairForkEpoch ∧
      ref = syncCommitteeState env (loadAfterProposer env client ptr st).epochStats) := by
  obtain ⟨⟨r1, e1⟩, c1, n1, f1⟩ := stateRefStep_frame client st
  obtain ⟨⟨m2, e2⟩, c2, n2, f2⟩ :=
    committeeStep_frame client (stateRefStep client st).epochStats
  obtain ⟨⟨l3, e3⟩, c3, n3, f3, g3⟩ := syncStep_frame env client
    (committeeStep client (stateRefStep client st).epochStats).epochStats
  have hrec := loadAfterProposer_record env client ptr st _ _ _ rfl rfl rfl
  have hcalls := loadAfterProposer_calls env client ptr st _ _ _ rfl rfl rfl
  have hv := validatorStatsCalls_kind ptr (stateRefStep client st).epochStats
  -- the fields of the three records
  have d2 : (committeeStep client (stateRefStep client st).epochStats).epochStats.dependentStateRef
      = (stateRefStep client st).epochStats.dependentStateRef := by rw [e2]
  have d3 : (syncStep env client
      (committeeStep client (stateRefStep client st).epochStats).epochStats).epochStats.dependentStateRef
      = (stateRefStep client st).epochStats.dependentStateRef := by rw [e3, ← d2]
  have a1 : (stateRefStep client st).epochStats.attestorAssignments = st.attestorAssignments := by
    rw [e1]
  have a3 : (syncStep env client
      (committeeStep client (stateRefStep client st).epochStats).epochStats).epochStats.attestorAssignments
      = (committeeStep client (stateRefStep client st).epochStats).epochStats.attestorAssignments := by
    rw [e3]
  have y1 : (stateRefStep client st).epochStats.syncAssignments = st.syncAssignments := by
    rw [e1]
  have y2 : (committeeStep client (stateRefStep client st).epochStats).epochStats.syncAssignments
      = st.syncAssignments := by rw [e2, ← y1]
  have k1 : (stateRefStep client st).epochStats.seenCount = st.seenCount := by rw [e1]
  have k2 : (committeeStep client (stateRefStep client st).epochStats).epochStats.seenCount
      = st.seenCount := by rw [e2, ← k1]
  have k3 : (syncStep env client
      (committeeStep client (stateRefStep client st).epochStats).epochStats).epochStats.seenCount
      = st.seenCount := by rw [e3, ← k2]
  have p1 : (stateRefStep client st).epochStats.Epoch = st.Epoch := by rw [e1]
  have p2 : (committeeStep client (stateRefStep client st).epochStats).epochStats.Epoch
      = st.Epoch := by rw [e2, ← p1]
  have p3 : (syncStep env client
      (committeeStep client (stateRefStep client st).epochStats).epochStats).epochStats.Epoch
      = st.Epoch := by rw [e3, ← p2]
  have hdsr : (loadAfterProposer env client ptr st).epochStats.dependentStateRef =
      (stateRefStep client st).epochStats.dependentStateRef := by
    rcases hrec with ⟨_, h | h | h⟩ | ⟨_, h⟩
    · rw [h]
    · rw [h, d2]
    · rw [h, d3]
    · rw [h]; exact d3
  have hep : (loadAfterProposer env client ptr st).epochStats.Epoch = st.Epoch := by
    rcases hrec with ⟨_, h | h | h⟩ | ⟨_, h⟩
    · rw [h, p1]
    · rw [h, p2]
    · rw [h, p3]
    · rw [h]; exact p3
  refine ⟨?_, ?_, ?_, ?_, ?_, hdsr, ?_⟩
  · intro hset
    have hs1 := n1 hset
    refine ⟨by rw [hdsr, hs1], ?_⟩
    intro c hc
    rcases hcalls c hc with h | h | h | h
    · rw [hs1] at h; simp at h
    · rw [hv c h]; rfl
    · rw [c2 c h]; rfl
    · rw [(c3 c h).1]; rfl
  · intro hset
    have hs2 := n2 (by rw [a1]; exact hset)
    have a2 : (committeeStep client (stateRefStep client st).epochStats).epochStats.attestorAssignments
        = st.attestorAssignments := by rw [hs2, a1]
    refine ⟨?_, ?_⟩
    · rcases hrec with ⟨_, h | h | h⟩ | ⟨_, h⟩
      · rw [h, a1]
      · rw [h, a2]
      · rw [h, a3, a2]
      · rw [h]; exact a3.trans a2
    · intro c hc
      rcases hcalls c hc with h | h | h | h
      · rw [c1 c h]; rfl
      · rw [hv c h]; rfl
      · rw [hs2] at h; simp at h
      · rw [(c3 c h).1]; rfl
  · intro hset
    have hs3 := n3 (by rw [y2]; exact hset)
    have y3 : (syncStep env client
        (committeeStep client (stateRefStep client st).epochStats).epochStats).epochStats.syncAssignments
        = st.syncAssignments := by rw [hs3, y2]
    refine ⟨?_, ?_⟩
    · rcases hrec with ⟨_, h | h | h⟩ | ⟨_, h⟩
      · rw [h, y1]
      · rw [h, y2]
      · rw [h, y3]
      · rw [h]; exact y3
    · intro c hc
      rcases hcalls c hc with h | h | h | h
      · rw [c1 c h]; rfl
      · rw [hv c h]; rfl
      · rw [c2 c h]; rfl
      · rw [hs3] at h; simp at h
  · intro hok
    rcases hrec with ⟨hne, _⟩ | ⟨_, h⟩
    · exact absurd hok hne
    · rw [h]
      simp only []
      rw [k3]
  · intro herr
    rcases hrec with ⟨_, h | h | h⟩ | ⟨hok, _⟩
    · rw [h, k1]
    · rw [h, k2]
    · rw [h, k3]
    · exact absurd hok herr
  · intro ref e hc
    rcases hcalls _ hc with h | h | h | h
    · have := c1 _ h; simp at this
    · have := hv _ h; simp at this
    · have := c2 _ h; simp at this
    · obtain ⟨h1, h2, h3⟩ := c3 _ h
      simp only [RpcCall.syncCommitteeDuties.injEq] at h1
      rw [y2] at h2
      rw [p2] at h3
      refine ⟨by rw [h1.2, p2], h2, h3, ?_⟩
      rw [h1.1]
      unfold syncCommitteeState
      rw [p2, hep, d2, hdsr]

/-! ## The outcomes of `ensureEpochStatsLazy` -/

/-- When the proposer duties step goes on, it has written at most the proposer
assignments, nothing if they were set, and has called at most `GetProposerDuties`. -/
theorem proposerStep_loaded_frame (env : Env) (client : IndexerClient) (fuel : Nat)
    (epochStats : EpochStats) (proposerRsp : Option ProposerDuties) (calls : List RpcCall)
    (st : EpochStats)
    (h : proposerStep env client fuel epochStats proposerRsp = some (.loaded calls st)) :
    (∃ m, st = { epochStats with proposerAssignments := some m }) ∧
    (epochStats.proposerAssignments ≠ none → st = epochStats ∧ calls = []) ∧
    (∀ c ∈ calls, c = .proposerDuties epochStats.Epoch) := by
  unfold proposerStep at h
  cases hpa : epochStats.proposerAssignments with
  | some m =>
    simp only [hpa, Option.some.injEq, ProposerStep.loaded.injEq] at h
    obtain ⟨rfl, rfl⟩ := h
    exact ⟨⟨m, by rw [← hpa]⟩, fun _ => ⟨rfl, rfl⟩, by simp⟩
  | none =>
    simp only [hpa] at h
    have hpub : ∀ (rsp : Option ProposerDuties) (cs : List RpcCall),
        publishProposerAssignments env fuel epochStats rsp cs = some (.loaded calls st) →
        (∃ m, st = { epochStats with proposerAssignments := some m }) ∧ calls = cs := by
      intro rsp cs hp
      unfold publishProposerAssignments at hp
      split at hp
      · split at hp
        · simp at hp
        · simp only [Option.some.injEq, ProposerStep.loaded.injEq] at hp
          exact ⟨⟨_, hp.2.symm⟩, hp.1.symm⟩
      · split at hp
        · simp only [Option.some.injEq, ProposerStep.loaded.injEq] at hp
          exact ⟨⟨_, hp.2.symm⟩, hp.1.symm⟩
        · simp at hp
    split at h
    · split at h
      · simp at h
      · simp at h
      · split at h
        · obtain ⟨h1, h2⟩ := hpub _ _ h
          exact ⟨h1, fun hne => absurd rfl hne, by rw [h2]; simp⟩
        · simp at h
    · obtain ⟨h1, h2⟩ := hpub _ _ h
      exact ⟨h1, fun hne => absurd rfl hne, by rw [h2]; simp⟩

/-- The proposer duties step fails only in its own call, made when no response was passed
in. -/
theorem proposerStep_failed_inv (env : Env) (client : IndexerClient) (fuel : Nat)
    (epochStats : EpochStats) (proposerRsp : Option ProposerDuties) (calls : List RpcCall)
    (err : String)
    (h : proposerStep env client fuel epochStats proposerRsp = some (.failed calls err)) :
    epochStats.proposerAssignments = none ∧ calls = [.proposerDuties epochStats.Epoch] ∧
    proposerRsp = none := by
  unfold proposerStep at h
  cases hpa : epochStats.proposerAssignments with
  | some m => simp [hpa] at h
  | none =>
    simp only [hpa] at h
    have hpub : ∀ (rsp : Option ProposerDuties) (cs : List RpcCall),
        publishProposerAssignments env fuel epochStats rsp cs ≠ some (.failed calls err) := by
      intro rsp cs hp
      unfold publishProposerAssignments at hp
      split at hp
      · split at hp <;> simp at hp
      · split at hp <;> simp at hp
    split at h
    · rename_i hcond
      split at h
      · simp only [Option.some.injEq, ProposerStep.failed.injEq] at h
        exact ⟨rfl, h.1.symm, hcond.1⟩
      · simp only [Option.some.injEq, ProposerStep.failed.injEq] at h
        exact ⟨rfl, h.1.symm, hcond.1⟩
      · split at h
        · exact absurd h (hpub _ _)
        · simp at h
    · exact absurd h (hpub _ _)

/-- The proposer duties step asks for a nested call only after its own call, made when no
response was passed in, answered with another dependent root. -/
theorem proposerStep_redirect_inv (env : Env) (client : IndexerClient) (fuel : Nat)
    (epochStats : EpochStats) (proposerRsp : Option ProposerDuties) (calls : List RpcCall)
    (rsp : ProposerDuties)
    (h : proposerStep env client fuel epochStats proposerRsp = some (.redirect calls rsp)) :
    epochStats.proposerAssignments = none ∧ proposerRsp = none ∧
    calls = [.proposerDuties epochStats.Epoch] ∧
    bytesEqual (some rsp.DependentRoot) epochStats.DependentRoot = false := by
  unfold proposerStep at h
  cases hpa : epochStats.proposerAssignments with
  | some m => simp [hpa] at h
  | none =>
    simp only [hpa] at h
    have hpub : ∀ (r : Option ProposerDuties) (cs : List RpcCall),
        publishProposerAssignments env fuel epochStats r cs ≠ some (.redirect calls rsp) := by
      intro r cs hp
      unfold publishProposerAssignments at hp
      split at hp
      · split at hp <;> simp at hp
      · split at hp <;> simp at hp
    split at h
    · rename_i hcond
      split at h
      · simp at h
      · simp at h
      · split at h
        · exact absurd h (hpub _ _)
        · rename_i hroot
          simp only [Option.some.injEq, ProposerStep.redirect.injEq] at h
          obtain ⟨h1, h2⟩ := h
          subst h2
          simp only [Bool.not_eq_true] at hroot
          exact ⟨rfl, hcond.1, h1.symm, hroot⟩
    · exact absurd h (hpub _ _)

/-- The three ways a call of `ensureEpochStatsLazy` ends: the proposer duties call fails;
or the proposer duties step goes on and the later steps run on the record; or the call
is redirected and ends as the nested call does. -/
theorem ensureEpochStatsLazy_cases (env : Env) (client : IndexerClient) (fuel : Nat)
    (cache : IndexerCache) (ptr : Nat) (proposerRsp : Option ProposerDuties)
    (res : LazyResult)
    (hres : ensureEpochStatsLazy env client fuel cache ptr proposerRsp = some res) :
    (∃ err, (cache.deref ptr).proposerAssignments = none ∧ proposerRsp = none ∧
      res = { cache := cache, calls := [.proposerDuties (cache.deref ptr).Epoch]
              error := some err, redirects := 0 }) ∨
    (∃ calls st, proposerStep env client (fuel - 1) (cache.deref ptr) proposerRsp =
        some (.loaded calls st) ∧
      res = { cache := cache.store ptr (loadAfterProposer env client ptr st).epochStats
              calls := calls ++ (loadAfterProposer env client ptr st).calls
              error := (loadAfterProposer env client ptr st).error
              redirects := 0 }) ∨
    (∃ rsp inner, proposerStep env client (fuel - 1) (cache.deref ptr) proposerRsp =
        some (.redirect [.proposerDuties (cache.deref ptr).Epoch] rsp) ∧
      ensureEpochStatsLazy env client (fuel - 1)
        (createOrGetEpochStats cache (cache.deref ptr).Epoch (some rsp.DependentRoot)).1
        (createOrGetEpochStats cache (cache.deref ptr).Epoch (some rsp.DependentRoot)).2.1
        (some rsp) = some inner ∧
      res = { inner with
              calls := [.proposerDuties (cache.deref ptr).Epoch] ++ inner.calls
              redirects := inner.redirects + 1 }) := by
  cases fuel with
  | zero => simp [ensureEpochStatsLazy] at hres
  | succ n =>
    rw [ensureEpochStatsLazy] at hres
    simp only [Nat.add_sub_cancel]
    cases hstep : proposerStep env client n (cache.deref ptr) proposerRsp with
    | none => simp [hstep] at hres
    | some step =>
      cases step with
      | failed calls err =>
        simp only [hstep, Option.some.injEq] at hres
        have := proposerStep_failed_inv _ _ _ _ _ _ _ hstep
        refine Or.inl ⟨err, this.1, this.2.2, ?_⟩
        rw [← hres, this.2.1]
      | redirect calls rsp =>
        simp only [hstep] at hres
        have hinv := proposerStep_redirect_inv _ _ _ _ _ _ _ hstep
        cases hin : ensureEpochStatsLazy env client n
            (createOrGetEpochStats cache (cache.deref ptr).Epoch (some rsp.DependentRoot)).1
            (createOrGetEpochStats cache (cache.deref ptr).Epoch (some rsp.DependentRoot)).2.1
            (some rsp) with
        | none => simp [hin] at hres
        | some inner =>
          simp only [hin, Option.some.injEq] at hres
          refine Or.inr (Or.inr ⟨rsp, inner, ?_, hin, ?_⟩)
          · rw [hinv.2.2.1]
          · rw [← hres, hinv.2.2.1]
      | loaded calls st =>
        simp only [hstep, Option.some.injEq] at hres
        exact Or.inr (Or.inl ⟨calls, st, rfl, hres.symm⟩)

/-- The record `createOrGetEpochStats` gives for a root that is not the root of the record
behind `ptr` is another record, and the record behind `ptr` is as before. -/
theorem createOrGetEpochStats_other (cache : IndexerCache) (epoch : Nat) (root : Bytes)
    (ptr : Nat) (hptr : ptr < cache.heap.length)
    (hroot : bytesEqual root (cache.deref ptr).DependentRoot = false) :
    (createOrGetEpochStats cache epoch root).2.1 ≠ ptr ∧
    (createOrGetEpochStats cache epoch root).1.deref ptr = cache.deref ptr ∧
    ∀ q, ((createOrGetEpochStats cache epoch root).1.deref q).seenCount =
      (cache.deref q).seenCount := by
  cases hf : findEpochStats cache root (cache.epochStatsMap.get epoch []) with
  | some q =>
    rw [createOrGetEpochStats_found _ _ _ _ hf]
    refine ⟨?_, rfl, fun _ => rfl⟩
    intro heq
    have hq := (findEpochStats_some _ _ _ _ hf).2
    simp only [] at heq
    subst heq
    rw [bytesEqual_comm, hq] at hroot
    exact absurd hroot (by decide)
  | none =>
    rw [createOrGetEpochStats_new _ _ _ hf]
    refine ⟨by simp only []; omega, deref_append _ _ _ _ _ hptr, ?_⟩
    intro q
    simp only [IndexerCache.deref, List.getD_eq_getElem?_getD]
    by_cases hq : q < cache.heap.length
    · rw [List.getElem?_append_left hq]
    · by_cases hq' : q = cache.heap.length
      · subst hq'
        simp [newEpochStats]
      · have h1 : cache.heap.length + 1 ≤ q := by omega
        rw [List.getElem?_eq_none (by simpa using h1), List.getElem?_eq_none (by omega)]

/-- A call with the response passed in ends in the second way. -/
theorem ensureEpochStatsLazy_with_response (env : Env) (client : IndexerClient) (fuel : Nat)
    (cache : IndexerCache) (ptr : Nat) (rsp : ProposerDuties) (res : LazyResult)
    (hres : ensureEpochStatsLazy env client fuel cache ptr (some rsp) = some res) :
    ∃ calls st, proposerStep env client (fuel - 1) (cache.deref ptr) (some rsp) =
        some (.loaded calls st) ∧
      res = { cache := cache.store ptr (loadAfterProposer env client ptr st).epochStats
              calls := calls ++ (loadAfterProposer env client ptr st).calls
              error := (loadAfterProposer env client ptr st).error
              redirects := 0 } := by
  rcases ensureEpochStatsLazy_cases env client fuel cache ptr (some rsp) res hres with
    ⟨err, _, hnone, _⟩ | h | ⟨r, inner, hstep, _, _⟩
  · simp at hnone
  · exact h
  · have := (proposerStep_redirect_inv _ _ _ _ _ _ _ hstep).2.1
    simp at this

/-- Overwriting a record with one whose `seenCount` is not smaller lowers no
`seenCount`. -/
theorem store_seenCount_le (cache : IndexerCache) (ptr q : Nat) (epochStats : EpochStats)
    (h : q = ptr → (cache.deref ptr).seenCount ≤ epochStats.seenCount) :
    (cache.deref q).seenCount ≤ ((cache.store ptr epochStats).deref q).seenCount := by
  by_cases hq : q = ptr
  · subst hq
    by_cases hlen : q < cache.heap.length
    · rw [deref_store_self _ _ _ hlen]
      exact h rfl
    · have : cache.store q epochStats = cache := by
        unfold IndexerCache.store
        rw [List.set_eq_of_length_le (by omega)]
      rw [this]
  · rw [deref_store_ne _ _ _ _ (fun e => hq e.symm)]

/-- The steps after the proposer duties lower no `seenCount` that is below the largest
`uint64`. -/
theorem loadAfterProposer_seenCount_le (env : Env) (client : IndexerClient) (ptr : Nat)
    (st : EpochStats) (h : st.seenCount + 1 < u64) :
    st.seenCount ≤ (loadAfterProposer env client ptr st).epochStats.seenCount := by
  obtain ⟨_, _, _, hok, herr, _⟩ := loadAfterProposer_frame env client ptr st
  by_cases he : (loadAfterProposer env client ptr st).error = none
  · rw [hok he, Nat.mod_eq_of_lt h]
    omega
  · rw [herr he]

/-- A call that is redirected leaves the record it was made on as it was; the nested call
loads the other record. -/
theorem ensureEpochStatsLazy_redirect_frame (env : Env) (client : IndexerClient) (fuel : Nat)
    (cache : IndexerCache) (ptr : Nat) (proposerRsp : Option ProposerDuties)
    (res inner : LazyResult) (rsp : ProposerDuties) (hptr : ptr < cache.heap.length)
    (hstep : proposerStep env client (fuel - 1) (cache.deref ptr) proposerRsp =
      some (.redirect [.proposerDuties (cache.deref ptr).Epoch] rsp))
    (hin : ensureEpochStatsLazy env client (fuel - 1)
      (createOrGetEpochStats cache (cache.deref ptr).Epoch (some rsp.DependentRoot)).1
      (createOrGetEpochStats cache (cache.deref ptr).Epoch (some rsp.DependentRoot)).2.1
      (some rsp) = some inner)
    (hr : res = { inner with
                  calls := [.proposerDuties (cache.deref ptr).Epoch] ++ inner.calls
                  redirects := inner.redirects + 1 }) :
    res.redirects = 1 ∧ (cache.deref ptr).proposerAssignments = none ∧
    res.cache.deref ptr = cache.deref ptr ∧
    ∀ q, (cache.deref q).seenCount + 1 < u64 →
      (cache.deref q).seenCount ≤ (res.cache.deref q).seenCount := by
  obtain ⟨hpa, _, _, hroot⟩ := proposerStep_redirect_inv _ _ _ _ _ _ _ hstep
  obtain ⟨hne, hsame, hseen⟩ :=
    createOrGetEpochStats_other cache (cache.deref ptr).Epoch (some rsp.DependentRoot) ptr hptr
      hroot
  obtain ⟨calls, st, hst, hinner⟩ := ensureEpochStatsLazy_with_response _ _ _ _ _ _ _ hin
  obtain ⟨⟨m, hm⟩, _, _⟩ := proposerStep_loaded_frame _ _ _ _ _ _ _ hst
  subst hr
  subst hinner
  refine ⟨rfl, hpa, ?_, ?_⟩
  · simp only []
    rw [deref_store_ne _ _ _ _ hne, hsame]
  · intro q hq
    simp only []
    rw [← hseen q]
    apply store_seenCount_le
    intro hqa
    have hst' : st.seenCount =
        ((createOrGetEpochStats cache (cache.deref ptr).Epoch (some rsp.DependentRoot)).1.deref
          (createOrGetEpochStats cache (cache.deref ptr).Epoch
            (some rsp.DependentRoot)).2.1).seenCount := by
      rw [hm]
    rw [← hst']
    apply loadAfterProposer_seenCount_le
    rw [hst', ← hqa, hseen q]
    exact hq

/-- When no step after the proposer duties fails, the calls are those of all steps, the
sync committee call among them when the record has no sync assignments at or after the
Altair fork. -/
theorem loadAfterProposer_ok (env : Env) (client : IndexerClient) (ptr : Nat)
    (st : EpochStats) (hok : (loadAfterProposer env client ptr st).error = none)
    (hsync : st.syncAssignments = none) (hep : st.Epoch ≥ env.AltairForkEpoch) :
    ∃ ref, RpcCall.syncCommitteeDuties ref st.Epoch ∈
      (loadAfterProposer env client ptr st).calls := by
  obtain ⟨⟨r1, e1⟩, _⟩ := stateRefStep_frame client st
  obtain ⟨⟨m2, e2⟩, _⟩ := committeeStep_frame client (stateRefStep client st).epochStats
  obtain ⟨_, _, _, _, g3⟩ := syncStep_frame env client
    (committeeStep client (stateRefStep client st).epochStats).epochStats
  have y2 : (committeeStep client (stateRefStep client st).epochStats).epochStats.syncAssignments
      = st.syncAssignments := by rw [e2, e1]
  have p2 : (committeeStep client (stateRefStep client st).epochStats).epochStats.Epoch
      = st.Epoch := by rw [e2, e1]
  have hcall := g3 (by rw [y2]; exact hsync) (by rw [p2]; exact hep)
  rw [p2] at hcall
  obtain ⟨q1, q2, q3, q4⟩ := loadAfterProposer_eq env client ptr st
  by_cases c1 : (stateRefStep client st).error = none
  · by_cases c2 : (committeeStep client (stateRefStep client st).epochStats).error = none
    · by_cases c3 : (syncStep env client
          (committeeStep client (stateRefStep client st).epochStats).epochStats).error = none
      · rw [q4 c1 c2 c3]
        refine ⟨syncCommitteeState env
          (committeeStep client (stateRefStep client st).epochStats).epochStats, ?_⟩
        simp only [List.mem_append]
        right
        rw [hcall]
        exact List.mem_singleton.2 rfl
      · rw [q3 c1 c2 c3] at hok
        exact absurd hok c3
    · rw [q2 c1 c2] at hok
      exact absurd hok c2
  · rw [q1 c1] at hok
    exact absurd hok c1

/-- With no Whisk fork configured, or with the proposer assignments set, a call of
`ensureEpochStatsLazy` returns; fuel 2 is enough. -/
theorem ensureEpochStatsLazy_total (env : Env) (client : IndexerClient) (fuel : Nat)
    (cache : IndexerCache) (ptr : Nat) (proposerRsp : Option ProposerDuties)
    (h : env.WhiskForkEpoch = none ∨ (cache.deref ptr).proposerAssignments ≠ none)
    (hfuel : 2 ≤ fuel) :
    ∃ res, ensureEpochStatsLazy env client fuel cache ptr proposerRsp = some res := by
  obtain ⟨n, rfl⟩ : ∃ n, fuel = n + 1 + 1 := ⟨fuel - 2, by omega⟩
  cases hpa : (cache.deref ptr).proposerAssignments with
  | some m =>
    exact ⟨_, ensureEpochStatsLazy_loaded env client (n + 1) cache ptr proposerRsp [] _
      (proposerStep_set env client (n + 1) _ proposerRsp m hpa)⟩
  | none =>
    have hW : env.WhiskForkEpoch = none := by
      rcases h with h | h
      · exact h
      · exact absurd hpa h
    have hw : ∀ e, whiskActivated env e = false := by
      intro e
      simp [whiskActivated, hW]
    cases proposerRsp with
    | some rsp => exact ⟨_, ensureEpochStatsLazy_passed env client (n + 1) cache ptr rsp (hw _)⟩
    | none =>
      cases hr : client.GetProposerDuties (cache.deref ptr).Epoch with
      | error err =>
        rw [ensureEpochStatsLazy]
        simp [proposerStep, hpa, hw, hr]
      | ok r =>
        cases r with
        | none =>
          rw [ensureEpochStatsLazy]
          simp [proposerStep, hpa, hw, hr]
        | some rsp =>
          by_cases hroot : bytesEqual (some rsp.DependentRoot) (cache.deref ptr).DependentRoot
              = true
          · exact ⟨_, ensureEpochStatsLazy_loaded env client (n + 1) cache ptr none _ _
              (proposerStep_fetched env client (n + 1) _ rsp hpa (hw _) hr hroot)⟩
          · simp only [Bool.not_eq_true] at hroot
            exact ⟨_, ensureEpochStatsLazy_redirected env client (n + 1) cache ptr none _ rsp _
              (proposerStep_redirect env client (n + 1) _ rsp hpa (hw _) hr hroot)
              (ensureEpochStatsLazy_passed env client n _ _ rsp (hw _))⟩

/-- The dependent state reference the first step after the proposer duties derives for a
record that has none. -/
theorem stateRefStep_value (client : IndexerClient) (st : EpochStats)
    (hempty : st.dependentStateRef = "") :
    (st.Epoch = 0 → (stateRefStep client st).epochStats.dependentStateRef = "genesis") ∧
    (∀ b, st.Epoch ≠ 0 → client.getCachedBlock st.DependentRoot = some b →
      (stateRefStep client st).epochStats.dependentStateRef =
        stateRefOf b.Slot b.stateRoot) ∧
    (∀ hdr, st.Epoch ≠ 0 → client.getCachedBlock st.DependentRoot = none →
      client.GetBlockHeaderByBlockroot st.DependentRoot = .ok (some hdr) →
      (stateRefStep client st).epochStats.dependentStateRef =
        stateRefOf hdr.Slot hdr.StateRoot) ∧
    (st.Epoch ≠ 0 → client.getCachedBlock st.DependentRoot = none →
      (∀ hdr, client.GetBlockHeaderByBlockroot st.DependentRoot ≠ .ok (some hdr)) →
      (stateRefStep client st).error ≠ none) := by
  refine ⟨?_, ?_, ?_, ?_⟩
  · intro h0
    simp [stateRefStep, hempty, h0]
  · intro b h0 hb
    simp [stateRefStep, hempty, h0, hb]
  · intro hdr h0 hb hh
    simp [stateRefStep, hempty, h0, hb, hh]
  · intro h0 hb hh
    unfold stateRefStep
    simp only [hempty, if_true, h0, if_false, hb]
    cases hr : client.GetBlockHeaderByBlockroot st.DependentRoot with
    | error err => simp
    | ok r =>
      cases r with
      | none => simp
      | some hdr => exact absurd hr (hh hdr)

/-! ## Removing a record from the cache -/

theorem GoMap.mem_of_find {κ ν : Type} [DecidableEq κ] (m : GoMap κ ν) (k : κ) (v : ν)
    (h : GoMap.find m k = some v) : (k, v) ∈ m := by
  induction m with
  | nil => simp [GoMap.find] at h
  | cons hd tl ih =>
    obtain ⟨a, b⟩ := hd
    unfold GoMap.find at h
    split at h
    · rename_i hk
      simp only [Option.some.injEq] at h
      subst hk
      subst h
      exact List.mem_cons_self _ _
    · exact List.mem_cons_of_mem _ (ih h)

theorem GoMap.mem_set {κ ν : Type} [DecidableEq κ] (m : GoMap κ ν) (k : κ) (v : ν)
    (e : κ × ν) (h : e ∈ GoMap.set m k v) : e = (k, v) ∨ e ∈ m := by
  induction m with
  | nil =>
    simp only [GoMap.set, List.mem_singleton] at h
    exact Or.inl h
  | cons hd tl ih =>
    obtain ⟨a, b⟩ := hd
    unfold GoMap.set at h
    split at h
    · rcases List.mem_cons.1 h with h | h
      · exact Or.inl h
      · exact Or.inr (List.mem_cons_of_mem _ h)
    · rcases List.mem_cons.1 h with h | h
      · exact Or.inr (h ▸ List.mem_cons_self _ _)
      · rcases ih h with h | h
        · exact Or.inl h
        · exact Or.inr (List.mem_cons_of_mem _ h)

theorem GoMap.mem_erase {κ ν : Type} [DecidableEq κ] (m : GoMap κ ν) (k : κ)
    (e : κ × ν) (h : e ∈ GoMap.erase m k) : e ∈ m := by
  induction m with
  | nil => simp [GoMap.erase] at h
  | cons hd tl ih =>
    obtain ⟨a, b⟩ := hd
    unfold GoMap.erase at h
    split at h
    · exact List.mem_cons_of_mem _ (ih h)
    · rcases List.mem_cons.1 h with h | h
      · exact h ▸ List.mem_cons_self _ _
      · exact List.mem_cons_of_mem _ (ih h)

theorem GoMap.find_erase {κ ν : Type} [DecidableEq κ] (m : GoMap κ ν) (k k' : κ) :
    GoMap.find (GoMap.erase m k) k' = if k = k' then none else GoMap.find m k' := by
  induction m with
  | nil => simp [GoMap.erase, GoMap.find]
  | cons hd tl ih =>
    obtain ⟨a, b⟩ := hd
    by_cases h : a = k
    · subst h
      simp only [GoMap.erase, if_true]
      rw [ih]
      by_cases h' : a = k'
      · simp [h']
      · simp [GoMap.find, h']
    · by_cases h' : a = k'
      · subst h'
        have : ¬ k = a := fun e => h e.symm
        simp [GoMap.erase, GoMap.find, h, this]
      · simp [GoMap.erase, GoMap.find, h, h', ih]

/-- Lines 92-95 of `removeEpochStats` on a list that holds the pointer: moving the last
entry to the first position of the pointer and cutting the list by one leaves the list
without one occurrence of the pointer, up to the order. -/
theorem swapRemove_perm (x : Nat) (l : List Nat) (hx : x ∈ l) :
    ((if l.indexOf x < l.length - 1 then l.set (l.indexOf x) (l.getD (l.length - 1) 0)
      else l).take (l.length - 1)).Perm (l.erase x) := by
  induction l with
  | nil => simp at hx
  | cons a t ih =>
    by_cases hax : a = x
    · subst hax
      cases t with
      | nil => simp
      | cons b u =>
        have hlast : (a :: b :: u).getD ((a :: b :: u).length - 1) 0 =
            (b :: u).getLast (by simp) := by
          simp [List.getD_eq_getElem?_getD, List.getLast_eq_getElem]
        rw [List.indexOf_cons_self, hlast]
        simp only [List.length_cons, Nat.add_sub_cancel, Nat.zero_lt_succ, if_true,
          List.set_cons_zero, List.take_succ_cons, List.erase_cons_head]
        have hd : (b :: u).take u.length = (b :: u).dropLast := by
          rw [List.dropLast_eq_take]
          simp
        rw [hd]
        have := List.dropLast_append_getLast (l := b :: u) (by simp)
        have hp : ((b :: u).getLast (by simp) :: (b :: u).dropLast).Perm
            ((b :: u).dropLast ++ [(b :: u).getLast (by simp)]) := by
          rw [← List.singleton_append]
          exact List.perm_append_comm
        rw [this] at hp
        exact hp
    · have hxt : x ∈ t := by
        rcases List.mem_cons.1 hx with h | h
        · exact absurd h.symm hax
        · exact h
      have hne : t ≠ [] := List.ne_nil_of_mem hxt
      obtain ⟨n, hn⟩ : ∃ n, t.length = n + 1 :=
        ⟨t.length - 1, by have := List.length_pos.2 hne; omega⟩
      have hidx : (a :: t).indexOf x = t.indexOf x + 1 := List.indexOf_cons_ne _ hax
      have hget : (a :: t).getD ((a :: t).length - 1) 0 = t.getD (t.length - 1) 0 := by
        simp [hn]
      have ih' := ih hxt
      rw [hidx, hget]
      rw [hn] at ih' ⊢
      simp only [List.length_cons, Nat.add_sub_cancel, Nat.add_lt_add_iff_right] at ih' ⊢
      rw [hn]
      simp only [Nat.add_lt_add_iff_right]
      rw [List.erase_cons_tail (by simpa using hax)]
      by_cases hc : t.indexOf x < n
      · rw [if_pos hc] at ih' ⊢
        simp only [List.set_cons_succ, List.take_succ_cons]
        exact List.Perm.cons a ih'
      · rw [if_neg hc] at ih' ⊢
        simp only [List.take_succ_cons]
        exact List.Perm.cons a ih'

theorem removeEpochStats_none (cache : IndexerCache) (ptr : Nat)
    (h : cache.epochStatsMap.find (cache.deref ptr).Epoch = none) :
    removeEpochStats cache ptr = cache := by
  simp only [removeEpochStats, h]

theorem removeEpochStats_some (cache : IndexerCache) (ptr : Nat) (l : List Nat)
    (h : cache.epochStatsMap.find (cache.deref ptr).Epoch = some l) :
    removeEpochStats cache ptr =
      if l.indexOf ptr < l.length then
        if l.length = 1 then
          { cache with epochStatsMap := cache.epochStatsMap.erase (cache.deref ptr).Epoch }
        else
          { cache with
            epochStatsMap := cache.epochStatsMap.set (cache.deref ptr).Epoch
              ((if l.indexOf ptr < l.length - 1 then
                  l.set (l.indexOf ptr) (l.getD (l.length - 1) 0)
                else l).take (l.length - 1)) }
      else cache := by
  simp only [removeEpochStats, h]

/-- The four ways `removeEpochStats` ends: the epoch of the record has no list; the list
does not hold the pointer; the list holds only the pointer, once, and the key is
deleted; or the list is replaced by itself without one occurrence of the pointer, up to
the order. -/
theorem removeEpochStats_cases (cache : IndexerCache) (ptr : Nat) :
    (cache.epochStatsMap.find (cache.deref ptr).Epoch = none ∧
      removeEpochStats cache ptr = cache) ∨
    (∃ l, cache.epochStatsMap.find (cache.deref ptr).Epoch = some l ∧ ptr ∉ l ∧
      removeEpochStats cache ptr = cache) ∨
    (∃ l, cache.epochStatsMap.find (cache.deref ptr).Epoch = some l ∧ ptr ∈ l ∧
      l.length = 1 ∧
      removeEpochStats cache ptr =
        { cache with epochStatsMap := cache.epochStatsMap.erase (cache.deref ptr).Epoch }) ∨
    (∃ l l', cache.epochStatsMap.find (cache.deref ptr).Epoch = some l ∧ ptr ∈ l ∧
      l.length ≠ 1 ∧ l'.Perm (l.erase ptr) ∧ l' ≠ [] ∧
      removeEpochStats cache ptr =
        { cache with
          epochStatsMap := cache.epochStatsMap.set (cache.deref ptr).Epoch l' }) := by
  cases hf : cache.epochStatsMap.find (cache.deref ptr).Epoch with
  | none => exact Or.inl ⟨rfl, removeEpochStats_none cache ptr hf⟩
  | some l =>
    have heq := removeEpochStats_some cache ptr l hf
    by_cases hmem : ptr ∈ l
    · have hidx : l.indexOf ptr < l.length := List.indexOf_lt_length.2 hmem
      rw [if_pos hidx] at heq
      by_cases hlen : l.length = 1
      · rw [if_pos hlen] at heq
        exact Or.inr (Or.inr (Or.inl ⟨l, rfl, hmem, hlen, heq⟩))
      · rw [if_neg hlen] at heq
        have hperm := swapRemove_perm ptr l hmem
        refine Or.inr (Or.inr (Or.inr ⟨l, _, rfl, hmem, hlen, hperm, ?_, heq⟩))
        intro hnil
        have h1 := hperm.length_eq
        rw [hnil, List.length_erase_of_mem hmem] at h1
        have := List.length_pos_of_mem hmem
        simp only [List.length_nil] at h1
        omega
    · have hidx : ¬ l.indexOf ptr < l.length := fun h => hmem (List.indexOf_lt_length.1 h)
      rw [if_neg hidx] at heq
      exact Or.inr (Or.inl ⟨l, rfl, hmem, heq⟩)

/-- The relation of having dependent roots that are not byte-equal is symmetric. -/
theorem rootsDiffer_symm (cache : IndexerCache) :
    Symmetric (fun p q : Nat =>
      bytesEqual (cache.deref p).DependentRoot (cache.deref q).DependentRoot = false) := by
  intro p q h
  rw [bytesEqual_comm]
  exact h

/-- The invariant carries over to a cache whose records behind the old pointers are as
before and whose entries are old entries or satisfy the invariant themselves. -/
theorem keyUnique_transfer (cache cache' : IndexerCache) (hinv : KeyUnique cache)
    (hderef : ∀ e ∈ cache.epochStatsMap, ∀ p ∈ e.2, cache'.deref p = cache.deref p)
    (hent : ∀ e ∈ cache'.epochStatsMap, e ∈ cache.epochStatsMap ∨
      (e.2 ≠ [] ∧ (∀ p ∈ e.2, (cache'.deref p).Epoch = e.1) ∧
        e.2.Pairwise (fun p q =>
          bytesEqual (cache'.deref p).DependentRoot (cache'.deref q).DependentRoot = false))) :
    KeyUnique cache' := by
  intro e he
  rcases hent e he with h | h
  · obtain ⟨h1, h2, h3⟩ := hinv e h
    refine ⟨h1, ?_, ?_⟩
    · intro p hp
      rw [hderef e h p hp]
      exact h2 p hp
    · refine List.Pairwise.imp_of_mem ?_ h3
      intro a b ha hb hab
      rw [hderef e h a ha, hderef e h b hb]
      exact hab
  · exact h

/-- The invariant and the validity of the pointers are kept by `createOrGetEpochStats`. -/
theorem createOrGetEpochStats_keyUnique (cache : IndexerCache) (epoch : Nat)
    (dependendRoot : Bytes) (hvalid : ValidPointers cache) (hinv : KeyUnique cache) :
    KeyUnique (createOrGetEpochStats cache epoch dependendRoot).1 ∧
    ValidPointers (createOrGetEpochStats cache epoch dependendRoot).1 := by
  cases hf : findEpochStats cache dependendRoot (cache.epochStatsMap.get epoch []) with
  | some q =>
    rw [createOrGetEpochStats_found _ _ _ _ hf]
    exact ⟨hinv, hvalid⟩
  | none =>
    rw [createOrGetEpochStats_new _ _ _ hf]
    have hn := (findEpochStats_eq_none _ _ _).1 hf
    have hl : ∀ p ∈ cache.epochStatsMap.get epoch [],
        (epoch, cache.epochStatsMap.get epoch []) ∈ cache.epochStatsMap := by
      intro p hp
      unfold GoMap.get at hp ⊢
      cases hfind : cache.epochStatsMap.find epoch with
      | none => simp [hfind] at hp
      | some l => exact GoMap.mem_of_find _ _ _ hfind
    have hold : ∀ e ∈ cache.epochStatsMap, ∀ p ∈ e.2,
        IndexerCache.deref
          { heap := cache.heap ++ [newEpochStats epoch dependendRoot]
            epochStatsMap := cache.epochStatsMap.set epoch
              (cache.epochStatsMap.get epoch [] ++ [cache.heap.length]) } p =
          cache.deref p := by
      intro e he p hp
      exact deref_append _ _ _ _ _ (hvalid e he p hp)
    refine ⟨keyUnique_transfer cache _ hinv hold ?_, ?_⟩
    · intro e he
      rcases GoMap.mem_set _ _ _ _ he with h | h
      · right
        subst h
        refine ⟨by simp, ?_, ?_⟩
        · intro p hp
          rcases List.mem_append.1 hp with hp | hp
          · rw [hold _ (hl p hp) p hp]
            exact (hinv _ (hl p hp)).2.1 p hp
          · rw [List.mem_singleton.1 hp, deref_new]
            rfl
        · rw [List.pairwise_append]
          refine ⟨?_, List.pairwise_singleton _ _, ?_⟩
          · cases hc : cache.epochStatsMap.get epoch [] with
            | nil => exact List.Pairwise.nil
            | cons a t =>
              have hmem : a ∈ cache.epochStatsMap.get epoch [] := by simp [hc]
              have hent := hl a hmem
              have h3 := (hinv _ hent).2.2
              rw [← hc]
              refine List.Pairwise.imp_of_mem ?_ h3
              intro x y hx hy hxy
              rw [hold _ hent x hx, hold _ hent y hy]
              exact hxy
          · intro a ha b hb
            rw [List.mem_singleton.1 hb, deref_new, hold _ (hl a ha) a ha]
            exact hn a ha
      · exact Or.inl h
    · intro e he p hp
      simp only [List.length_append, List.length_singleton]
      rcases GoMap.mem_set _ _ _ _ he with h | h
      · subst h
        rcases List.mem_append.1 hp with hp | hp
        · have := hvalid _ (hl p hp) p hp
          omega
        · rw [List.mem_singleton.1 hp]
          omega
      · have := hvalid e h p hp
        omega

/-- The invariant and the validity of the pointers are kept by `removeEpochStats`. -/
theorem removeEpochStats_keyUnique (cache : IndexerCache) (ptr : Nat)
    (hvalid : ValidPointers cache) (hinv : KeyUnique cache) :
    KeyUnique (removeEpochStats cache ptr) ∧ ValidPointers (removeEpochStats cache ptr) := by
  rcases removeEpochStats_cases cache ptr with
    ⟨_, hr⟩ | ⟨l, _, _, hr⟩ | ⟨l, hf, hmem, hlen, hr⟩ | ⟨l, l', hf, hmem, hlen, hperm, hne, hr⟩
  · rw [hr]
    exact ⟨hinv, hvalid⟩
  · rw [hr]
    exact ⟨hinv, hvalid⟩
  · rw [hr]
    refine ⟨keyUnique_transfer cache _ hinv (fun _ _ _ _ => rfl) ?_, ?_⟩
    · intro e he
      exact Or.inl (GoMap.mem_erase _ _ _ he)
    · intro e he p hp
      exact hvalid e (GoMap.mem_erase _ _ _ he) p hp
  · rw [hr]
    have hent := GoMap.mem_of_find _ _ _ hf
    have hsub : ∀ p ∈ l', p ∈ l := fun p hp => List.mem_of_mem_erase (hperm.subset hp)
    refine ⟨keyUnique_transfer cache _ hinv (fun _ _ _ _ => rfl) ?_, ?_⟩
    · intro e he
      rcases GoMap.mem_set _ _ _ _ he with h | h
      · right
        subst h
        obtain ⟨_, h2, h3⟩ := hinv _ hent
        refine ⟨hne, fun p hp => h2 p (hsub p hp), ?_⟩
        have h4 : (l.erase ptr).Pairwise (fun p q =>
            bytesEqual (cache.deref p).DependentRoot (cache.deref q).DependentRoot = false) :=
          List.Pairwise.sublist (List.erase_sublist _ _) h3
        exact (hperm.pairwise_iff (fun {p q} h => rootsDiffer_symm cache h)).2 h4
      · exact Or.inl h
    · intro e he p hp
      rcases GoMap.mem_set _ _ _ _ he with h | h
      · subst h
        exact hvalid _ hent p (hsub p hp)
      · exact hvalid e h p hp

/-- Under the invariant, `getEpochStats` with a root that is not nil returns a record
exactly when it is in the list of the epoch with a byte-equal root. -/
theorem getEpochStats_unique (cache : IndexerCache) (epoch : Nat) (dependendRoot : Bytes)
    (hinv : KeyUnique cache) (hroot : dependendRoot ≠ none) (p : Nat) :
    getEpochStats cache epoch dependendRoot = some p ↔
      p ∈ cache.epochStatsMap.get epoch [] ∧
      bytesEqual (cache.deref p).DependentRoot dependendRoot = true := by
  unfold getEpochStats GoMap.get
  cases hf : cache.epochStatsMap.find epoch with
  | none => simp
  | some l =>
    simp only [Option.getD_some, hroot, decide_False, Bool.false_or]
    constructor
    · intro h
      exact ⟨List.mem_of_find?_eq_some h, by simpa using List.find?_some h⟩
    · rintro ⟨hp, hm⟩
      cases hfind : l.find? (fun epochStats =>
          bytesEqual (cache.deref epochStats).DependentRoot dependendRoot) with
      | none =>
        have := List.find?_eq_none.1 hfind p hp
        simp [hm] at this
      | some q =>
        have hq := List.mem_of_find?_eq_some hfind
        have hqm : bytesEqual (cache.deref q).DependentRoot dependendRoot = true := by
          simpa using List.find?_some hfind
        by_cases hpq : q = p
        · rw [hpq]
        · have h3 := (hinv _ (GoMap.mem_of_find _ _ _ hf)).2.2
          have := h3.forall (fun {a b} h => rootsDiffer_symm cache h) hq hp hpq
          unfold bytesEqual at this hm hqm
          simp only [decide_eq_true_eq, decide_eq_false_iff_not] at this hm hqm
          exact absurd (hqm.trans hm.symm) this

/-! ## The keys of the attester assignments -/

/-- The decimal digit characters have the values they stand for. -/
theorem digitChar_value (k : Nat) (hk : k < 10) : (Nat.digitChar k).toNat - 48 = k := by
  interval_cases k <;> rfl

theorem digitChar_ne_dash (k : Nat) (hk : k < 10) : Nat.digitChar k ≠ '-' := by
  interval_cases k <;> decide

/-- Reading the decimal rendering of a number gives the number back. -/
theorem toDigitsCore_value (fuel n : Nat) (ds : List Char) (h : n < fuel) :
    (Nat.toDigitsCore 10 fuel n ds).foldl (fun acc c => acc * 10 + (c.toNat - 48)) 0 =
      ds.foldl (fun acc c => acc * 10 + (c.toNat - 48)) n := by
  induction fuel generalizing n ds with
  | zero => omega
  | succ fuel ih =>
    unfold Nat.toDigitsCore
    simp only []
    by_cases h0 : n / 10 = 0
    · rw [if_pos h0]
      have hlt : n < 10 := by omega
      simp only [List.foldl_cons, Nat.zero_mul, Nat.zero_add]
      rw [Nat.mod_eq_of_lt hlt, digitChar_value n hlt]
    · rw [if_neg h0]
      rw [ih (n / 10) _ (by omega)]
      simp only [List.foldl_cons]
      rw [digitChar_value _ (Nat.mod_lt _ (by decide))]
      congr 1
      omega

theorem toDigitsCore_no_dash (fuel n : Nat) (ds : List Char) (h : '-' ∉ ds) :
    '-' ∉ Nat.toDigitsCore 10 fuel n ds := by
  induction fuel generalizing n ds with
  | zero => simpa [Nat.toDigitsCore] using h
  | succ fuel ih =>
    unfold Nat.toDigitsCore
    simp only []
    have hd : '-' ∉ Nat.digitChar (n % 10) :: ds := by
      intro hm
      rcases List.mem_cons.1 hm with hm | hm
      · exact digitChar_ne_dash _ (Nat.mod_lt _ (by decide)) hm.symm
      · exact h hm
    by_cases h0 : n / 10 = 0
    · rw [if_pos h0]; exact hd
    · rw [if_neg h0]; exact ih _ _ hd

theorem toDigits_injective (a b : Nat) (h : Nat.toDigits 10 a = Nat.toDigits 10 b) : a = b := by
  have ha := toDigitsCore_value (a + 1) a [] (by omega)
  have hb := toDigitsCore_value (b + 1) b [] (by omega)
  unfold Nat.toDigits at h
  rw [h, hb] at ha
  simpa using ha.symm

theorem split_at_dash (l1 l2 l3 l4 : List Char) (h1 : '-' ∉ l1) (h3 : '-' ∉ l3)
    (h : l1 ++ '-' :: l2 = l3 ++ '-' :: l4) : l1 = l3 ∧ l2 = l4 := by
  induction l1 generalizing l3 with
  | nil =>
    cases l3 with
    | nil => simpa using h
    | cons c t =>
      simp only [List.nil_append, List.cons_append, List.cons.injEq] at h
      exact absurd (List.mem_cons.2 (Or.inl h.1)) h3
  | cons a t ih =>
    cases l3 with
    | nil =>
      simp only [List.nil_append, List.cons_append, List.cons.injEq] at h
      exact absurd (List.mem_cons.2 (Or.inl h.1.symm)) h1
    | cons c u =>
      simp only [List.cons_append, List.cons.injEq] at h
      obtain ⟨r1, r2⟩ := ih u (fun hm => h1 (List.mem_cons_of_mem _ hm))
        (fun hm => h3 (List.mem_cons_of_mem _ hm)) h.2
      exact ⟨by rw [h.1, r1], r2⟩

theorem attKey_data (s i : Nat) :
    (attKey s i).data = Nat.toDigits 10 s ++ '-' :: Nat.toDigits 10 i := by
  simp [attKey, toString, Nat.repr, List.asString]

/-- Distinct pairs of slot and committee index have distinct keys. -/
theorem attKey_injective (s i s' i' : Nat) (h : attKey s i = attKey s' i') :
    s = s' ∧ i = i' := by
  have hd := congrArg String.data h
  rw [attKey_data, attKey_data] at hd
  obtain ⟨h1, h2⟩ := split_at_dash _ _ _ _ (toDigitsCore_no_dash _ _ _ (by simp))
    (toDigitsCore_no_dash _ _ _ (by simp)) hd
  exact ⟨toDigits_injective _ _ h1, toDigits_injective _ _ h2⟩

/-- The loop over the validators of one committee (lines 298-305). -/
theorem foldl_validators_find (k : String) (vs : List Nat) :
    ∀ (m : GoMap String (List Nat)) (k' : String),
      GoMap.find (vs.foldl (fun attestorAssignments valIndex =>
        attestorAssignments.set k (attestorAssignments.get k [] ++ [valIndex])) m) k' =
        if k = k' ∧ vs ≠ [] then some (m.get k [] ++ vs) else GoMap.find m k' := by
  induction vs with
  | nil => intro m k'; simp
  | cons v t ih =>
    intro m k'
    rw [List.foldl_cons, ih]
    by_cases hk : k = k'
    · subst hk
      by_cases ht : t = []
      · subst ht
        simp [GoMap.find_set]
      · simp [ht, GoMap.get_set]
    · simp [hk, GoMap.find_set]

/-- The map built from a committee duties response holds under every key the validators
the response lists under it, and no key without validators. -/
theorem committees_find (cs : List Committee) :
    ∀ (m : GoMap String (List Nat)) (k : String),
      GoMap.find (cs.foldl (fun attestorAssignments committee =>
        committee.Validators.foldl (fun attestorAssignments valIndex =>
          let k := attKey committee.Slot committee.Index
          attestorAssignments.set k (attestorAssignments.get k [] ++ [valIndex]))
          attestorAssignments) m) k =
        if committeeValidators k cs = [] then GoMap.find m k
        else some (m.get k [] ++ committeeValidators k cs) := by
  induction cs with
  | nil => intro m k; simp [committeeValidators]
  | cons c t ih =>
    intro m k
    rw [List.foldl_cons, ih]
    have hfind : GoMap.find (c.Validators.foldl (fun attestorAssignments valIndex =>
          let k := attKey c.Slot c.Index
          attestorAssignments.set k (attestorAssignments.get k [] ++ [valIndex])) m) k =
        if attKey c.Slot c.Index = k ∧ c.Validators ≠ [] then
          some (m.get (attKey c.Slot c.Index) [] ++ c.Validators)
        else GoMap.find m k :=
      foldl_validators_find (attKey c.Slot c.Index) c.Validators m k
    have hget : GoMap.get (c.Validators.foldl (fun attestorAssignments valIndex =>
          let k := attKey c.Slot c.Index
          attestorAssignments.set k (attestorAssignments.get k [] ++ [valIndex])) m) k [] =
        if attKey c.Slot c.Index = k then m.get k [] ++ c.Validators else m.get k [] := by
      unfold GoMap.get at hfind ⊢
      rw [hfind]
      by_cases hk : attKey c.Slot c.Index = k
      · by_cases hv : c.Validators = []
        · simp [hk, hv]
        · simp [hk, hv]
      · simp [hk]
    rw [hfind, hget]
    by_cases hk : attKey c.Slot c.Index = k
    · by_cases hv : c.Validators = []
      · simp [committeeValidators, hk, hv]
      · by_cases ht : committeeValidators k t = []
        · simp [committeeValidators, hk, hv, ht]
        · simp [committeeValidators, hk, hv, ht]
    · simp [committeeValidators, hk]

theorem committeesToAssignments_find (cs : List Committee) (k : String) :
    GoMap.find (committeesToAssignments cs) k =
      if committeeValidators k cs = [] then none else some (committeeValidators k cs) := by
  unfold committeesToAssignments
  rw [committees_find]
  simp [GoMap.get, GoMap.find]

theorem committeeValidators_ne_nil (k : String) (cs : List Committee) :
    committeeValidators k cs ≠ [] ↔
      ∃ c ∈ cs, c.Validators ≠ [] ∧ k = attKey c.Slot c.Index := by
  induction cs with
  | nil => simp [committeeValidators]
  | cons c t ih =>
    unfold committeeValidators
    by_cases hk : attKey c.Slot c.Index = k
    · rw [if_pos hk]
      constructor
      · intro h
        by_cases hv : c.Validators = []
        · rw [hv, List.nil_append] at h
          obtain ⟨d, hd, h1, h2⟩ := ih.1 h
          exact ⟨d, List.mem_cons_of_mem _ hd, h1, h2⟩
        · exact ⟨c, List.mem_cons_self _ _, hv, hk.symm⟩
      · rintro ⟨d, hd, h1, h2⟩
        rcases List.mem_cons.1 hd with hd | hd
        · subst hd
          simp [h1]
        · have := ih.2 ⟨d, hd, h1, h2⟩
          simp [this]
    · rw [if_neg hk]
      rw [ih]
      constructor
      · rintro ⟨d, hd, h1, h2⟩
        exact ⟨d, List.mem_cons_of_mem _ hd, h1, h2⟩
      · rintro ⟨d, hd, h1, h2⟩
        rcases List.mem_cons.1 hd with hd | hd
        · subst hd
          exact absurd h2.symm hk
        · exact ⟨d, hd, h1, h2⟩

/-- In a response with pairwise distinct pairs of slot and committee index, the
validators listed under the key of a committee are those of the committee. -/
theorem committeeValidators_of_distinct (cs : List Committee)
    (hdistinct : cs.Pairwise (fun c d => ¬ (c.Slot = d.Slot ∧ c.Index = d.Index))) :
    ∀ c ∈ cs, committeeValidators (attKey c.Slot c.Index) cs = c.Validators := by
  induction cs with
  | nil => intro c hc; simp at hc
  | cons d t ih =>
    rw [List.pairwise_cons] at hdistinct
    intro c hc
    unfold committeeValidators
    rcases List.mem_cons.1 hc with hc | hc
    · subst hc
      rw [if_pos rfl]
      have hnil : committeeValidators (attKey c.Slot c.Index) t = [] := by
        by_contra hne
        obtain ⟨e, he, _, hk⟩ := (committeeValidators_ne_nil _ _).1 hne
        exact hdistinct.1 e he (attKey_injective _ _ _ _ hk)
      rw [hnil, List.append_nil]
    · have hne : ¬ attKey d.Slot d.Index = attKey c.Slot c.Index := by
        intro hk
        exact hdistinct.1 c hc (attKey_injective _ _ _ _ hk)
      rw [if_neg hne]
      exact ih hdistinct.2 c hc

/-- The committee duties step on a record without attester assignments: it makes the call
with the dependent state reference and the epoch of the record, and builds the map from
the response when the call succeeds. -/
theorem committeeStep_unset (client : IndexerClient) (epochStats : EpochStats)
    (hunset : epochStats.attestorAssignments = none) :
    (committeeStep client epochStats).calls =
      [.committeeDuties epochStats.dependentStateRef epochStats.Epoch] ∧
    (∀ cs, client.GetCommitteeDuties epochStats.dependentStateRef epochStats.Epoch = .ok cs →
      (committeeStep client epochStats).epochStats.attestorAssignments =
        some (committeesToAssignments cs) ∧
      (committeeStep client epochStats).error = none) ∧
    (∀ err, client.GetCommitteeDuties epochStats.dependentStateRef epochStats.Epoch =
        .error err →
      (committeeStep client epochStats).epochStats = epochStats ∧
      (committeeStep client epochStats).error ≠ none) := by
  unfold committeeStep
  rw [if_pos hunset]
  cases client.GetCommitteeDuties epochStats.dependentStateRef epochStats.Epoch with
  | error err => simp
  | ok cs => simp

/-- The committee duties call among the steps after the proposer duties. A committee
duties call in the log was made on a record without attester assignments, with the
dependent state reference the record has afterwards and with its epoch, and when the
beacon node answers that call with committees the record holds the map built from them,
whether the sync committee step fails or not. When no step fails on a record without
attester assignments the call is in the log and was answered with committees. -/
theorem loadAfterProposer_committees (env : Env) (client : IndexerClient) (ptr : Nat)
    (st : EpochStats) :
    (∀ ref e, RpcCall.committeeDuties ref e ∈ (loadAfterProposer env client ptr st).calls →
      ref = (loadAfterProposer env client ptr st).epochStats.dependentStateRef ∧
      e = st.Epoch ∧ st.attestorAssignments = none ∧
      ∀ cs, client.GetCommitteeDuties
          (loadAfterProposer env client ptr st).epochStats.dependentStateRef st.Epoch =
          .ok cs →
        (loadAfterProposer env client ptr st).epochStats.attestorAssignments =
          some (committeesToAssignments cs)) ∧
    (st.attestorAssignments = none → (loadAfterProposer env client ptr st).error = none →
      RpcCall.committeeDuties
        (loadAfterProposer env client ptr st).epochStats.dependentStateRef st.Epoch ∈
        (loadAfterProposer env client ptr st).calls ∧
      ∃ cs, client.GetCommitteeDuties
        (loadAfterProposer env client ptr st).epochStats.dependentStateRef st.Epoch =
        .ok cs) := by
  obtain ⟨⟨r1, e1⟩, c1, _, _⟩ := stateRefStep_frame client st
  obtain ⟨_, c2, n2, _⟩ := committeeStep_frame client (stateRefStep client st).epochStats
  obtain ⟨⟨l3, e3⟩, c3, _⟩ := syncStep_frame env client
    (committeeStep client (stateRefStep client st).epochStats).epochStats
  obtain ⟨_, _, _, _, _, hdsr, _⟩ := loadAfterProposer_frame env client ptr st
  have hv := validatorStatsCalls_kind ptr (stateRefStep client st).epochStats
  have a1 : (stateRefStep client st).epochStats.attestorAssignments =
      st.attestorAssignments := by rw [e1]
  have p1 : (stateRefStep client st).epochStats.Epoch = st.Epoch := by rw [e1]
  have a3 : (syncStep env client
      (committeeStep client (stateRefStep client st).epochStats).epochStats).epochStats.attestorAssignments
      = (committeeStep client (stateRefStep client st).epochStats).epochStats.attestorAssignments := by
    rw [e3]
  obtain ⟨q1, q2, q3, q4⟩ := loadAfterProposer_eq env client ptr st
  -- what a call of the committee step tells
  have key : ∀ ref e, RpcCall.committeeDuties ref e ∈
      (committeeStep client (stateRefStep client st).epochStats).calls →
      ref = (stateRefStep client st).epochStats.dependentStateRef ∧ e = st.Epoch ∧
      st.attestorAssignments = none ∧
      ∀ cs, client.GetCommitteeDuties (stateRefStep client st).epochStats.dependentStateRef
          st.Epoch = .ok cs →
        (committeeStep client (stateRefStep client st).epochStats).epochStats.attestorAssignments
          = some (committeesToAssignments cs) := by
    intro ref e hc
    have hnone : st.attestorAssignments = none := by
      by_contra hne
      rw [n2 (by rw [a1]; exact hne)] at hc
      simp at hc
    have heq := c2 _ hc
    simp only [RpcCall.committeeDuties.injEq] at heq
    refine ⟨heq.1, by rw [heq.2, p1], hnone, ?_⟩
    intro cs hcs
    rw [← p1] at hcs
    exact ((committeeStep_unset client _ (by rw [a1]; exact hnone)).2.1 cs hcs).1
  have pick : ∀ ref e, (RpcCall.committeeDuties ref e ∈ (stateRefStep client st).calls ∨
        RpcCall.committeeDuties ref e ∈
          validatorStatsCalls ptr (stateRefStep client st).epochStats) ∨
      RpcCall.committeeDuties ref e ∈
        (committeeStep client (stateRefStep client st).epochStats).calls →
      RpcCall.committeeDuties ref e ∈
        (committeeStep client (stateRefStep client st).epochStats).calls := by
    intro ref e h
    rcases h with (h | h) | h
    · have := c1 _ h
      simp at this
    · have := hv _ h
      simp at this
    · exact h
  refine ⟨?_, ?_⟩
  · intro ref e hc
    rw [hdsr]
    by_cases x1 : (stateRefStep client st).error = none
    · by_cases x2 : (committeeStep client (stateRefStep client st).epochStats).error = none
      · by_cases x3 : (syncStep env client
            (committeeStep client (stateRefStep client st).epochStats).epochStats).error = none
        · rw [q4 x1 x2 x3] at hc ⊢
          simp only [List.mem_append] at hc
          rcases hc with hc | hc
          · obtain ⟨k1, k2, k3, k4⟩ := key ref e (pick ref e hc)
            exact ⟨k1, k2, k3, fun cs hcs => by rw [← k4 cs hcs]; exact a3⟩
          · have := (c3 _ hc).1
            simp at this
        · rw [q3 x1 x2 x3] at hc ⊢
          simp only [List.mem_append] at hc
          rcases hc with hc | hc
          · obtain ⟨k1, k2, k3, k4⟩ := key ref e (pick ref e hc)
            exact ⟨k1, k2, k3, fun cs hcs => by rw [← k4 cs hcs]; exact a3⟩
          · have := (c3 _ hc).1
            simp at this
      · rw [q2 x1 x2] at hc ⊢
        simp only [List.mem_append] at hc
        exact key ref e (pick ref e hc)
    · rw [q1 x1] at hc
      have := c1 _ hc
      simp at this
  · intro hunset hok
    rw [hdsr]
    have hs1 : (stateRefStep client st).epochStats.attestorAssignments = none := by
      rw [a1]; exact hunset
    obtain ⟨u1, u2, u3⟩ := committeeStep_unset client _ hs1
    by_cases x1 : (stateRefStep client st).error = none
    · by_cases x2 : (committeeStep client (stateRefStep client st).epochStats).error = none
      · have hcall : RpcCall.committeeDuties (stateRefStep client st).epochStats.dependentStateRef
            st.Epoch ∈ (committeeStep client (stateRefStep client st).epochStats).calls := by
          rw [u1, p1]
          exact List.mem_singleton.2 rfl
        have hrsp : ∃ cs, client.GetCommitteeDuties
            (stateRefStep client st).epochStats.dependentStateRef st.Epoch = .ok cs := by
          rw [← p1]
          cases hr : client.GetCommitteeDuties
              (stateRefStep client st).epochStats.dependentStateRef
              (stateRefStep client st).epochStats.Epoch with
          | error err => exact absurd x2 (u3 err hr).2
          | ok cs => exact ⟨cs, rfl⟩
        refine ⟨?_, hrsp⟩
        by_cases x3 : (syncStep env client
            (committeeStep client (stateRefStep client st).epochStats).epochStats).error = none
        · rw [q4 x1 x2 x3]
          simp only [List.mem_append]
          exact Or.inl (Or.inr hcall)
        · rw [q3 x1 x2 x3] at hok
          exact absurd hok x3
      · rw [q2 x1 x2] at hok
        exact absurd hok x2
    · rw [q1 x1] at hok
      exact absurd hok x1

/-! ## The keys of the validator names -/

/-- The decimal digit characters are digits. -/
theorem digitChar_isDigit (k : Nat) (hk : k < 10) : (Nat.digitChar k).isDigit = true := by
  interval_cases k <;> rfl

theorem toDigitsCore_isDigit (fuel n : Nat) (ds : List Char)
    (h : ∀ c ∈ ds, c.isDigit = true) :
    ∀ c ∈ Nat.toDigitsCore 10 fuel n ds, c.isDigit = true := by
  induction fuel generalizing n ds with
  | zero => simpa [Nat.toDigitsCore] using h
  | succ fuel ih =>
    unfold Nat.toDigitsCore
    simp only []
    have hd : ∀ c ∈ Nat.digitChar (n % 10) :: ds, c.isDigit = true := by
      intro c hc
      rcases List.mem_cons.1 hc with hc | hc
      · rw [hc]; exact digitChar_isDigit _ (Nat.mod_lt _ (by decide))
      · exact h c hc
    by_cases h0 : n / 10 = 0
    · rw [if_pos h0]; exact hd
    · rw [if_neg h0]; exact ih _ _ hd

theorem toDigitsCore_ne_nil (fuel n : Nat) (ds : List Char) (h : ds ≠ [] ∨ 0 < fuel) :
    Nat.toDigitsCore 10 fuel n ds ≠ [] := by
  induction fuel generalizing n ds with
  | zero =>
    rcases h with h | h
    · simpa [Nat.toDigitsCore] using h
    · omega
  | succ fuel ih =>
    unfold Nat.toDigitsCore
    simp only []
    by_cases h0 : n / 10 = 0
    · rw [if_pos h0]; simp
    · rw [if_neg h0]; exact ih _ _ (Or.inl (by simp))

theorem toDigits_isDigit (n : Nat) : ∀ c ∈ Nat.toDigits 10 n, c.isDigit = true :=
  toDigitsCore_isDigit _ _ _ (by simp)

/-- `strconv.ParseUint` reads the decimal rendering of a 64 bit number back. -/
theorem parseUint_toDigits (n : Nat) (hn : n < u64) : parseUint (Nat.toDigits 10 n) = some n := by
  have hne : Nat.toDigits 10 n ≠ [] := toDigitsCore_ne_nil _ _ _ (Or.inr (by omega))
  have hall : (Nat.toDigits 10 n).all Char.isDigit = true :=
    List.all_eq_true.2 (toDigits_isDigit n)
  have hval : digitsValue (Nat.toDigits 10 n) = n := by
    unfold digitsValue Nat.toDigits
    rw [toDigitsCore_value _ _ _ (by omega)]
    rfl
  unfold parseUint
  rw [if_neg hne, if_pos hall, hval, if_pos hn]

/-- Splitting a string without the separator gives the string itself. -/
theorem splitChars_of_not_mem (sep : Char) (l : List Char) (h : sep ∉ l) :
    splitChars sep l = [l] := by
  induction l with
  | nil => rfl
  | cons c t ih =>
    have hc : ¬ c = sep := fun e => h (e ▸ List.mem_cons_self _ _)
    have ht : sep ∉ t := fun e => h (List.mem_cons_of_mem _ e)
    simp [splitChars, hc, ih ht]

theorem splitChars_append (sep : Char) (l1 l2 : List Char) (h : sep ∉ l1) :
    splitChars sep (l1 ++ sep :: l2) = l1 :: splitChars sep l2 := by
  induction l1 with
  | nil => simp [splitChars]
  | cons c t ih =>
    have hc : ¬ c = sep := fun e => h (e ▸ List.mem_cons_self _ _)
    have ht : sep ∉ t := fun e => h (List.mem_cons_of_mem _ e)
    simp [splitChars, hc, ih ht]

theorem toDigits_not_mem (n : Nat) (c : Char) (hc : c.isDigit = false) :
    c ∉ Nat.toDigits 10 n := by
  intro hm
  rw [toDigits_isDigit n c hm] at hc
  exact absurd hc (by decide)

/-- The increment of an `int` below the largest `int`. -/
theorem incInt_of_lt (z : Int) (h0 : 0 ≤ z) (h : z + 1 < 2 ^ 63) : incInt z = z + 1 := by
  unfold incInt
  rw [Int.emod_eq_of_lt (by omega) (by omega)]
  omega

/-- The loop over the indices of a range. -/
theorem foldl_names (name : String) (l : List Nat) :
    ∀ (vn : ValidatorNames) (count : Nat), count + l.length < 2 ^ 63 →
      l.foldl (fun (state : ValidatorNames × Int) idx =>
        ({ state.1 with namesByIndex := state.1.namesByIndex.set idx name }, incInt state.2))
        (vn, (count : Int)) =
      ({ vn with
          namesByIndex := l.foldl (fun m idx => GoMap.set m idx name) vn.namesByIndex },
        ((count + l.length : Nat) : Int)) := by
  induction l with
  | nil => intro vn count _; simp
  | cons a t ih =>
    intro vn count h
    simp only [List.length_cons] at h
    rw [List.foldl_cons, List.foldl_cons]
    simp only []
    rw [incInt_of_lt _ (by omega) (by omega)]
    have := ih { vn with namesByIndex := vn.namesByIndex.set a name } (count + 1) (by omega)
    simp only [Nat.cast_add, Nat.cast_one] at this
    rw [this]
    simp only [List.length_cons, Nat.cast_add, Nat.cast_one]
    congr 1
    omega

/-- A key that is a single decimal index `n` names the validators `n` and `n + 1` and adds
2 to the count: `maxIdx` starts as `minIdx + 1` and the loop includes `maxIdx`. -/
theorem parseNamesEntry_single (HexToAddress : String → List Nat) (fuel : Nat)
    (vn : ValidatorNames) (count : Nat) (name : String) (n : Nat)
    (hn : n + 2 < u64) (hcount : count + 2 < 2 ^ 63) (hfuel : 2 < fuel) :
    parseNamesEntry HexToAddress fuel (vn, (count : Int)) (toString n) name =
      some ({ vn with namesByIndex := (vn.namesByIndex.set n name).set (n + 1) name },
        ((count + 2 : Nat) : Int)) := by
  have hdata : (toString n).data = Nat.toDigits 10 n := by
    simp [toString, Nat.repr, List.asString]
  unfold parseNamesEntry
  simp only [hdata]
  rw [splitChars_of_not_mem ':' _ (toDigits_not_mem n ':' (by decide)),
    splitChars_of_not_mem '-' _ (toDigits_not_mem n '-' (by decide))]
  simp only [List.length_singleton, gt_iff_lt, lt_irrefl, if_false, List.getD_cons_zero,
    parseUint_toDigits n (by omega)]
  rw [Nat.mod_eq_of_lt (by omega), slotLoop_total _ _ (by omega) _ _ _ (by omega)]
  have hr : n + 1 + 1 - n = 2 := by omega
  rw [hr, foldl_names name _ vn count (by simpa using hcount)]
  simp [List.range']

/-- A range key `a-b` with `a <= b < 2 ^ 64 - 1` names exactly the validators `a, ..., b`
and adds `b - a + 1` to the count. -/
theorem parseNamesEntry_range (HexToAddress : String → List Nat) (fuel : Nat)
    (vn : ValidatorNames) (count : Nat) (name : String) (a b : Nat)
    (hab : a ≤ b) (hb : b + 1 < u64) (hcount : count + (b - a + 1) < 2 ^ 63)
    (hfuel : b + 1 - a < fuel) :
    parseNamesEntry HexToAddress fuel (vn, (count : Int)) (attKey a b) name =
      some ({ vn with
              namesByIndex := (List.range' a (b - a + 1)).foldl
                (fun m idx => GoMap.set m idx name) vn.namesByIndex },
        ((count + (b - a + 1) : Nat) : Int)) := by
  unfold parseNamesEntry
  simp only [attKey_data]
  have hcolon : ':' ∉ Nat.toDigits 10 a ++ '-' :: Nat.toDigits 10 b := by
    intro hm
    rcases List.mem_append.1 hm with hm | hm
    · exact toDigits_not_mem a ':' (by decide) hm
    · rcases List.mem_cons.1 hm with hm | hm
      · exact absurd hm (by decide)
      · exact toDigits_not_mem b ':' (by decide) hm
  rw [splitChars_of_not_mem ':' _ hcolon,
    splitChars_append '-' _ _ (toDigits_not_mem a '-' (by decide)),
    splitChars_of_not_mem '-' _ (toDigits_not_mem b '-' (by decide))]
  simp only [List.length_singleton, gt_iff_lt, lt_irrefl, if_false, List.getD_cons_zero,
    List.length_cons, List.length_nil, List.getD_cons_succ,
    parseUint_toDigits a (by omega), parseUint_toDigits b (by omega)]
  simp only [Nat.zero_add, Nat.reduceAdd, Nat.lt_add_one, Nat.one_lt_ofNat, if_true]
  rw [slotLoop_total _ _ hb _ _ _ hfuel]
  have hr : b + 1 - a = b - a + 1 := by omega
  rw [hr, foldl_names name _ vn count (by simpa using hcount)]
  simp
/-! ## The counted votes of the scan -/

/-- The counted votes of the scan are the candidates with no earlier candidate of the
same validator. -/
theorem mem_firstVotes_scanEvents (env : Env) (blockMap : Nat → Option CacheBlock)
    (epoch : Nat) (epochStats : EpochStats) (targetRoot : Bytes) (currentOnly : Bool)
    (e : VoteEvent) :
    e ∈ firstVotes [] (scanEvents env blockMap epoch epochStats targetRoot currentOnly) ↔
      IsCandidate env blockMap epoch epochStats targetRoot currentOnly e ∧
      ∀ c, IsCandidate env blockMap epoch epochStats targetRoot currentOnly c →
        c.validator = e.validator → ¬ scanBefore c e := by
  rw [mem_firstVotes _ _ _ (scanEvents_sorted _ _ _ _ _ _), mem_scanEvents]
  constructor
  · rintro ⟨h1, _, h3⟩
    exact ⟨h1, fun c hc hv => h3 c ((mem_scanEvents _ _ _ _ _ _ _).2 hc) hv⟩
  · rintro ⟨h1, h3⟩
    exact ⟨h1, by simp, fun c hc hv => h3 c ((mem_scanEvents _ _ _ _ _ _ _).1 hc) hv⟩

/-- The validators of the counted votes are the validators with a candidate vote. -/
theorem counted_validator_iff (env : Env) (blockMap : Nat → Option CacheBlock)
    (epoch : Nat) (epochStats : EpochStats) (targetRoot : Bytes) (currentOnly : Bool)
    (x : Nat) :
    x ∈ (firstVotes [] (scanEvents env blockMap epoch epochStats targetRoot
        currentOnly)).map VoteEvent.validator ↔
      ∃ c, IsCandidate env blockMap epoch epochStats targetRoot currentOnly c ∧
        c.validator = x := by
  constructor
  · intro hx
    rw [List.mem_map] at hx
    obtain ⟨e, he, hv⟩ := hx
    exact ⟨e, (mem_scanEvents _ _ _ _ _ _ _).1 ((firstVotes_sublist _ _).subset he), hv⟩
  · rintro ⟨c, hc, hv⟩
    rcases firstVotes_covers _ [] c ((mem_scanEvents _ _ _ _ _ _ _).2 hc) with h | h
    · simp at h
    · rw [← hv]
      exact h

/-- Without overflow the scanned slots are the slots of `epoch`, and of `epoch + 1` too
unless `currentOnly` is set. -/
theorem scanned_slot_iff (env : Env) (epoch : Nat) (currentOnly : Bool) (slot : Nat)
    (hpos : 0 < env.SlotsPerEpoch) (hno : (epoch + 2) * env.SlotsPerEpoch < u64) :
    (firstSlotOf env epoch ≤ slot ∧ slot ≤ lastSlotOf env epoch currentOnly) ↔
      (EpochOfSlot env slot = epoch ∨
        (currentOnly = false ∧ EpochOfSlot env slot = epoch + 1)) := by
  have hmul : (epoch + 2) * env.SlotsPerEpoch =
      epoch * env.SlotsPerEpoch + env.SlotsPerEpoch + env.SlotsPerEpoch := by ring
  have hfirst : firstSlotOf env epoch = epoch * env.SlotsPerEpoch :=
    Nat.mod_eq_of_lt (by omega)
  have hcur : lastSlotOf env epoch true = epoch * env.SlotsPerEpoch + env.SlotsPerEpoch - 1 := by
    unfold lastSlotOf
    simp only [if_true]
    rw [hfirst]
    have heq : epoch * env.SlotsPerEpoch + env.SlotsPerEpoch + (u64 - 1) =
        (epoch * env.SlotsPerEpoch + env.SlotsPerEpoch - 1) + u64 := by
      have := u64_pos; omega
    rw [heq, Nat.add_mod_right]
    exact Nat.mod_eq_of_lt (by omega)
  have hboth : lastSlotOf env epoch false =
      epoch * env.SlotsPerEpoch + env.SlotsPerEpoch + env.SlotsPerEpoch - 1 := by
    have h2 : lastSlotOf env epoch false =
        (lastSlotOf env epoch true + env.SlotsPerEpoch) % u64 := by
      simp [lastSlotOf]
    rw [h2, hcur, Nat.mod_eq_of_lt (by omega)]
    omega
  have hdiv : ∀ k, EpochOfSlot env slot = k ↔
      k * env.SlotsPerEpoch ≤ slot ∧ slot < (k + 1) * env.SlotsPerEpoch := by
    intro k
    unfold EpochOfSlot
    rw [← Nat.le_div_iff_mul_le hpos, ← Nat.div_lt_iff_lt_mul hpos]
    omega
  have hnext : (epoch + 1 + 1) * env.SlotsPerEpoch =
      epoch * env.SlotsPerEpoch + env.SlotsPerEpoch + env.SlotsPerEpoch := by ring
  have hone : (epoch + 1) * env.SlotsPerEpoch =
      epoch * env.SlotsPerEpoch + env.SlotsPerEpoch := by ring
  rw [hdiv epoch, hdiv (epoch + 1), hfirst, hnext, hone]
  cases currentOnly
  · rw [hboth]
    simp only [true_and]
    omega
  · rw [hcur]
    simp only [Bool.true_eq_false, false_and, or_false]
    omega

/-- When every validator weighs 1, a weight sum is the number of votes summed. -/
theorem weightSum_count (epochStats : EpochStats) (p : VoteEvent → Bool)
    (log : List VoteEvent) (hw : ∀ validatorIdx, voteWeight epochStats validatorIdx = 1) :
    weightSum epochStats p log = (log.filter p).length := by
  unfold weightSum
  generalize log.filter p = l
  induction l with
  | nil => rfl
  | cons a rest ih => simp [hw a.validator, ih, Nat.add_comm]

/-! ## Claims on `aggregateEpochVotes` -/

/-- C1: no double counting. When `aggregateEpochVotes` returns (its last slot is not the
largest `uint64`; enough fuel), there is a list `log` of counted votes such that the
result is the tally of `log`, no validator occurs twice in `log`, a vote is in `log`
exactly when it is a candidate of the scan with no candidate of the same validator
earlier in scan order, and `ActivityMap` holds exactly the validators of `log`. -/
theorem aggregateEpochVotes_no_double_counting (env : Env) (fuel : Nat)
    (blockMap : Nat → Option CacheBlock) (epoch : Nat) (epochStats : EpochStats)
    (targetRoot : Bytes) (currentOnly await : Bool)
    (hlast : lastSlotOf env epoch currentOnly + 1 < u64)
    (hfuel : lastSlotOf env epoch currentOnly + 1 - firstSlotOf env epoch < fuel) :
    ∃ (votes : EpochVotes) (log : List VoteEvent),
      aggregateEpochVotes env fuel blockMap epoch epochStats targetRoot currentOnly await =
        some votes ∧
      votes = tallyOf epochStats log ∧
      (log.map VoteEvent.validator).Nodup ∧
      (∀ e, e ∈ log ↔
        IsCandidate env blockMap epoch epochStats targetRoot currentOnly e ∧
        ∀ c, IsCandidate env blockMap epoch epochStats targetRoot currentOnly c →
          c.validator = e.validator → ¬ scanBefore c e) ∧
      votes.ActivityMap.keys = log.map VoteEvent.validator ∧
      (∀ x, votes.ActivityMap.get x false = true ↔ x ∈ log.map VoteEvent.validator) := by
  refine ⟨_, firstVotes [] (scanEvents env blockMap epoch epochStats targetRoot currentOnly),
    aggregateEpochVotes_total env fuel blockMap epoch epochStats targetRoot currentOnly await
      hlast hfuel, rfl, firstVotes_nodup _ _, ?_, ?_, ?_⟩
  · intro e
    rw [mem_firstVotes _ _ _ (scanEvents_sorted _ _ _ _ _ _), mem_scanEvents]
    constructor
    · rintro ⟨h1, _, h3⟩
      exact ⟨h1, fun c hc hv => h3 c ((mem_scanEvents _ _ _ _ _ _ _).2 hc) hv⟩
    · rintro ⟨h1, h3⟩
      exact ⟨h1, by simp, fun c hc hv => h3 c ((mem_scanEvents _ _ _ _ _ _ _).1 hc) hv⟩
  · simp [tallyOf, GoMap.keys, Function.comp_def]
  · intro x
    have hmap : ∀ l : List VoteEvent, (l.map (fun e => (e.validator, true)) : GoMap Nat Bool) =
        (l.map VoteEvent.validator).map (fun x => (x, true)) := by
      intro l; simp [List.map_map, Function.comp_def]
    simp only [tallyOf, hmap, GoMap.get_trueMap, decide_eq_true_eq]

/-- Witness of C1 on the example chain with the block at slot 6 added: validator 10 is a
candidate at slots 6 and 9 and is counted once. -/
theorem aggregateEpochVotes_no_double_counting_witness :
    (lastSlotOf exampleEnv 1 false + 1 < u64 ∧
      lastSlotOf exampleEnv 1 false + 1 - firstSlotOf exampleEnv 1 < 9) ∧
    ∃ (votes : EpochVotes) (log : List VoteEvent),
      aggregateEpochVotes exampleEnv 9 (extendMap exampleMap 6 exampleNewBlock) 1 exampleStats
        (some [1]) false false = some votes ∧
      votes = tallyOf exampleStats log ∧
      (log.map VoteEvent.validator).Nodup ∧
      (∀ e, e ∈ log ↔
        IsCandidate exampleEnv (extendMap exampleMap 6 exampleNewBlock) 1 exampleStats
          (some [1]) false e ∧
        ∀ c, IsCandidate exampleEnv (extendMap exampleMap 6 exampleNewBlock) 1 exampleStats
            (some [1]) false c →
          c.validator = e.validator → ¬ scanBefore c e) ∧
      votes.ActivityMap.keys = log.map VoteEvent.validator ∧
      (∀ x, votes.ActivityMap.get x false = true ↔ x ∈ log.map VoteEvent.validator) :=
  ⟨⟨by decide, by decide⟩,
    aggregateEpochVotes_no_double_counting exampleEnv 9 (extendMap exampleMap 6 exampleNewBlock)
      1 exampleStats (some [1]) false false (by decide) (by decide)⟩

/-- C2 (as stated, refuted): on the example chain slot 6 is empty, and adding the block
at slot 6, in which validator 10 votes for another target, lowers the three `nextEpoch`
amounts from 2 to 1. -/
theorem aggregateEpochVotes_not_monotone :
    exampleMap 6 = none ∧
    aggregateEpochVotes exampleEnv 9 exampleMap 1 exampleStats (some [1]) false false =
      some { currentEpoch := ⟨0, 0, 0⟩, nextEpoch := ⟨2, 2, 2⟩, VoteCounts := true
             ActivityMap := [(10, true), (11, true)] } ∧
    aggregateEpochVotes exampleEnv 9 (extendMap exampleMap 6 exampleNewBlock) 1 exampleStats
        (some [1]) false false =
      some { currentEpoch := ⟨0, 1, 1⟩, nextEpoch := ⟨1, 1, 1⟩, VoteCounts := true
             ActivityMap := [(10, true), (11, true)] } ∧
    ¬ (∀ (blockMap : Nat → Option CacheBlock) (slot : Nat) (block : CacheBlock)
        (votes votes' : EpochVotes), blockMap slot = none →
        aggregateEpochVotes exampleEnv 9 blockMap 1 exampleStats (some [1]) false false =
          some votes →
        aggregateEpochVotes exampleEnv 9 (extendMap blockMap slot block) 1 exampleStats
          (some [1]) false false = some votes' →
        votes.nextEpoch.targetVoteAmount ≤ votes'.nextEpoch.targetVoteAmount) := by
  refine ⟨by decide, by decide, by decide, ?_⟩
  intro h
  have := h exampleMap 6 exampleNewBlock
    { currentEpoch := ⟨0, 0, 0⟩, nextEpoch := ⟨2, 2, 2⟩, VoteCounts := true
      ActivityMap := [(10, true), (11, true)] }
    { currentEpoch := ⟨0, 1, 1⟩, nextEpoch := ⟨1, 1, 1⟩, VoteCounts := true
      ActivityMap := [(10, true), (11, true)] }
    (by decide) (by decide) (by decide)
  exact absurd this (by decide)

/-- C2 (amended): adding a block at an empty slot never removes a validator from
`ActivityMap`; and, when the weights of the validators counted on the extended map sum
to less than `2 ^ 64`, it lowers neither `currentEpoch.totalVoteAmount` nor the sum of
the two `totalVoteAmount`s. -/
theorem aggregateEpochVotes_total_monotone (env : Env) (fuel : Nat)
    (blockMap : Nat → Option CacheBlock) (slot : Nat) (block : CacheBlock) (epoch : Nat)
    (epochStats : EpochStats) (targetRoot : Bytes) (currentOnly await : Bool)
    (hlast : lastSlotOf env epoch currentOnly + 1 < u64)
    (hfuel : lastSlotOf env epoch currentOnly + 1 - firstSlotOf env epoch < fuel)
    (hslot : blockMap slot = none) :
    ∃ votes votes' : EpochVotes,
      aggregateEpochVotes env fuel blockMap epoch epochStats targetRoot currentOnly await =
        some votes ∧
      aggregateEpochVotes env fuel (extendMap blockMap slot block) epoch epochStats targetRoot
        currentOnly await = some votes' ∧
      (∀ x, x ∈ votes.ActivityMap.keys → x ∈ votes'.ActivityMap.keys) ∧
      (((votes'.ActivityMap.keys).map (voteWeight epochStats)).sum < u64 →
        votes.currentEpoch.totalVoteAmount ≤ votes'.currentEpoch.totalVoteAmount ∧
        votes.currentEpoch.totalVoteAmount + votes.nextEpoch.totalVoteAmount ≤
          votes'.currentEpoch.totalVoteAmount + votes'.nextEpoch.totalVoteAmount) := by
  have hM := aggregateEpochVotes_total env fuel blockMap epoch epochStats targetRoot
    currentOnly await hlast hfuel
  have hM' := aggregateEpochVotes_total env fuel (extendMap blockMap slot block) epoch
    epochStats targetRoot currentOnly await hlast hfuel
  refine ⟨_, _, hM, hM', ?_, ?_⟩
  · intro x hx
    simp only [tallyOf, GoMap.keys, List.map_map, Function.comp_def, List.mem_map] at hx ⊢
    obtain ⟨e, he, rfl⟩ := hx
    obtain ⟨e', he', hv, _, _⟩ := firstVotes_extendMap env blockMap epoch epochStats
      targetRoot currentOnly slot block hslot e he
    exact ⟨e', he', hv⟩
  · intro hs
    have hall : weightSum epochStats (fun _ => true) (firstVotes []
        (scanEvents env (extendMap blockMap slot block) epoch epochStats targetRoot
          currentOnly)) < u64 := by
      rw [weightSum_all]
      simpa [tallyOf, GoMap.keys, List.map_map, Function.comp_def] using hs
    have hsplit' := weightSum_split epochStats (firstVotes []
        (scanEvents env (extendMap blockMap slot block) epoch epochStats targetRoot currentOnly))
    have hsplit := weightSum_split epochStats (firstVotes []
        (scanEvents env blockMap epoch epochStats targetRoot currentOnly))
    have hcur := weightSum_mono epochStats (fun e => !e.isNextEpoch)
      (firstVotes [] (scanEvents env blockMap epoch epochStats targetRoot currentOnly))
      (firstVotes [] (scanEvents env (extendMap blockMap slot block) epoch epochStats
        targetRoot currentOnly)) (firstVotes_nodup _ _)
      (by
        intro e he hp
        obtain ⟨e', he', hv, _, hn⟩ := firstVotes_extendMap env blockMap epoch epochStats
          targetRoot currentOnly slot block hslot e he
        refine ⟨e', he', hv, ?_⟩
        simp only [Bool.not_eq_true'] at hp ⊢
        exact hn hp)
    have htot := weightSum_mono epochStats (fun _ => true)
      (firstVotes [] (scanEvents env blockMap epoch epochStats targetRoot currentOnly))
      (firstVotes [] (scanEvents env (extendMap blockMap slot block) epoch epochStats
        targetRoot currentOnly)) (firstVotes_nodup _ _)
      (by
        intro e he _
        obtain ⟨e', he', hv, _, _⟩ := firstVotes_extendMap env blockMap epoch epochStats
          targetRoot currentOnly slot block hslot e he
        exact ⟨e', he', hv, rfl⟩)
    have hm1 := Nat.mod_le (weightSum epochStats (fun e => !e.isNextEpoch)
      (firstVotes [] (scanEvents env blockMap epoch epochStats targetRoot currentOnly))) u64
    have hm2 := Nat.mod_le (weightSum epochStats (fun e => e.isNextEpoch)
      (firstVotes [] (scanEvents env blockMap epoch epochStats targetRoot currentOnly))) u64
    have hc1 : weightSum epochStats (fun e => !e.isNextEpoch) (firstVotes []
        (scanEvents env (extendMap blockMap slot block) epoch epochStats targetRoot
          currentOnly)) < u64 := by omega
    have hc2 : weightSum epochStats (fun e => e.isNextEpoch) (firstVotes []
        (scanEvents env (extendMap blockMap slot block) epoch epochStats targetRoot
          currentOnly)) < u64 := by omega
    simp only [tallyOf, tallyAmounts, Nat.mod_eq_of_lt hc1, Nat.mod_eq_of_lt hc2]
    omega

/-- Witness of the amended C2 on the example chain: the block added at slot 6 raises
`currentEpoch.totalVoteAmount` from 0 to 1 and keeps the sum of the totals at 2. -/
theorem aggregateEpochVotes_total_monotone_witness :
    (lastSlotOf exampleEnv 1 false + 1 < u64 ∧
      lastSlotOf exampleEnv 1 false + 1 - firstSlotOf exampleEnv 1 < 9 ∧
      exampleMap 6 = none) ∧
    ∃ votes votes' : EpochVotes,
      aggregateEpochVotes exampleEnv 9 exampleMap 1 exampleStats (some [1]) false false =
        some votes ∧
      aggregateEpochVotes exampleEnv 9 (extendMap exampleMap 6 exampleNewBlock) 1 exampleStats
        (some [1]) false false = some votes' ∧
      (∀ x, x ∈ votes.ActivityMap.keys → x ∈ votes'.ActivityMap.keys) ∧
      (((votes'.ActivityMap.keys).map (voteWeight exampleStats)).sum < u64 →
        votes.currentEpoch.totalVoteAmount ≤ votes'.currentEpoch.totalVoteAmount ∧
        votes.currentEpoch.totalVoteAmount + votes.nextEpoch.totalVoteAmount ≤
          votes'.currentEpoch.totalVoteAmount + votes'.nextEpoch.totalVoteAmount) :=
  ⟨⟨by decide, by decide, by decide⟩,
    aggregateEpochVotes_total_monotone exampleEnv 9 exampleMap 6 exampleNewBlock 1 exampleStats
      (some [1]) false false (by decide) (by decide) (by decide)⟩

/-- C3: bucket attribution by inclusion epoch. When `aggregateEpochVotes` returns, the
counted votes `log` are exactly the candidates of the scan with no earlier candidate of
the same validator, one for each validator of `ActivityMap`; the `nextEpoch` amounts are
the weight sums of the votes counted in blocks of epoch `epoch + 1` and the `currentEpoch`
amounts those of the votes counted in blocks of epochs up to `epoch`, the target and head
amounts over the votes that pass the target and the head test. Without overflow the
scanned slots are those of `epoch`, and of `epoch + 1` unless `currentOnly` is set. With
`currentOnly = true` no counted vote is in a block of a later epoch, the three
`nextEpoch` amounts are 0, and the result is the same on every block map that differs
only at slots of later epochs. -/
theorem aggregateEpochVotes_bucket_by_inclusion_epoch (env : Env) (fuel : Nat)
    (blockMap : Nat → Option CacheBlock) (epoch : Nat) (epochStats : EpochStats)
    (targetRoot : Bytes) (currentOnly await : Bool)
    (hlast : lastSlotOf env epoch currentOnly + 1 < u64)
    (hfuel : lastSlotOf env epoch currentOnly + 1 - firstSlotOf env epoch < fuel) :
    ∃ (votes : EpochVotes) (log : List VoteEvent),
      aggregateEpochVotes env fuel blockMap epoch epochStats targetRoot currentOnly await =
        some votes ∧
      (log.map VoteEvent.validator).Nodup ∧
      (∀ e, e ∈ log ↔
        IsCandidate env blockMap epoch epochStats targetRoot currentOnly e ∧
        ∀ c, IsCandidate env blockMap epoch epochStats targetRoot currentOnly c →
          c.validator = e.validator → ¬ scanBefore c e) ∧
      votes.ActivityMap.keys = log.map VoteEvent.validator ∧
      (∀ e ∈ log, EpochOfSlot env e.slot ≤ epoch + 1) ∧
      votes.nextEpoch =
        tallyAmounts epochStats (fun e => decide (EpochOfSlot env e.slot = epoch + 1)) log ∧
      votes.currentEpoch =
        tallyAmounts epochStats (fun e => decide (EpochOfSlot env e.slot ≤ epoch)) log ∧
      (0 < env.SlotsPerEpoch → (epoch + 2) * env.SlotsPerEpoch < u64 →
        ∀ slot, (firstSlotOf env epoch ≤ slot ∧ slot ≤ lastSlotOf env epoch currentOnly) ↔
          (EpochOfSlot env slot = epoch ∨
            (currentOnly = false ∧ EpochOfSlot env slot = epoch + 1))) ∧
      (currentOnly = true →
        (∀ e ∈ log, EpochOfSlot env e.slot ≤ epoch) ∧
        votes.nextEpoch = ⟨0, 0, 0⟩ ∧
        ∀ blockMap' : Nat → Option CacheBlock,
          (∀ slot, EpochOfSlot env slot ≤ epoch → blockMap' slot = blockMap slot) →
          aggregateEpochVotes env fuel blockMap' epoch epochStats targetRoot currentOnly await =
            some votes) := by
  have hcand : ∀ e ∈ firstVotes []
      (scanEvents env blockMap epoch epochStats targetRoot currentOnly),
      IsCandidate env blockMap epoch epochStats targetRoot currentOnly e :=
    fun e he => (mem_scanEvents _ _ _ _ _ _ _).1 ((firstVotes_sublist _ _).subset he)
  have hnext : ∀ e ∈ firstVotes []
      (scanEvents env blockMap epoch epochStats targetRoot currentOnly),
      e.isNextEpoch = decide (EpochOfSlot env e.slot > epoch) := by
    intro e he
    obtain ⟨_, _, _, _, _, _, _, _, _, _, _, _, _, _, _, h, _, _⟩ := hcand e he
    exact h
  have hle : ∀ e ∈ firstVotes []
      (scanEvents env blockMap epoch epochStats targetRoot currentOnly),
      EpochOfSlot env e.slot ≤ epoch + (if currentOnly then 0 else 1) :=
    fun e he => scanned_epoch_le env epoch currentOnly e.slot (hcand e he).2.1
  have hle1 : ∀ e ∈ firstVotes []
      (scanEvents env blockMap epoch epochStats targetRoot currentOnly),
      EpochOfSlot env e.slot ≤ epoch + 1 := by
    intro e he
    have := hle e he
    cases currentOnly <;> simp at this <;> omega
  refine ⟨_, firstVotes [] (scanEvents env blockMap epoch epochStats targetRoot currentOnly),
    aggregateEpochVotes_total env fuel blockMap epoch epochStats targetRoot currentOnly await
      hlast hfuel, firstVotes_nodup _ _,
    mem_firstVotes_scanEvents env blockMap epoch epochStats targetRoot currentOnly, ?_,
    hle1, ?_, ?_,
    fun hpos hno slot => scanned_slot_iff env epoch currentOnly slot hpos hno, ?_⟩
  · simp [tallyOf, GoMap.keys, Function.comp_def]
  · simp only [tallyOf]
    apply tallyAmounts_congr
    intro e he
    rw [hnext e he]
    have := hle1 e he
    by_cases h : EpochOfSlot env e.slot = epoch + 1
    · simp [h]
    · have h' : ¬ EpochOfSlot env e.slot > epoch := by omega
      simp [h, h']
  · simp only [tallyOf]
    apply tallyAmounts_congr
    intro e he
    rw [hnext e he]
    by_cases h : EpochOfSlot env e.slot ≤ epoch
    · have h' : ¬ EpochOfSlot env e.slot > epoch := by omega
      simp [h, h']
    · have h' : EpochOfSlot env e.slot > epoch := by omega
      simp [h, h']
  · intro hco
    subst hco
    have hcur : ∀ e ∈ firstVotes []
        (scanEvents env blockMap epoch epochStats targetRoot true),
        EpochOfSlot env e.slot ≤ epoch := by
      intro e he
      simpa using hle e he
    refine ⟨hcur, ?_, ?_⟩
    · simp only [tallyOf]
      apply tallyAmounts_of_none
      intro e he
      rw [hnext e he]
      have := hcur e he
      simp only [gt_iff_lt, decide_eq_false_iff_not, not_lt]
      exact this
    · intro blockMap' hagree
      rw [aggregateEpochVotes_total env fuel blockMap' epoch epochStats targetRoot true await
        hlast hfuel]
      rw [scanEvents_congr env blockMap blockMap' epoch epochStats targetRoot true]
      intro slot _ h2
      apply hagree
      simpa using scanned_epoch_le env epoch true slot h2

/-- Witness of C3 on the example chain with the block at slot 6 added and the balances 32
and 31 of validators 10 and 11. Scanning epochs 1 and 2, validator 10 is counted in the
block at slot 6 (epoch 1) and validator 11 in the block at slot 9 (epoch 2): the amounts
are 0, 32, 32 in `currentEpoch` and 31, 31, 31 in `nextEpoch`. Scanning epoch 1 only, the
block at slot 9 is not scanned and the `nextEpoch` amounts are 0. -/
theorem aggregateEpochVotes_bucket_by_inclusion_epoch_witness :
    ((lastSlotOf exampleEnv 1 false + 1 < u64 ∧
        lastSlotOf exampleEnv 1 false + 1 - firstSlotOf exampleEnv 1 < 9) ∧
      (lastSlotOf exampleEnv 1 true + 1 < u64 ∧
        lastSlotOf exampleEnv 1 true + 1 - firstSlotOf exampleEnv 1 < 9)) ∧
    (aggregateEpochVotes exampleEnv 9 (extendMap exampleMap 6 exampleNewBlock) 1
        exampleStatsBalances (some [1]) false false =
      some { currentEpoch := ⟨0, 32, 32⟩, nextEpoch := ⟨31, 31, 31⟩, VoteCounts := false
             ActivityMap := [(10, true), (11, true)] } ∧
      aggregateEpochVotes exampleEnv 9 (extendMap exampleMap 6 exampleNewBlock) 1
        exampleStatsBalances (some [1]) true false =
      some { currentEpoch := ⟨0, 32, 32⟩, nextEpoch := ⟨0, 0, 0⟩, VoteCounts := false
             ActivityMap := [(10, true)] }) ∧
    (∃ (votes : EpochVotes) (log : List VoteEvent),
      aggregateEpochVotes exampleEnv 9 (extendMap exampleMap 6 exampleNewBlock) 1
        exampleStatsBalances (some [1]) false false = some votes ∧
      (log.map VoteEvent.validator).Nodup ∧
      (∀ e, e ∈ log ↔
        IsCandidate exampleEnv (extendMap exampleMap 6 exampleNewBlock) 1
          exampleStatsBalances (some [1]) false e ∧
        ∀ c, IsCandidate exampleEnv (extendMap exampleMap 6 exampleNewBlock) 1
            exampleStatsBalances (some [1]) false c →
          c.validator = e.validator → ¬ scanBefore c e) ∧
      votes.ActivityMap.keys = log.map VoteEvent.validator ∧
      (∀ e ∈ log, EpochOfSlot exampleEnv e.slot ≤ 1 + 1) ∧
      votes.nextEpoch =
        tallyAmounts exampleStatsBalances
          (fun e => decide (EpochOfSlot exampleEnv e.slot = 1 + 1)) log ∧
      votes.currentEpoch =
        tallyAmounts exampleStatsBalances
          (fun e => decide (EpochOfSlot exampleEnv e.slot ≤ 1)) log ∧
      (0 < exampleEnv.SlotsPerEpoch → (1 + 2) * exampleEnv.SlotsPerEpoch < u64 →
        ∀ slot, (firstSlotOf exampleEnv 1 ≤ slot ∧ slot ≤ lastSlotOf exampleEnv 1 false) ↔
          (EpochOfSlot exampleEnv slot = 1 ∨
            (false = false ∧ EpochOfSlot exampleEnv slot = 1 + 1))) ∧
      (false = true →
        (∀ e ∈ log, EpochOfSlot exampleEnv e.slot ≤ 1) ∧
        votes.nextEpoch = ⟨0, 0, 0⟩ ∧
        ∀ blockMap' : Nat → Option CacheBlock,
          (∀ slot, EpochOfSlot exampleEnv slot ≤ 1 →
            blockMap' slot = extendMap exampleMap 6 exampleNewBlock slot) →
          aggregateEpochVotes exampleEnv 9 blockMap' 1 exampleStatsBalances (some [1]) false
            false = some votes)) ∧
    (∃ (votes : EpochVotes) (log : List VoteEvent),
      aggregateEpochVotes exampleEnv 9 (extendMap exampleMap 6 exampleNewBlock) 1
        exampleStatsBalances (some [1]) true false = some votes ∧
      (log.map VoteEvent.validator).Nodup ∧
      (∀ e, e ∈ log ↔
        IsCandidate exampleEnv (extendMap exampleMap 6 exampleNewBlock) 1
          exampleStatsBalances (some [1]) true e ∧
        ∀ c, IsCandidate exampleEnv (extendMap exampleMap 6 exampleNewBlock) 1
            exampleStatsBalances (some [1]) true c →
          c.validator = e.validator → ¬ scanBefore c e) ∧
      votes.ActivityMap.keys = log.map VoteEvent.validator ∧
      (∀ e ∈ log, EpochOfSlot exampleEnv e.slot ≤ 1 + 1) ∧
      votes.nextEpoch =
        tallyAmounts exampleStatsBalances
          (fun e => decide (EpochOfSlot exampleEnv e.slot = 1 + 1)) log ∧
      votes.currentEpoch =
        tallyAmounts exampleStatsBalances
          (fun e => decide (EpochOfSlot exampleEnv e.slot ≤ 1)) log ∧
      (0 < exampleEnv.SlotsPerEpoch → (1 + 2) * exampleEnv.SlotsPerEpoch < u64 →
        ∀ slot, (firstSlotOf exampleEnv 1 ≤ slot ∧ slot ≤ lastSlotOf exampleEnv 1 true) ↔
          (EpochOfSlot exampleEnv slot = 1 ∨
            (true = false ∧ EpochOfSlot exampleEnv slot = 1 + 1))) ∧
      (true = true →
        (∀ e ∈ log, EpochOfSlot exampleEnv e.slot ≤ 1) ∧
        votes.nextEpoch = ⟨0, 0, 0⟩ ∧
        ∀ blockMap' : Nat → Option CacheBlock,
          (∀ slot, EpochOfSlot exampleEnv slot ≤ 1 →
            blockMap' slot = extendMap exampleMap 6 exampleNewBlock slot) →
          aggregateEpochVotes exampleEnv 9 blockMap' 1 exampleStatsBalances (some [1]) true
            false = some votes)) :=
  ⟨⟨⟨by decide, by decide⟩, ⟨by decide, by decide⟩⟩, ⟨by decide, by decide⟩,
    aggregateEpochVotes_bucket_by_inclusion_epoch exampleEnv 9
      (extendMap exampleMap 6 exampleNewBlock) 1 exampleStatsBalances (some [1]) false false
      (by decide) (by decide),
    aggregateEpochVotes_bucket_by_inclusion_epoch exampleEnv 9
      (extendMap exampleMap 6 exampleNewBlock) 1 exampleStatsBalances (some [1]) true false
      (by decide) (by decide)⟩

/-- C4: count mode. When `aggregateEpochVotes` returns, `VoteCounts` is true exactly when
the `EpochStats` has no validator stats. The counted votes `log` are exactly the
candidates of the scan with no earlier candidate of the same validator, and the keys of
`ActivityMap` are distinct and are exactly the validators with a candidate vote in the
scan (the unique validators voting). Without validator stats every validator weighs 1,
each `totalVoteAmount` is the number of votes counted in its bucket, and the two
`totalVoteAmount`s add up to the number of entries of `ActivityMap` (all modulo `2 ^ 64`,
and exactly for a map below `2 ^ 64` entries, as every Go map is). -/
theorem aggregateEpochVotes_count_mode (env : Env) (fuel : Nat)
    (blockMap : Nat → Option CacheBlock) (epoch : Nat) (epochStats : EpochStats)
    (targetRoot : Bytes) (currentOnly await : Bool)
    (hlast : lastSlotOf env epoch currentOnly + 1 < u64)
    (hfuel : lastSlotOf env epoch currentOnly + 1 - firstSlotOf env epoch < fuel) :
    ∃ (votes : EpochVotes) (log : List VoteEvent),
      aggregateEpochVotes env fuel blockMap epoch epochStats targetRoot currentOnly await =
        some votes ∧
      (votes.VoteCounts = true ↔ epochStats.validatorStats = none) ∧
      (log.map VoteEvent.validator).Nodup ∧
      (∀ e, e ∈ log ↔
        IsCandidate env blockMap epoch epochStats targetRoot currentOnly e ∧
        ∀ c, IsCandidate env blockMap epoch epochStats targetRoot currentOnly c →
          c.validator = e.validator → ¬ scanBefore c e) ∧
      votes.ActivityMap.keys = log.map VoteEvent.validator ∧
      (votes.ActivityMap.keys).Nodup ∧
      (∀ x, x ∈ votes.ActivityMap.keys ↔
        ∃ c, IsCandidate env blockMap epoch epochStats targetRoot currentOnly c ∧
          c.validator = x) ∧
      (epochStats.validatorStats = none →
        (∀ validatorIdx, voteWeight epochStats validatorIdx = 1) ∧
        votes.currentEpoch.totalVoteAmount =
          (log.filter (fun e => !e.isNextEpoch)).length % u64 ∧
        votes.nextEpoch.totalVoteAmount =
          (log.filter (fun e => e.isNextEpoch)).length % u64 ∧
        (votes.currentEpoch.totalVoteAmount + votes.nextEpoch.totalVoteAmount) % u64 =
          votes.ActivityMap.length % u64 ∧
        (votes.ActivityMap.length < u64 →
          votes.currentEpoch.totalVoteAmount + votes.nextEpoch.totalVoteAmount =
            votes.ActivityMap.length)) := by
  have hkeys : (tallyOf epochStats (firstVotes []
      (scanEvents env blockMap epoch epochStats targetRoot currentOnly))).ActivityMap.keys =
      (firstVotes [] (scanEvents env blockMap epoch epochStats targetRoot currentOnly)).map
        VoteEvent.validator := by
    simp [tallyOf, GoMap.keys, Function.comp_def]
  refine ⟨_, firstVotes [] (scanEvents env blockMap epoch epochStats targetRoot currentOnly),
    aggregateEpochVotes_total env fuel blockMap epoch epochStats targetRoot
      currentOnly await hlast hfuel, ?_, firstVotes_nodup _ _,
    mem_firstVotes_scanEvents env blockMap epoch epochStats targetRoot currentOnly, hkeys,
    tallyOf_keys_nodup _ _ _, ?_, ?_⟩
  · simp [tallyOf, Option.isNone_iff_eq_none]
  · intro x
    rw [hkeys]
    exact counted_validator_iff env blockMap epoch epochStats targetRoot currentOnly x
  · intro hnone
    have hw : ∀ validatorIdx, voteWeight epochStats validatorIdx = 1 := by
      intro validatorIdx; simp [voteWeight, hnone]
    have hlen : ∀ log : List VoteEvent,
        (((tallyOf epochStats log).ActivityMap.keys).map (voteWeight epochStats)).sum =
          (tallyOf epochStats log).ActivityMap.length := by
      intro log
      rw [sum_map_one _ _ hw]
      simp [GoMap.keys]
    refine ⟨hw, ?_, ?_, ?_, ?_⟩
    · simp only [tallyOf, tallyAmounts]
      rw [weightSum_count _ _ _ hw]
    · simp only [tallyOf, tallyAmounts]
      rw [weightSum_count _ _ _ hw]
    · rw [tallyOf_totals, hlen]
    · intro hlt
      rw [← hlen] at hlt ⊢
      exact tallyOf_totals_lt _ _ hlt

/-- Witness of C4 on the example chain without validator snapshot, with the block at
slot 6 added: validators 10 and 11 have candidate votes, validator 10 at slots 6 and 9;
each is counted once, one in either bucket, and the totals add up to 2. -/
theorem aggregateEpochVotes_count_mode_witness :
    (lastSlotOf exampleEnv 1 false + 1 < u64 ∧
      lastSlotOf exampleEnv 1 false + 1 - firstSlotOf exampleEnv 1 < 9) ∧
    aggregateEpochVotes exampleEnv 9 (extendMap exampleMap 6 exampleNewBlock) 1 exampleStats
        (some [1]) false false =
      some { currentEpoch := ⟨0, 1, 1⟩, nextEpoch := ⟨1, 1, 1⟩, VoteCounts := true
             ActivityMap := [(10, true), (11, true)] } ∧
    ∃ (votes : EpochVotes) (log : List VoteEvent),
      aggregateEpochVotes exampleEnv 9 (extendMap exampleMap 6 exampleNewBlock) 1 exampleStats
        (some [1]) false false = some votes ∧
      (votes.VoteCounts = true ↔ exampleStats.validatorStats = none) ∧
      (log.map VoteEvent.validator).Nodup ∧
      (∀ e, e ∈ log ↔
        IsCandidate exampleEnv (extendMap exampleMap 6 exampleNewBlock) 1 exampleStats
          (some [1]) false e ∧
        ∀ c, IsCandidate exampleEnv (extendMap exampleMap 6 exampleNewBlock) 1 exampleStats
            (some [1]) false c →
          c.validator = e.validator → ¬ scanBefore c e) ∧
      votes.ActivityMap.keys = log.map VoteEvent.validator ∧
      (votes.ActivityMap.keys).Nodup ∧
      (∀ x, x ∈ votes.ActivityMap.keys ↔
        ∃ c, IsCandidate exampleEnv (extendMap exampleMap 6 exampleNewBlock) 1 exampleStats
            (some [1]) false c ∧
          c.validator = x) ∧
      (exampleStats.validatorStats = none →
        (∀ validatorIdx, voteWeight exampleStats validatorIdx = 1) ∧
        votes.currentEpoch.totalVoteAmount =
          (log.filter (fun e => !e.isNextEpoch)).length % u64 ∧
        votes.nextEpoch.totalVoteAmount =
          (log.filter (fun e => e.isNextEpoch)).length % u64 ∧
        (votes.currentEpoch.totalVoteAmount + votes.nextEpoch.totalVoteAmount) % u64 =
          votes.ActivityMap.length % u64 ∧
        (votes.ActivityMap.length < u64 →
          votes.currentEpoch.totalVoteAmount + votes.nextEpoch.totalVoteAmount =
            votes.ActivityMap.length)) :=
  ⟨⟨by decide, by decide⟩, by decide,
    aggregateEpochVotes_count_mode exampleEnv 9 (extendMap exampleMap 6 exampleNewBlock) 1
      exampleStats (some [1]) false false (by decide) (by decide)⟩

/-- C5: balance-weighted mode. When `aggregateEpochVotes` returns and the `EpochStats` has
validator stats, every validator weighs its entry of `ValidatorBalances` (0 when absent),
the keys of `ActivityMap` are distinct, and the two `totalVoteAmount`s add up, modulo
`2 ^ 64`, to the sum of `ValidatorBalances[v]` over the keys `v` of `ActivityMap`. -/
theorem aggregateEpochVotes_balance_mode (env : Env) (fuel : Nat)
    (blockMap : Nat → Option CacheBlock) (epoch : Nat) (epochStats : EpochStats)
    (stateStats : EpochValidatorStats) (targetRoot : Bytes) (currentOnly await : Bool)
    (hlast : lastSlotOf env epoch currentOnly + 1 < u64)
    (hfuel : lastSlotOf env epoch currentOnly + 1 - firstSlotOf env epoch < fuel)
    (hstats : epochStats.validatorStats = some stateStats) :
    ∃ votes : EpochVotes,
      aggregateEpochVotes env fuel blockMap epoch epochStats targetRoot currentOnly await =
        some votes ∧
      votes.VoteCounts = false ∧
      (∀ validatorIdx,
        voteWeight epochStats validatorIdx = stateStats.ValidatorBalances.get validatorIdx 0) ∧
      (votes.ActivityMap.keys).Nodup ∧
      (votes.currentEpoch.totalVoteAmount + votes.nextEpoch.totalVoteAmount) % u64 =
        ((votes.ActivityMap.keys).map
          (fun validatorIdx => stateStats.ValidatorBalances.get validatorIdx 0)).sum % u64 := by
  have hw : voteWeight epochStats =
      fun validatorIdx => stateStats.ValidatorBalances.get validatorIdx 0 := by
    funext validatorIdx; simp [voteWeight, hstats]
  refine ⟨_, aggregateEpochVotes_total env fuel blockMap epoch epochStats targetRoot
    currentOnly await hlast hfuel, ?_, ?_, tallyOf_keys_nodup _ _ _, ?_⟩
  · simp [tallyOf, hstats]
  · intro validatorIdx; rw [hw]
  · rw [tallyOf_totals, hw]

/-- Witness of C5 on the example chain with balances 32 and 31 for validators 10
and 11. -/
theorem aggregateEpochVotes_balance_mode_witness :
    (lastSlotOf exampleEnv 1 false + 1 < u64 ∧
      lastSlotOf exampleEnv 1 false + 1 - firstSlotOf exampleEnv 1 < 9 ∧
      exampleStatsBalances.validatorStats =
        some { ValidatorCount := 3, ValidatorBalance := 68, EligibleAmount := 68
               ValidatorBalances := [(10, 32), (11, 31), (12, 5)] }) ∧
    ∃ votes : EpochVotes,
      aggregateEpochVotes exampleEnv 9 (extendMap exampleMap 6 exampleNewBlock) 1
        exampleStatsBalances (some [1]) false false = some votes ∧
      votes.VoteCounts = false ∧
      (∀ validatorIdx, voteWeight exampleStatsBalances validatorIdx =
        GoMap.get [(10, 32), (11, 31), (12, 5)] validatorIdx 0) ∧
      (votes.ActivityMap.keys).Nodup ∧
      (votes.currentEpoch.totalVoteAmount + votes.nextEpoch.totalVoteAmount) % u64 =
        ((votes.ActivityMap.keys).map
          (fun validatorIdx => GoMap.get [(10, 32), (11, 31), (12, 5)] validatorIdx 0)).sum
          % u64 :=
  ⟨⟨by decide, by decide, rfl⟩,
    aggregateEpochVotes_balance_mode exampleEnv 9 (extendMap exampleMap 6 exampleNewBlock) 1
      exampleStatsBalances _ (some [1]) false false (by decide) (by decide) rfl⟩

/-- C19: head and target votes never exceed total votes. When `aggregateEpochVotes`
returns and the weights of the validators of `ActivityMap` sum to less than `2 ^ 64`, the
target and the head amount are at most the total amount, in the `currentEpoch` bucket
and in the `nextEpoch` bucket. -/
theorem aggregateEpochVotes_target_head_le_total (env : Env) (fuel : Nat)
    (blockMap : Nat → Option CacheBlock) (epoch : Nat) (epochStats : EpochStats)
    (targetRoot : Bytes) (currentOnly await : Bool)
    (hlast : lastSlotOf env epoch currentOnly + 1 < u64)
    (hfuel : lastSlotOf env epoch currentOnly + 1 - firstSlotOf env epoch < fuel)
    (hsum : ∀ votes, aggregateEpochVotes env fuel blockMap epoch epochStats targetRoot
        currentOnly await = some votes →
      ((votes.ActivityMap.keys).map (voteWeight epochStats)).sum < u64) :
    ∃ votes : EpochVotes,
      aggregateEpochVotes env fuel blockMap epoch epochStats targetRoot currentOnly await =
        some votes ∧
      votes.currentEpoch.targetVoteAmount ≤ votes.currentEpoch.totalVoteAmount ∧
      votes.currentEpoch.headVoteAmount ≤ votes.currentEpoch.totalVoteAmount ∧
      votes.nextEpoch.targetVoteAmount ≤ votes.nextEpoch.totalVoteAmount ∧
      votes.nextEpoch.headVoteAmount ≤ votes.nextEpoch.totalVoteAmount := by
  have hret := aggregateEpochVotes_total env fuel blockMap epoch epochStats targetRoot
    currentOnly await hlast hfuel
  have hs := hsum _ hret
  have hall : weightSum epochStats (fun _ => true) (firstVotes []
      (scanEvents env blockMap epoch epochStats targetRoot currentOnly)) < u64 := by
    rw [weightSum_all]
    simpa [tallyOf, GoMap.keys, List.map_map, Function.comp_def] using hs
  have hc := tallyAmounts_le_total epochStats (fun e => !e.isNextEpoch) _ hall
  have hn := tallyAmounts_le_total epochStats (fun e => e.isNextEpoch) _ hall
  exact ⟨_, hret, hc.1, hc.2, hn.1, hn.2⟩

/-- Witness of C19 on the example chain with balances: the amounts are 0, 32, 32 and
31, 31, 31. -/
theorem aggregateEpochVotes_target_head_le_total_witness :
    (lastSlotOf exampleEnv 1 false + 1 < u64 ∧
      lastSlotOf exampleEnv 1 false + 1 - firstSlotOf exampleEnv 1 < 9) ∧
    ∃ votes : EpochVotes,
      aggregateEpochVotes exampleEnv 9 (extendMap exampleMap 6 exampleNewBlock) 1
        exampleStatsBalances (some [1]) false false = some votes ∧
      votes.currentEpoch.targetVoteAmount ≤ votes.currentEpoch.totalVoteAmount ∧
      votes.currentEpoch.headVoteAmount ≤ votes.currentEpoch.totalVoteAmount ∧
      votes.nextEpoch.targetVoteAmount ≤ votes.nextEpoch.totalVoteAmount ∧
      votes.nextEpoch.headVoteAmount ≤ votes.nextEpoch.totalVoteAmount :=
  ⟨⟨by decide, by decide⟩,
    aggregateEpochVotes_target_head_le_total exampleEnv 9
      (extendMap exampleMap 6 exampleNewBlock) 1 exampleStatsBalances (some [1]) false false
      (by decide) (by decide)
      (by
        intro votes h
        have hv : votes = { currentEpoch := ⟨0, 32, 32⟩, nextEpoch := ⟨31, 31, 31⟩
                            VoteCounts := false
                            ActivityMap := [(10, true), (11, true)] } :=
          Option.some.inj (h.symm.trans (by decide))
        subst hv
        decide)⟩

/-! ## Claims on the epoch statistics cache -/

/-- C15: validator snapshot fold. When `loadValidatorStats` runs on a record without
snapshot and `GetStateValidators` returns the validators `epochValidators`, the snapshot
is published with: `ValidatorCount` the number of validators with
`ActivationEpoch <= Epoch < ExitEpoch`, `ValidatorBalance` the sum of their balances and
`EligibleAmount` the sum of their effective balances, each modulo `2 ^ 64` (the count
exactly, below `2 ^ 64` validators); and `ValidatorBalances` has as keys exactly the
indices of the validators returned, active or not, each mapped to its effective balance
(the indices being distinct, as the keys of the response are). -/
theorem loadValidatorStats_fold
    (GetStateValidators : String → Except String (List ValidatorEntry))
    (epochStats : EpochStats) (stateRef : String) (epochValidators : List ValidatorEntry)
    (hunset : epochStats.validatorStats = none)
    (hrsp : GetStateValidators (if epochStats.Epoch = 0 then "genesis" else stateRef) =
      .ok epochValidators) :
    ∃ validatorStats : EpochValidatorStats,
      (loadValidatorStats GetStateValidators epochStats stateRef).validatorStats =
        some validatorStats ∧
      validatorStats.ValidatorCount =
        (epochValidators.filter (fun v =>
          decide (v.ActivationEpoch ≤ epochStats.Epoch ∧ epochStats.Epoch < v.ExitEpoch))).length
          % u64 ∧
      ((epochValidators.filter (fun v =>
          decide (v.ActivationEpoch ≤ epochStats.Epoch ∧
            epochStats.Epoch < v.ExitEpoch))).length < u64 →
        validatorStats.ValidatorCount =
          (epochValidators.filter (fun v =>
            decide (v.ActivationEpoch ≤ epochStats.Epoch ∧
              epochStats.Epoch < v.ExitEpoch))).length) ∧
      validatorStats.ValidatorBalance =
        ((epochValidators.filter (fun v =>
          decide (v.ActivationEpoch ≤ epochStats.Epoch ∧ epochStats.Epoch < v.ExitEpoch))).map
          ValidatorEntry.Balance).sum % u64 ∧
      validatorStats.EligibleAmount =
        ((epochValidators.filter (fun v =>
          decide (v.ActivationEpoch ≤ epochStats.Epoch ∧ epochStats.Epoch < v.ExitEpoch))).map
          ValidatorEntry.EffectiveBalance).sum % u64 ∧
      (GoMap.keys validatorStats.ValidatorBalances).Nodup ∧
      (∀ index, index ∈ GoMap.keys validatorStats.ValidatorBalances ↔
        ∃ v ∈ epochValidators, v.Index = index) ∧
      ((epochValidators.map ValidatorEntry.Index).Nodup → ∀ v ∈ epochValidators,
        GoMap.find validatorStats.ValidatorBalances v.Index = some v.EffectiveBalance) := by
  have hc := foldValidatorStats_counters epochStats.Epoch epochValidators
  have hb : (foldValidatorStats epochStats.Epoch epochValidators).ValidatorBalances =
      epochValidators.foldl (fun m v => GoMap.set m v.Index v.EffectiveBalance) [] := by
    unfold foldValidatorStats
    rw [foldl_validatorStep_balances]
  have hk := GoMap.keys_foldl_set ValidatorEntry.Index ValidatorEntry.EffectiveBalance
    epochValidators ([] : GoMap Nat Nat) (by simp [GoMap.keys])
  refine ⟨foldValidatorStats epochStats.Epoch epochValidators, ?_, hc.1, ?_, hc.2.1, hc.2.2,
    ?_, ?_, ?_⟩
  · simp [loadValidatorStats, hunset, hrsp]
  · intro hlt
    rw [hc.1]
    exact Nat.mod_eq_of_lt hlt
  · rw [hb]; exact hk.1
  · intro index
    rw [hb, hk.2 index]
    simp [GoMap.keys]
  · intro hn v hv
    rw [hb]
    exact GoMap.find_foldl_set_of_nodup _ _ _ _ hn v hv

/-- Witness of C15: the snapshot of the three example validators at epoch 1 counts the
two active ones. -/
theorem loadValidatorStats_fold_witness :
    ∃ validatorStats : EpochValidatorStats,
      (loadValidatorStats (fun _ => .ok exampleValidators) exampleStats "0xaa").validatorStats =
        some validatorStats ∧
      validatorStats.ValidatorCount = 2 ∧ validatorStats.ValidatorBalance = 64 ∧
      validatorStats.EligibleAmount = 63 ∧
      validatorStats.ValidatorBalances = [(10, 32), (11, 31), (12, 5)] := by
  obtain ⟨vs, h1, _⟩ := loadValidatorStats_fold (fun _ => .ok exampleValidators) exampleStats
    "0xaa" exampleValidators rfl rfl
  refine ⟨vs, h1, ?_⟩
  have hv : vs = { ValidatorCount := 2, ValidatorBalance := 64, EligibleAmount := 63
                   ValidatorBalances := [(10, 32), (11, 31), (12, 5)] } :=
    Option.some.inj (h1.symm.trans (by decide))
  subst hv
  exact ⟨rfl, rfl, rfl, rfl⟩

/-- C6: `createOrGetEpochStats`. The flag is true exactly when no record in the list of
`epoch` has a `DependentRoot` byte-equal to `dependendRoot`. When it is false the cache
is unchanged and the record returned is one of that list with a byte-equal root. When it
is true the record returned is new, has the given epoch and root and no loaded field, is
appended to the list of `epoch`, and the lists of all other epochs and all records
allocated before are unchanged. -/
theorem createOrGetEpochStats_spec (cache : IndexerCache) (epoch : Nat) (dependendRoot : Bytes) :
    ((createOrGetEpochStats cache epoch dependendRoot).2.2 = true ↔
      ∀ q ∈ cache.epochStatsMap.get epoch [],
        bytesEqual (cache.deref q).DependentRoot dependendRoot = false) ∧
    ((createOrGetEpochStats cache epoch dependendRoot).2.2 = false →
      (createOrGetEpochStats cache epoch dependendRoot).1 = cache ∧
      (createOrGetEpochStats cache epoch dependendRoot).2.1 ∈ cache.epochStatsMap.get epoch [] ∧
      bytesEqual
        (cache.deref (createOrGetEpochStats cache epoch dependendRoot).2.1).DependentRoot
        dependendRoot = true) ∧
    ((createOrGetEpochStats cache epoch dependendRoot).2.2 = true →
      (createOrGetEpochStats cache epoch dependendRoot).2.1 = cache.heap.length ∧
      (createOrGetEpochStats cache epoch dependendRoot).1.heap =
        cache.heap ++
          [{ Epoch := epoch, DependentRoot := dependendRoot, dependentStateRef := ""
             seenCount := 0, proposerAssignments := none, attestorAssignments := none
             syncAssignments := none, validatorStats := none }] ∧
      (createOrGetEpochStats cache epoch dependendRoot).1.epochStatsMap.get epoch [] =
        cache.epochStatsMap.get epoch [] ++ [cache.heap.length] ∧
      (∀ e, e ≠ epoch →
        (createOrGetEpochStats cache epoch dependendRoot).1.epochStatsMap.find e =
          cache.epochStatsMap.find e) ∧
      (∀ q, q < cache.heap.length →
        (createOrGetEpochStats cache epoch dependendRoot).1.deref q = cache.deref q)) := by
  cases hf : findEpochStats cache dependendRoot (cache.epochStatsMap.get epoch []) with
  | some ptr =>
    have hs := findEpochStats_some _ _ _ _ hf
    rw [createOrGetEpochStats_found _ _ _ _ hf]
    refine ⟨?_, fun _ => ⟨rfl, hs.1, hs.2⟩, fun h => by simp at h⟩
    constructor
    · intro h; simp at h
    · intro h
      have := h ptr hs.1
      rw [hs.2] at this
      exact absurd this (by decide)
  | none =>
    have hn := (findEpochStats_eq_none _ _ _).1 hf
    rw [createOrGetEpochStats_new _ _ _ hf]
    refine ⟨⟨fun _ => hn, fun _ => rfl⟩, fun h => by simp at h, fun _ => ?_⟩
    refine ⟨rfl, rfl, ?_, ?_, ?_⟩
    · simp [GoMap.get_set]
    · intro e he
      have : ¬ epoch = e := fun h => he h.symm
      simp [GoMap.find_set, this]
    · intro q hq
      exact deref_append _ _ _ _ _ hq

/-- Witness of C6 on the example cache: root `[7]` is not cached for epoch 1, so the flag
is true and the record returned is the next free index. -/
theorem createOrGetEpochStats_spec_witness :
    (createOrGetEpochStats exampleCache 1 (some [7])).2.2 = true ∧
    (createOrGetEpochStats exampleCache 1 (some [7])).2.1 = exampleCache.heap.length :=
  ⟨by decide, ((createOrGetEpochStats_spec exampleCache 1 (some [7])).2.2 (by decide)).1⟩

/-- C7 (as stated, refuted): for epoch 0 with no canonical block known the record is keyed
by the dependent root `[7]` of the proposer duties, not by the root of a first canonical
block; and for epoch 1 with the first canonical block known but without parent root the
record is keyed by the root `[3]` of the last canonical block of epoch 0. -/
theorem ensureEpochStats_root_not_by_listed_rule :
    (exampleClient []).getFirstCanonicalBlock 0 none = none ∧
    ensureEpochStats exampleEnv (exampleClient []) emptyCache 0 none =
      .ok { cache := { heap := [newEpochStats 0 (some [7])], epochStatsMap := [(0, [0])] }
            epochStats := 0, isNewStats := true
            proposerRsp := some { DependentRoot := [7], Data := [] }
            lastEpochStats := 0 } ∧
    (∃ b, exampleClientBlocks.getFirstCanonicalBlock 1 none = some b ∧ b.parentRoot = none) ∧
    ensureEpochStats exampleEnv exampleClientBlocks emptyCache 1 none =
      .ok { cache := { heap := [newEpochStats 1 (some [3])], epochStatsMap := [(1, [0])] }
            epochStats := 0, isNewStats := true, proposerRsp := none
            lastEpochStats := 1 } := by
  refine ⟨rfl, rfl, ⟨_, rfl, rfl⟩, rfl⟩

/-- C7 (amended): dependent-root selection in `ensureEpochStats`. (1) For epoch 0 with
the first canonical block known and its root not nil: that root. (2) For a later epoch
with the first canonical block known and its parent root not nil: that parent root. (3)
For a later epoch otherwise, with the last canonical block of the epoch before known and
its root not nil: that root. When none of these gives a root: (4) with the Whisk fork
active the root the database returns for slot `epoch * SlotsPerEpoch`; (5) else the
dependent root of the proposer duties response, which is handed to the loader, and an
error without any record when the call fails or returns nothing. In every case the
record handed to the loader is in the list of the epoch and its root is byte-equal to
the selected one. -/
theorem ensureEpochStats_dependent_root (env : Env) (client : IndexerClient)
    (cache : IndexerCache) (epoch : Nat) (head : Bytes) :
    (∀ b root, epoch = 0 → client.getFirstCanonicalBlock epoch head = some b →
      b.Root = some root →
      ensureEpochStats env client cache epoch head =
        .ok (ensureWithRoot client cache epoch (some root) none)) ∧
    (∀ b root, epoch > 0 → client.getFirstCanonicalBlock epoch head = some b →
      b.parentRoot = some root →
      ensureEpochStats env client cache epoch head =
        .ok (ensureWithRoot client cache epoch (some root) none)) ∧
    (∀ b root, epoch > 0 →
      (client.getFirstCanonicalBlock epoch head = none ∨
        ∃ f, client.getFirstCanonicalBlock epoch head = some f ∧ f.parentRoot = none) →
      client.getLastCanonicalBlock (epoch - 1) head = some b → b.Root = some root →
      ensureEpochStats env client cache epoch head =
        .ok (ensureWithRoot client cache epoch (some root) none)) ∧
    (NoCanonicalRoot client epoch head → whiskActivated env epoch = true →
      ensureEpochStats env client cache epoch head =
        .ok (ensureWithRoot client cache epoch
          (client.GetHighestRootBeforeSlot ((epoch * env.SlotsPerEpoch) % u64) false) none)) ∧
    (∀ rsp, NoCanonicalRoot client epoch head → whiskActivated env epoch = false →
      client.GetProposerDuties epoch = .ok (some rsp) →
      ensureEpochStats env client cache epoch head =
        .ok (ensureWithRoot client cache epoch (some rsp.DependentRoot) (some rsp))) ∧
    (NoCanonicalRoot client epoch head → whiskActivated env epoch = false →
      (client.GetProposerDuties epoch = .ok none ∨
        ∃ err, client.GetProposerDuties epoch = .error err) →
      ∃ err, ensureEpochStats env client cache epoch head = .error err) ∧
    (∀ dependentRoot proposerRsp,
      (ensureWithRoot client cache epoch dependentRoot proposerRsp).proposerRsp = proposerRsp ∧
      (ensureWithRoot client cache epoch dependentRoot proposerRsp).epochStats ∈
        (ensureWithRoot client cache epoch dependentRoot proposerRsp).cache.epochStatsMap.get
          epoch [] ∧
      bytesEqual
        ((ensureWithRoot client cache epoch dependentRoot proposerRsp).cache.deref
          (ensureWithRoot client cache epoch dependentRoot
            proposerRsp).epochStats).DependentRoot
        dependentRoot = true) := by
  have hnone : NoCanonicalRoot client epoch head →
      rootFromLastBlock client epoch head (rootFromFirstBlock client epoch head) = none := by
    rintro (⟨h0, hf⟩ | ⟨hpos, hf, hl⟩)
    · subst h0
      rcases hf with hf | ⟨b, hf, hb⟩
      · simp [rootFromLastBlock, rootFromFirstBlock, hf]
      · simp [rootFromLastBlock, rootFromFirstBlock, hf, hb]
    · have hne : ¬ epoch = 0 := by omega
      have h1 : rootFromFirstBlock client epoch head = none := by
        rcases hf with hf | ⟨b, hf, hb⟩
        · simp [rootFromFirstBlock, hf]
        · simp [rootFromFirstBlock, hf, hne, hb]
      rcases hl with hl | ⟨b, hl, hb⟩
      · simp [rootFromLastBlock, h1, hpos, hl]
      · simp [rootFromLastBlock, h1, hpos, hl, hb]
  refine ⟨?_, ?_, ?_, ?_, ?_, ?_, fun _ _ => ensureWithRoot_keyed _ _ _ _ _⟩
  · intro b root h0 hf hb
    subst h0
    simp [ensureEpochStats, rootFromLastBlock, rootFromFirstBlock, hf, hb]
  · intro b root hpos hf hb
    have hne : ¬ epoch = 0 := by omega
    simp [ensureEpochStats, rootFromLastBlock, rootFromFirstBlock, hf, hne, hb]
  · intro b root hpos hf hl hb
    have hne : ¬ epoch = 0 := by omega
    have h1 : rootFromFirstBlock client epoch head = none := by
      rcases hf with hf | ⟨f, hf, hfb⟩
      · simp [rootFromFirstBlock, hf]
      · simp [rootFromFirstBlock, hf, hne, hfb]
    simp [ensureEpochStats, rootFromLastBlock, h1, hpos, hl, hb]
  · intro hno hw
    simp [ensureEpochStats, hnone hno, hw]
  · intro rsp hno hw hrsp
    simp [ensureEpochStats, hnone hno, hw, hrsp]
  · intro hno hw hrsp
    rcases hrsp with hrsp | ⟨err, hrsp⟩
    · exact ⟨"could not find proposer duties for epoch " ++ toString epoch,
        by simp [ensureEpochStats, hnone hno, hw, hrsp]⟩
    · exact ⟨"could not find proposer duties for epoch " ++ toString epoch ++ ": " ++ err,
        by simp [ensureEpochStats, hnone hno, hw, hrsp]⟩

/-- Witness of the amended C7: epoch 0 with no canonical block known and the Whisk fork
not configured takes the dependent root of the proposer duties. -/
theorem ensureEpochStats_dependent_root_witness :
    (NoCanonicalRoot (exampleClient []) 0 none ∧ whiskActivated exampleEnv 0 = false ∧
      (exampleClient []).GetProposerDuties 0 =
        .ok (some { DependentRoot := [7], Data := [] })) ∧
    ensureEpochStats exampleEnv (exampleClient []) emptyCache 0 none =
      .ok (ensureWithRoot (exampleClient []) emptyCache 0 (some [7])
        (some { DependentRoot := [7], Data := [] })) :=
  ⟨⟨Or.inl ⟨rfl, Or.inl rfl⟩, rfl, rfl⟩,
    (ensureEpochStats_dependent_root exampleEnv (exampleClient []) emptyCache 0 none).2.2.2.2.1
      { DependentRoot := [7], Data := [] } (Or.inl ⟨rfl, Or.inl rfl⟩) rfl rfl⟩

/-- C8 (as stated, refuted): the beacon node answers the proposer duties call for epoch 1
with the matching dependent root and no duty at all; the load returns without error and
the proposer assignments have 0 entries, with 4 slots per epoch. -/
theorem ensureEpochStatsLazy_assignments_follow_response :
    exampleEnv.SlotsPerEpoch = 4 ∧
    ensureEpochStatsLazy exampleEnv (exampleClient []) 2 exampleCacheMatching 0 none =
      some
        { cache :=
            { heap :=
                [{ Epoch := 1, DependentRoot := some [7], dependentStateRef := "0xaa"
                   seenCount := 1, proposerAssignments := some []
                   attestorAssignments := some [("4-0", [10, 11])]
                   syncAssignments := none, validatorStats := none }]
              epochStatsMap := [(1, [0])] }
          calls := [.proposerDuties 1, .blockHeader (some [7]), .validatorStatsLazy 0 "0xaa",
            .committeeDuties "0xaa" 1]
          error := none, redirects := 0 } := by
  exact ⟨rfl, by decide⟩

/-- C8 (amended): a load that returns without error and without nested call on a record
that had no proposer assignments has published a map. With the Whisk fork active,
`SlotsPerEpoch > 0` and `(Epoch + 1) * SlotsPerEpoch` below `2 ^ 64`, the map has exactly
`SlotsPerEpoch` entries, with distinct keys that are exactly the slots of the epoch.
Otherwise the keys of the map are distinct and are exactly the slots of the duties of
the proposer duties response (passed in, or fetched by this call); so the map has
`SlotsPerEpoch` entries with keys in the epoch exactly when the response lists exactly
the slots of the epoch. -/
theorem ensureEpochStatsLazy_proposer_keys (env : Env) (client : IndexerClient) (fuel : Nat)
    (cache : IndexerCache) (ptr : Nat) (proposerRsp : Option ProposerDuties)
    (res : LazyResult) (hptr : ptr < cache.heap.length)
    (hunset : (cache.deref ptr).proposerAssignments = none)
    (hres : ensureEpochStatsLazy env client fuel cache ptr proposerRsp = some res)
    (hok : res.error = none) (hdirect : res.redirects = 0) :
    ∃ m, (res.cache.deref ptr).proposerAssignments = some m ∧
      (whiskActivated env (cache.deref ptr).Epoch = true → 0 < env.SlotsPerEpoch →
        ((cache.deref ptr).Epoch + 1) * env.SlotsPerEpoch < u64 →
        m.length = env.SlotsPerEpoch ∧ (GoMap.keys m).Nodup ∧
        ∀ k, k ∈ GoMap.keys m ↔
          (cache.deref ptr).Epoch * env.SlotsPerEpoch ≤ k ∧
            k < ((cache.deref ptr).Epoch + 1) * env.SlotsPerEpoch) ∧
      (whiskActivated env (cache.deref ptr).Epoch = false →
        ∃ rsp, (proposerRsp = some rsp ∨
            (proposerRsp = none ∧
              client.GetProposerDuties (cache.deref ptr).Epoch = .ok (some rsp))) ∧
          (GoMap.keys m).Nodup ∧
          (∀ k, k ∈ GoMap.keys m ↔ ∃ d ∈ rsp.Data, d.Slot = k) ∧
          ((∀ k, (∃ d ∈ rsp.Data, d.Slot = k) ↔
              (cache.deref ptr).Epoch * env.SlotsPerEpoch ≤ k ∧
                k < (cache.deref ptr).Epoch * env.SlotsPerEpoch + env.SlotsPerEpoch) ↔
            (m.length = env.SlotsPerEpoch ∧
              ∀ k ∈ GoMap.keys m,
                (cache.deref ptr).Epoch * env.SlotsPerEpoch ≤ k ∧
                  k < (cache.deref ptr).Epoch * env.SlotsPerEpoch + env.SlotsPerEpoch))) := by
  obtain ⟨m, hm, hcase⟩ := ensureEpochStatsLazy_published env client fuel cache ptr proposerRsp
    res hptr hunset hres hok hdirect
  refine ⟨m, hm, ?_, ?_⟩
  · intro hw hpos hno
    rcases hcase with ⟨_, n, hs⟩ | ⟨hw', _⟩
    · have := sentinelAssignments_some env n _ m hpos hno hs
      subst this
      have hkeys : GoMap.keys ((List.range' ((cache.deref ptr).Epoch * env.SlotsPerEpoch)
          env.SlotsPerEpoch).map (fun slot => (slot, maxInt64))) =
          List.range' ((cache.deref ptr).Epoch * env.SlotsPerEpoch) env.SlotsPerEpoch := by
        simp [GoMap.keys, Function.comp_def]
      refine ⟨by simp, ?_, ?_⟩
      · rw [hkeys]; exact List.nodup_range' _ _
      · intro k
        rw [hkeys, List.mem_range'_1]
        have : ((cache.deref ptr).Epoch + 1) * env.SlotsPerEpoch =
            (cache.deref ptr).Epoch * env.SlotsPerEpoch + env.SlotsPerEpoch := by ring
        omega
    · rw [hw] at hw'; exact absurd hw' (by decide)
  · intro hw
    rcases hcase with ⟨hw', _⟩ | ⟨_, rsp, horigin, rfl⟩
    · rw [hw] at hw'; exact absurd hw' (by decide)
    · have hk := dutiesToAssignments_keys rsp.Data
      refine ⟨rsp, horigin, hk.1, hk.2, ?_⟩
      constructor
      · intro hall
        refine ⟨length_of_keys_range _ _ _ hk.1 (fun k => by rw [hk.2 k, hall k]), ?_⟩
        intro k hkm
        exact (hall k).1 ((hk.2 k).1 hkm)
      · rintro ⟨hlen, hin⟩ k
        rw [← hk.2 k]
        constructor
        · exact hin k
        · intro hrange
          -- a duplicate-free list of `SlotsPerEpoch` slots of the epoch holds them all
          have hsub : GoMap.keys (dutiesToAssignments rsp.Data) ⊆
              List.range' ((cache.deref ptr).Epoch * env.SlotsPerEpoch) env.SlotsPerEpoch := by
            intro x hx
            rw [List.mem_range'_1]
            exact hin x hx
          have hlen' : (List.range' ((cache.deref ptr).Epoch * env.SlotsPerEpoch)
              env.SlotsPerEpoch).length ≤ (GoMap.keys (dutiesToAssignments rsp.Data)).length := by
            simp [GoMap.keys, hlen]
          have hperm := (List.subperm_of_subset hk.1 hsub).perm_of_length_le hlen'
          exact hperm.mem_iff.2 (List.mem_range'_1.2 hrange)

/-- Witness of the amended C8: the beacon node lists the four slots of epoch 1 and the
map gets four entries. -/
theorem ensureEpochStatsLazy_proposer_keys_witness :
    (0 < exampleCacheMatching.heap.length ∧
      (exampleCacheMatching.deref 0).proposerAssignments = none ∧
      ensureEpochStatsLazy exampleEnv (exampleClient [⟨4, 1⟩, ⟨5, 2⟩, ⟨6, 3⟩, ⟨7, 4⟩]) 2
        exampleCacheMatching 0 none = some exampleLoaded ∧
      exampleLoaded.error = none ∧ exampleLoaded.redirects = 0) ∧
    ∃ m, (exampleLoaded.cache.deref 0).proposerAssignments = some m ∧ m.length = 4 := by
  refine ⟨⟨by decide, rfl, by decide, rfl, rfl⟩, ?_⟩
  obtain ⟨m, hm, _, h2⟩ := ensureEpochStatsLazy_proposer_keys exampleEnv
    (exampleClient [⟨4, 1⟩, ⟨5, 2⟩, ⟨6, 3⟩, ⟨7, 4⟩]) 2 exampleCacheMatching 0 none
    exampleLoaded (by decide) rfl (by decide) rfl rfl
  obtain ⟨rsp, horigin, _, _, hiff⟩ := h2 rfl
  have hrsp : rsp = { DependentRoot := [7], Data := [⟨4, 1⟩, ⟨5, 2⟩, ⟨6, 3⟩, ⟨7, 4⟩] } := by
    rcases horigin with h | ⟨_, h⟩
    · exact absurd h (by simp)
    · exact (Option.some.inj (Except.ok.inj h)).symm
  subst hrsp
  refine ⟨m, hm, (hiff.1 ?_).1⟩
  intro k
  have h1 : (exampleCacheMatching.deref 0).Epoch * exampleEnv.SlotsPerEpoch = 4 := by decide
  have h2 : exampleEnv.SlotsPerEpoch = 4 := rfl
  rw [h1, h2]
  simp only [List.mem_cons, List.mem_singleton, List.not_mem_nil, or_false, exists_eq_or_imp,
    exists_eq_left]
  omega

/-- C9: duty-opaque regime. With the Whisk fork configured and reached by the epoch of
the record, `SlotsPerEpoch > 0` and `(Epoch + 1) * SlotsPerEpoch` below `2 ^ 64`, a load
on a record without proposer assignments returns (given enough fuel), makes no proposer
duties call and no nested call, and sets the map to the sentinel `2 ^ 63 - 1` for exactly
the slots `Epoch * SlotsPerEpoch, ..., (Epoch + 1) * SlotsPerEpoch - 1`, whatever
response is passed in and whether the later steps fail or not. -/
theorem ensureEpochStatsLazy_whisk_sentinel (env : Env) (client : IndexerClient) (fuel : Nat)
    (cache : IndexerCache) (ptr : Nat) (proposerRsp : Option ProposerDuties)
    (whiskForkEpoch : Nat)
    (hptr : ptr < cache.heap.length)
    (hwhisk : env.WhiskForkEpoch = some whiskForkEpoch)
    (hepoch : (cache.deref ptr).Epoch ≥ whiskForkEpoch)
    (hpos : 0 < env.SlotsPerEpoch)
    (hno : ((cache.deref ptr).Epoch + 1) * env.SlotsPerEpoch < u64)
    (hunset : (cache.deref ptr).proposerAssignments = none)
    (hfuel : env.SlotsPerEpoch + 1 < fuel) :
    ∃ res : LazyResult,
      ensureEpochStatsLazy env client fuel cache ptr proposerRsp = some res ∧
      (∀ c ∈ res.calls, c.isProposerDuties = false) ∧
      res.redirects = 0 ∧
      (res.cache.deref ptr).proposerAssignments =
        some ((List.range' ((cache.deref ptr).Epoch * env.SlotsPerEpoch)
          env.SlotsPerEpoch).map (fun slot => (slot, 2 ^ 63 - 1))) := by
  obtain ⟨n, rfl⟩ : ∃ n, fuel = n + 1 := ⟨fuel - 1, by omega⟩
  have hw : whiskActivated env (cache.deref ptr).Epoch = true := by
    simp [whiskActivated, hwhisk, hepoch]
  have hstep := proposerStep_whisk env client n (cache.deref ptr) proposerRsp hunset hw hpos
    hno (by omega)
  have hfields := loadAfterProposer_fields env client ptr
    { cache.deref ptr with
      proposerAssignments := some
        ((List.range' ((cache.deref ptr).Epoch * env.SlotsPerEpoch) env.SlotsPerEpoch).map
          (fun slot => (slot, maxInt64))) }
  refine ⟨_, ensureEpochStatsLazy_loaded env client n cache ptr proposerRsp [] _ hstep,
    ?_, rfl, ?_⟩
  · intro c hc
    simp only [List.nil_append] at hc
    exact hfields.2.2.2 c hc
  · simp only []
    rw [deref_store_self _ _ _ hptr, hfields.2.2.1]
    rfl

/-- Witness of C9: epoch 1 of the example chain with the Whisk fork at epoch 1. -/
theorem ensureEpochStatsLazy_whisk_sentinel_witness :
    ∃ res : LazyResult,
      ensureEpochStatsLazy { exampleEnv with WhiskForkEpoch := some 1 }
        (exampleClient [⟨4, 1⟩]) 6 exampleCache 0 none = some res ∧
      (∀ c ∈ res.calls, c.isProposerDuties = false) ∧
      res.redirects = 0 ∧
      (res.cache.deref 0).proposerAssignments =
        some ((List.range' ((exampleCache.deref 0).Epoch * 4) 4).map
          (fun slot => (slot, 2 ^ 63 - 1))) :=
  ensureEpochStatsLazy_whisk_sentinel { exampleEnv with WhiskForkEpoch := some 1 }
    (exampleClient [⟨4, 1⟩]) 6 exampleCache 0 none 1 (by decide) rfl (by decide) (by decide)
    (by decide) rfl (by decide)

/-- C10: dependent-root mismatch redirect. Let the record `S` behind `ptr` have no
proposer assignments, the Whisk fork not be active, no response be passed in, and the
proposer duties response `rsp` carry a dependent root that is not byte-equal to that of
`S`; let the list of the epoch hold valid records of that epoch. Then the load returns
(fuel 2 is enough) after exactly one nested call; `S` is unchanged; the record `alt`
that `createOrGetEpochStats` gives for the root of `rsp` differs from `S`, is in the list
of the epoch, has that epoch and a root byte-equal to that of `rsp`; the duties of `rsp`
are published on `alt` if it had none, and kept otherwise; and the only proposer duties
call is the one of the outer call. -/
theorem ensureEpochStatsLazy_redirect (env : Env) (client : IndexerClient) (fuel : Nat)
    (cache : IndexerCache) (ptr : Nat) (rsp : ProposerDuties)
    (hptr : ptr < cache.heap.length)
    (hlist : ∀ q ∈ cache.epochStatsMap.get (cache.deref ptr).Epoch [],
      q < cache.heap.length ∧ (cache.deref q).Epoch = (cache.deref ptr).Epoch)
    (hunset : (cache.deref ptr).proposerAssignments = none)
    (hw : whiskActivated env (cache.deref ptr).Epoch = false)
    (hrsp : client.GetProposerDuties (cache.deref ptr).Epoch = .ok (some rsp))
    (hroot : bytesEqual (some rsp.DependentRoot) (cache.deref ptr).DependentRoot = false)
    (hfuel : 1 < fuel) :
    ∃ res : LazyResult,
      ensureEpochStatsLazy env client fuel cache ptr none = some res ∧
      res.redirects = 1 ∧
      res.cache.deref ptr = cache.deref ptr ∧
      (createOrGetEpochStats cache (cache.deref ptr).Epoch (some rsp.DependentRoot)).2.1 ≠ ptr ∧
      (createOrGetEpochStats cache (cache.deref ptr).Epoch (some rsp.DependentRoot)).2.1 ∈
        res.cache.epochStatsMap.get (cache.deref ptr).Epoch [] ∧
      (res.cache.deref
        (createOrGetEpochStats cache (cache.deref ptr).Epoch
          (some rsp.DependentRoot)).2.1).Epoch = (cache.deref ptr).Epoch ∧
      bytesEqual
        (res.cache.deref
          (createOrGetEpochStats cache (cache.deref ptr).Epoch
            (some rsp.DependentRoot)).2.1).DependentRoot
        (some rsp.DependentRoot) = true ∧
      (res.cache.deref
        (createOrGetEpochStats cache (cache.deref ptr).Epoch
          (some rsp.DependentRoot)).2.1).proposerAssignments =
        (match ((createOrGetEpochStats cache (cache.deref ptr).Epoch
            (some rsp.DependentRoot)).1.deref
          (createOrGetEpochStats cache (cache.deref ptr).Epoch
            (some rsp.DependentRoot)).2.1).proposerAssignments with
        | some proposerAssignments => some proposerAssignments
        | none => some (dutiesToAssignments rsp.Data)) ∧
      res.calls.filter RpcCall.isProposerDuties =
        [.proposerDuties (cache.deref ptr).Epoch] := by
  obtain ⟨n, rfl⟩ : ∃ n, fuel = n + 2 := ⟨fuel - 2, by omega⟩
  have hstep := proposerStep_redirect env client (n + 1) (cache.deref ptr) rsp hunset hw hrsp
    hroot
  generalize hE : (cache.deref ptr).Epoch = E at *
  -- the record given by `createOrGetEpochStats`
  have hspec := createOrGetEpochStats_found cache E (some rsp.DependentRoot)
  have hnew := createOrGetEpochStats_new cache E (some rsp.DependentRoot)
  have halt : ∃ cache1 alt, createOrGetEpochStats cache E (some rsp.DependentRoot) =
      (cache1, alt, decide (alt = cache.heap.length)) ∧
      alt ≠ ptr ∧ alt < cache1.heap.length ∧ alt ∈ cache1.epochStatsMap.get E [] ∧
      (cache1.deref alt).Epoch = E ∧
      bytesEqual (cache1.deref alt).DependentRoot (some rsp.DependentRoot) = true ∧
      cache1.deref ptr = cache.deref ptr := by
    cases hf : findEpochStats cache (some rsp.DependentRoot) (cache.epochStatsMap.get E []) with
    | some q =>
      have hq := findEpochStats_some _ _ _ _ hf
      have hq2 := hlist q hq.1
      refine ⟨cache, q, ?_, ?_, hq2.1, hq.1, hq2.2, hq.2, rfl⟩
      · rw [hspec q hf]
        have : ¬ q = cache.heap.length := by omega
        simp [this]
      · intro heq
        subst heq
        rw [bytesEqual_comm, hq.2] at hroot
        exact absurd hroot (by decide)
    | none =>
      refine ⟨{ heap := cache.heap ++ [newEpochStats E (some rsp.DependentRoot)]
                epochStatsMap := cache.epochStatsMap.set E
                  (cache.epochStatsMap.get E [] ++ [cache.heap.length]) },
        cache.heap.length, ?_, by omega, ?_, ?_, ?_, ?_, ?_⟩
      · rw [hnew hf]; simp
      · simp
      · simp [GoMap.get_set]
      · rw [deref_new]; rfl
      · rw [deref_new]; simp [newEpochStats, bytesEqual]
      · exact deref_append _ _ _ _ _ hptr
  obtain ⟨cache1, alt, hcreate, hne, hvalid, hmem, hepoch, hkey, hsame⟩ := halt
  have hw1 : whiskActivated env (cache1.deref alt).Epoch = false := by rw [hepoch]; exact hw
  have hinner := ensureEpochStatsLazy_passed env client n cache1 alt rsp hw1
  have hfields := loadAfterProposer_fields env client alt
    (publishedRecord (cache1.deref alt) rsp)
  have hpub : (publishedRecord (cache1.deref alt) rsp).Epoch = (cache1.deref alt).Epoch ∧
      (publishedRecord (cache1.deref alt) rsp).DependentRoot =
        (cache1.deref alt).DependentRoot ∧
      (publishedRecord (cache1.deref alt) rsp).proposerAssignments =
        (match (cache1.deref alt).proposerAssignments with
        | some proposerAssignments => some proposerAssignments
        | none => some (dutiesToAssignments rsp.Data)) := by
    unfold publishedRecord
    cases hpa : (cache1.deref alt).proposerAssignments <;> simp [hpa]
  have houter := ensureEpochStatsLazy_redirected env client (n + 1) cache ptr none
    [.proposerDuties E] rsp _ hstep (by rw [hE, hcreate]; exact hinner)
  rw [hcreate]
  refine ⟨_, houter, rfl, ?_, hne, ?_, ?_, ?_, ?_, ?_⟩
  · simp only []
    rw [deref_store_ne _ _ _ _ hne, hsame]
  · simpa [IndexerCache.store] using hmem
  · simp only []
    rw [deref_store_self _ _ _ hvalid, hfields.1, hpub.1, hepoch]
  · simp only []
    rw [deref_store_self _ _ _ hvalid, hfields.2.1, hpub.2.1]
    exact hkey
  · simp only []
    rw [deref_store_self _ _ _ hvalid, hfields.2.2.1, hpub.2.2]
  · simp only [List.filter_append, List.filter_cons, List.filter_nil, RpcCall.isProposerDuties,
      if_true, List.singleton_append, List.cons.injEq, true_and]
    rw [List.filter_eq_nil_iff]
    intro c hc
    rw [hfields.2.2.2 c hc]
    decide

/-- Witness of C10 on the example cache: the record for epoch 1 has dependent root `[9]`
and the beacon node answers with dependent root `[7]`; the duties are published on a new
record, at index 1. -/
theorem ensureEpochStatsLazy_redirect_witness :
    ∃ res : LazyResult,
      ensureEpochStatsLazy exampleEnv (exampleClient [⟨4, 1⟩]) 2 exampleCache 0 none =
        some res ∧
      res.redirects = 1 ∧
      res.cache.deref 0 = exampleCache.deref 0 ∧
      (res.cache.deref 1).proposerAssignments = some [(4, 1)] := by
  obtain ⟨res, h1, h2, h3, _, _, _, _, h8, _⟩ := ensureEpochStatsLazy_redirect exampleEnv
    (exampleClient [⟨4, 1⟩]) 2 exampleCache 0 { DependentRoot := [7], Data := [⟨4, 1⟩] }
    (by decide) (by decide) rfl rfl rfl rfl (by decide)
  exact ⟨res, h1, h2, h3, h8⟩

/-- C11: loaded fields are kept and only missing fields are retried. For a call of
`ensureEpochStatsLazy` on the record `S` behind `ptr` that returns `res`: if the proposer
assignments of `S` are set they are unchanged, no nested call is made and no proposer
duties call is in the log; if the dependent state reference (the attester assignments,
the sync assignments) of `S` is set it is unchanged, and a call without redirect makes no
block header (committee duties, sync committee duties) call, whatever the client answers
and whichever step fails; a redirected call leaves `S` as it was. With no Whisk fork
configured or the proposer assignments set, the call returns (fuel 2 is enough). -/
theorem ensureEpochStatsLazy_loaded_fields_kept (env : Env) (client : IndexerClient)
    (fuel : Nat) (cache : IndexerCache) (ptr : Nat) (proposerRsp : Option ProposerDuties)
    (hptr : ptr < cache.heap.length) :
    (∀ res, ensureEpochStatsLazy env client fuel cache ptr proposerRsp = some res →
      ((cache.deref ptr).proposerAssignments ≠ none →
        (res.cache.deref ptr).proposerAssignments = (cache.deref ptr).proposerAssignments ∧
        res.redirects = 0 ∧ ∀ c ∈ res.calls, c.isProposerDuties = false) ∧
      ((cache.deref ptr).dependentStateRef ≠ "" →
        (res.cache.deref ptr).dependentStateRef = (cache.deref ptr).dependentStateRef ∧
        (res.redirects = 0 → ∀ c ∈ res.calls, c.isBlockHeader = false)) ∧
      ((cache.deref ptr).attestorAssignments ≠ none →
        (res.cache.deref ptr).attestorAssignments = (cache.deref ptr).attestorAssignments ∧
        (res.redirects = 0 → ∀ c ∈ res.calls, c.isCommitteeDuties = false)) ∧
      ((cache.deref ptr).syncAssignments ≠ none →
        (res.cache.deref ptr).syncAssignments = (cache.deref ptr).syncAssignments ∧
        (res.redirects = 0 → ∀ c ∈ res.calls, c.isSyncCommitteeDuties = false)) ∧
      (res.redirects ≠ 0 → res.cache.deref ptr = cache.deref ptr)) ∧
    ((env.WhiskForkEpoch = none ∨ (cache.deref ptr).proposerAssignments ≠ none) → 2 ≤ fuel →
      ∃ res, ensureEpochStatsLazy env client fuel cache ptr proposerRsp = some res) := by
  refine ⟨?_, ensureEpochStatsLazy_total env client fuel cache ptr proposerRsp⟩
  intro res hres
  rcases ensureEpochStatsLazy_cases env client fuel cache ptr proposerRsp res hres with
    ⟨err, hpa, _, hr⟩ | ⟨calls, st, hstep, hr⟩ | ⟨rsp, inner, hstep, hin, hr⟩
  · subst hr
    refine ⟨fun h => absurd hpa h, fun _ => ⟨rfl, fun _ => by simp [RpcCall.isBlockHeader]⟩,
      fun _ => ⟨rfl, fun _ => by simp [RpcCall.isCommitteeDuties]⟩,
      fun _ => ⟨rfl, fun _ => by simp [RpcCall.isSyncCommitteeDuties]⟩, fun h => absurd rfl h⟩
  · obtain ⟨⟨m, hm⟩, hset, hcalls⟩ := proposerStep_loaded_frame _ _ _ _ _ _ _ hstep
    obtain ⟨f1, f2, f3, _⟩ := loadAfterProposer_frame env client ptr st
    have hfields := loadAfterProposer_fields env client ptr st
    have hd : st.dependentStateRef = (cache.deref ptr).dependentStateRef := by rw [hm]
    have ha : st.attestorAssignments = (cache.deref ptr).attestorAssignments := by rw [hm]
    have hs : st.syncAssignments = (cache.deref ptr).syncAssignments := by rw [hm]
    subst hr
    simp only [deref_store_self _ _ _ hptr, List.mem_append]
    refine ⟨?_, ?_, ?_, ?_, fun h => absurd rfl h⟩
    · intro h
      obtain ⟨h1, h2⟩ := hset h
      refine ⟨by rw [hfields.2.2.1, h1], trivial, ?_⟩
      intro c hc
      rcases hc with hc | hc
      · rw [h2] at hc; simp at hc
      · exact hfields.2.2.2 c hc
    · intro h
      obtain ⟨g1, g2⟩ := f1 (by rw [hd]; exact h)
      refine ⟨by rw [g1, hd], fun _ c hc => ?_⟩
      rcases hc with hc | hc
      · rw [hcalls c hc]; rfl
      · exact g2 c hc
    · intro h
      obtain ⟨g1, g2⟩ := f2 (by rw [ha]; exact h)
      refine ⟨by rw [g1, ha], fun _ c hc => ?_⟩
      rcases hc with hc | hc
      · rw [hcalls c hc]; rfl
      · exact g2 c hc
    · intro h
      obtain ⟨g1, g2⟩ := f3 (by rw [hs]; exact h)
      refine ⟨by rw [g1, hs], fun _ c hc => ?_⟩
      rcases hc with hc | hc
      · rw [hcalls c hc]; rfl
      · exact g2 c hc
  · obtain ⟨h1, hpa, hsame, _⟩ :=
      ensureEpochStatsLazy_redirect_frame env client fuel cache ptr proposerRsp res inner rsp
        hptr hstep hin hr
    refine ⟨fun h => absurd hpa h, fun _ => ⟨by rw [hsame], fun h0 => ?_⟩,
      fun _ => ⟨by rw [hsame], fun h0 => ?_⟩, fun _ => ⟨by rw [hsame], fun h0 => ?_⟩,
      fun _ => hsame⟩ <;>
    · rw [h1] at h0
      exact absurd h0 (by decide)

/-- Witness of C11: a second load on the loaded record of the example cache. -/
theorem ensureEpochStatsLazy_loaded_fields_kept_witness :
    0 < exampleLoaded.cache.heap.length ∧
    ((∀ res, ensureEpochStatsLazy exampleEnv (exampleClient []) 2 exampleLoaded.cache 0 none =
        some res →
      ((exampleLoaded.cache.deref 0).proposerAssignments ≠ none →
        (res.cache.deref 0).proposerAssignments =
          (exampleLoaded.cache.deref 0).proposerAssignments ∧
        res.redirects = 0 ∧ ∀ c ∈ res.calls, c.isProposerDuties = false) ∧
      ((exampleLoaded.cache.deref 0).dependentStateRef ≠ "" →
        (res.cache.deref 0).dependentStateRef =
          (exampleLoaded.cache.deref 0).dependentStateRef ∧
        (res.redirects = 0 → ∀ c ∈ res.calls, c.isBlockHeader = false)) ∧
      ((exampleLoaded.cache.deref 0).attestorAssignments ≠ none →
        (res.cache.deref 0).attestorAssignments =
          (exampleLoaded.cache.deref 0).attestorAssignments ∧
        (res.redirects = 0 → ∀ c ∈ res.calls, c.isCommitteeDuties = false)) ∧
      ((exampleLoaded.cache.deref 0).syncAssignments ≠ none →
        (res.cache.deref 0).syncAssignments = (exampleLoaded.cache.deref 0).syncAssignments ∧
        (res.redirects = 0 → ∀ c ∈ res.calls, c.isSyncCommitteeDuties = false)) ∧
      (res.redirects ≠ 0 → res.cache.deref 0 = exampleLoaded.cache.deref 0)) ∧
    ((exampleEnv.WhiskForkEpoch = none ∨
        (exampleLoaded.cache.deref 0).proposerAssignments ≠ none) → 2 ≤ 2 →
      ∃ res, ensureEpochStatsLazy exampleEnv (exampleClient []) 2 exampleLoaded.cache 0 none =
        some res)) :=
  ⟨by decide,
    ensureEpochStatsLazy_loaded_fields_kept exampleEnv (exampleClient []) 2 exampleLoaded.cache
      0 none (by decide)⟩

/-- C12, as stated, fails with the Altair fork at genesis: the load of the record of epoch
0 calls the sync committee duties with the dependent state reference `"genesis"`, not
with the decimal rendering `"0"` of the first slot of the epoch. -/
theorem ensureEpochStatsLazy_altair_at_genesis :
    (exampleCacheGenesis.deref 0).Epoch = exampleEnvAltairGenesis.AltairForkEpoch ∧
    (ensureEpochStatsLazy exampleEnvAltairGenesis (exampleClient []) 2 exampleCacheGenesis 0
        none).map (fun res => (res.calls, res.error)) =
      some ([.proposerDuties 0, .validatorStatsLazy 0 "genesis", .committeeDuties "genesis" 0,
        .syncCommitteeDuties "genesis" 0], none) ∧
    toString ((exampleCacheGenesis.deref 0).Epoch * exampleEnvAltairGenesis.SlotsPerEpoch) =
      "0" := by
  decide

/-- C12: the state reference of the sync committee call. In a call of
`ensureEpochStatsLazy` without redirect on the record `S`, every sync committee duties
call is made for the epoch of `S`, on a record without sync assignments at or after the
Altair fork; its state reference is the decimal rendering of
`S.Epoch * SlotsPerEpoch` (modulo `2 ^ 64`) when `S.Epoch` is the Altair fork epoch and is
not 0, and the dependent state reference of the record otherwise, also for epoch 0 with
the Altair fork at genesis. A call that returns without error on such a record has made
the sync committee call. -/
theorem ensureEpochStatsLazy_sync_state_ref (env : Env) (client : IndexerClient) (fuel : Nat)
    (cache : IndexerCache) (ptr : Nat) (proposerRsp : Option ProposerDuties)
    (res : LazyResult) (hptr : ptr < cache.heap.length)
    (hres : ensureEpochStatsLazy env client fuel cache ptr proposerRsp = some res)
    (hdirect : res.redirects = 0) :
    (∀ ref e, RpcCall.syncCommitteeDuties ref e ∈ res.calls →
      e = (cache.deref ptr).Epoch ∧ (cache.deref ptr).syncAssignments = none ∧
      (cache.deref ptr).Epoch ≥ env.AltairForkEpoch ∧
      ref = if 0 < (cache.deref ptr).Epoch ∧ (cache.deref ptr).Epoch = env.AltairForkEpoch then
          toString (((cache.deref ptr).Epoch * env.SlotsPerEpoch) % u64)
        else (res.cache.deref ptr).dependentStateRef) ∧
    (res.error = none → (cache.deref ptr).syncAssignments = none →
      (cache.deref ptr).Epoch ≥ env.AltairForkEpoch →
      ∃ ref, RpcCall.syncCommitteeDuties ref (cache.deref ptr).Epoch ∈ res.calls) := by
  rcases ensureEpochStatsLazy_cases env client fuel cache ptr proposerRsp res hres with
    ⟨err, hpa, _, hr⟩ | ⟨calls, st, hstep, hr⟩ | ⟨rsp, inner, hstep, hin, hr⟩
  · subst hr
    exact ⟨fun ref e h => by simp at h, fun h => by simp at h⟩
  · obtain ⟨⟨m, hm⟩, _, hcalls⟩ := proposerStep_loaded_frame _ _ _ _ _ _ _ hstep
    obtain ⟨_, _, _, _, _, _, f7⟩ := loadAfterProposer_frame env client ptr st
    have hfields := loadAfterProposer_fields env client ptr st
    have he : st.Epoch = (cache.deref ptr).Epoch := by rw [hm]
    have hs : st.syncAssignments = (cache.deref ptr).syncAssignments := by rw [hm]
    subst hr
    simp only [deref_store_self _ _ _ hptr, List.mem_append]
    refine ⟨?_, ?_⟩
    · intro ref e hc
      rcases hc with hc | hc
      · have := hcalls _ hc
        simp at this
      · obtain ⟨g1, g2, g3, g4⟩ := f7 ref e hc
        rw [he] at g1 g3
        rw [hs] at g2
        refine ⟨g1, g2, g3, ?_⟩
        rw [g4]
        unfold syncCommitteeState
        rw [hfields.1, he]
        by_cases hc : (cache.deref ptr).Epoch > 0 ∧ (cache.deref ptr).Epoch = env.AltairForkEpoch
        · rw [if_pos hc, if_pos hc, ← hc.2]
        · rw [if_neg hc, if_neg hc]
    · intro hok hsync hep
      obtain ⟨ref, href⟩ := loadAfterProposer_ok env client ptr st hok (by rw [hs]; exact hsync)
        (by rw [he]; exact hep)
      rw [he] at href
      exact ⟨ref, Or.inr href⟩
  · obtain ⟨h1, _⟩ :=
      ensureEpochStatsLazy_redirect_frame env client fuel cache ptr proposerRsp res inner rsp
        hptr hstep hin hr
    rw [h1] at hdirect
    exact absurd hdirect (by decide)

/-- Witness of C12: the load of the record of epoch 1 with the Altair fork at epoch 1. -/
theorem ensureEpochStatsLazy_sync_state_ref_witness :
    (0 < exampleCacheMatching.heap.length ∧
      ensureEpochStatsLazy exampleEnvAltair (exampleClient []) 2 exampleCacheMatching 0 none =
        some exampleLoadedAltair ∧ exampleLoadedAltair.redirects = 0) ∧
    ((∀ ref e, RpcCall.syncCommitteeDuties ref e ∈ exampleLoadedAltair.calls →
      e = (exampleCacheMatching.deref 0).Epoch ∧
      (exampleCacheMatching.deref 0).syncAssignments = none ∧
      (exampleCacheMatching.deref 0).Epoch ≥ exampleEnvAltair.AltairForkEpoch ∧
      ref = if 0 < (exampleCacheMatching.deref 0).Epoch ∧
            (exampleCacheMatching.deref 0).Epoch = exampleEnvAltair.AltairForkEpoch then
          toString (((exampleCacheMatching.deref 0).Epoch * exampleEnvAltair.SlotsPerEpoch) % u64)
        else (exampleLoadedAltair.cache.deref 0).dependentStateRef) ∧
    (exampleLoadedAltair.error = none → (exampleCacheMatching.deref 0).syncAssignments = none →
      (exampleCacheMatching.deref 0).Epoch ≥ exampleEnvAltair.AltairForkEpoch →
      ∃ ref, RpcCall.syncCommitteeDuties ref (exampleCacheMatching.deref 0).Epoch ∈
        exampleLoadedAltair.calls)) :=
  ⟨⟨by decide, by decide, rfl⟩,
    ensureEpochStatsLazy_sync_state_ref exampleEnvAltair (exampleClient []) 2
      exampleCacheMatching 0 none exampleLoadedAltair (by decide) (by decide) rfl⟩

/-- C13: derivation of the dependent state reference. Let the record `S` behind `ptr`
have an empty dependent state reference, and let a call of `ensureEpochStatsLazy` return
with the proposer assignments of `S` set (the proposer duties step neither failed nor
redirected). Then the reference is `"genesis"` for epoch 0; for another epoch with the
dependent block cached it is `"genesis"` when the slot of that block is 0 and the
rendering of its state root otherwise; with the block not cached and a header returned by
`GetBlockHeaderByBlockroot` on the dependent root it follows the same rule on the
header; and when that call fails or returns nothing the load returns an error and the
dependent state reference (still empty), the attester assignments, the sync assignments
and `seenCount` are as before. With no Whisk fork configured or the proposer assignments
set, the call returns (fuel 2 is enough). -/
theorem ensureEpochStatsLazy_dependent_state_ref (env : Env) (client : IndexerClient)
    (fuel : Nat) (cache : IndexerCache) (ptr : Nat) (proposerRsp : Option ProposerDuties)
    (hptr : ptr < cache.heap.length)
    (hempty : (cache.deref ptr).dependentStateRef = "") :
    (∀ res, ensureEpochStatsLazy env client fuel cache ptr proposerRsp = some res →
      (res.cache.deref ptr).proposerAssignments ≠ none →
      ((cache.deref ptr).Epoch = 0 → (res.cache.deref ptr).dependentStateRef = "genesis") ∧
      (∀ b, (cache.deref ptr).Epoch ≠ 0 →
        client.getCachedBlock (cache.deref ptr).DependentRoot = some b →
        (res.cache.deref ptr).dependentStateRef =
          if b.Slot = 0 then "genesis" else b.stateRoot) ∧
      (∀ hdr, (cache.deref ptr).Epoch ≠ 0 →
        client.getCachedBlock (cache.deref ptr).DependentRoot = none →
        client.GetBlockHeaderByBlockroot (cache.deref ptr).DependentRoot = .ok (some hdr) →
        (res.cache.deref ptr).dependentStateRef =
          if hdr.Slot = 0 then "genesis" else hdr.StateRoot) ∧
      ((cache.deref ptr).Epoch ≠ 0 →
        client.getCachedBlock (cache.deref ptr).DependentRoot = none →
        (∀ hdr, client.GetBlockHeaderByBlockroot (cache.deref ptr).DependentRoot ≠
          .ok (some hdr)) →
        res.error ≠ none ∧
        (res.cache.deref ptr).dependentStateRef = "" ∧
        (res.cache.deref ptr).attestorAssignments = (cache.deref ptr).attestorAssignments ∧
        (res.cache.deref ptr).syncAssignments = (cache.deref ptr).syncAssignments ∧
        (res.cache.deref ptr).seenCount = (cache.deref ptr).seenCount)) ∧
    ((env.WhiskForkEpoch = none ∨ (cache.deref ptr).proposerAssignments ≠ none) → 2 ≤ fuel →
      ∃ res, ensureEpochStatsLazy env client fuel cache ptr proposerRsp = some res) := by
  refine ⟨?_, ensureEpochStatsLazy_total env client fuel cache ptr proposerRsp⟩
  intro res hres hpub
  rcases ensureEpochStatsLazy_cases env client fuel cache ptr proposerRsp res hres with
    ⟨err, hpa, _, hr⟩ | ⟨calls, st, hstep, hr⟩ | ⟨rsp, inner, hstep, hin, hr⟩
  · subst hr
    exact absurd hpa hpub
  · obtain ⟨⟨m, hm⟩, _, _⟩ := proposerStep_loaded_frame _ _ _ _ _ _ _ hstep
    obtain ⟨_, _, _, _, _, f6, _⟩ := loadAfterProposer_frame env client ptr st
    have hd : st.dependentStateRef = "" := by rw [hm]; exact hempty
    have he : st.Epoch = (cache.deref ptr).Epoch := by rw [hm]
    have hroot : st.DependentRoot = (cache.deref ptr).DependentRoot := by rw [hm]
    have ha : st.attestorAssignments = (cache.deref ptr).attestorAssignments := by rw [hm]
    have hs : st.syncAssignments = (cache.deref ptr).syncAssignments := by rw [hm]
    have hk : st.seenCount = (cache.deref ptr).seenCount := by rw [hm]
    obtain ⟨v1, v2, v3, v4⟩ := stateRefStep_value client st hd
    rw [he] at v1 v2 v3 v4
    rw [hroot] at v2 v3 v4
    subst hr
    simp only [deref_store_self _ _ _ hptr]
    refine ⟨?_, ?_, ?_, ?_⟩
    · intro h0
      rw [f6, v1 h0]
    · intro b h0 hb
      rw [f6, v2 b h0 hb]
      rfl
    · intro hdr h0 hb hh
      rw [f6, v3 hdr h0 hb hh]
      rfl
    · intro h0 hb hh
      have herr := v4 h0 hb hh
      have hlap := (loadAfterProposer_eq env client ptr st).1 herr
      have hst := (stateRefStep_frame client st).2.2.2 herr
      rw [hlap]
      simp only []
      rw [hst]
      exact ⟨herr, hd, ha, hs, hk⟩
  · obtain ⟨_, hpa, hsame, _⟩ :=
      ensureEpochStatsLazy_redirect_frame env client fuel cache ptr proposerRsp res inner rsp
        hptr hstep hin hr
    rw [hsame] at hpub
    exact absurd hpa hpub

/-- Witness of C13: the load of the record of epoch 1 of the example cache by a client
whose beacon node knows no header. -/
theorem ensureEpochStatsLazy_dependent_state_ref_witness :
    (0 < exampleCacheMatching.heap.length ∧
      (exampleCacheMatching.deref 0).dependentStateRef = "") ∧
    ((∀ res, ensureEpochStatsLazy exampleEnv exampleClientNoHeader 2 exampleCacheMatching
        0 none = some res →
      (res.cache.deref 0).proposerAssignments ≠ none →
      ((exampleCacheMatching.deref 0).Epoch = 0 →
        (res.cache.deref 0).dependentStateRef = "genesis") ∧
      (∀ b, (exampleCacheMatching.deref 0).Epoch ≠ 0 →
        exampleClientNoHeader.getCachedBlock (exampleCacheMatching.deref 0).DependentRoot =
          some b →
        (res.cache.deref 0).dependentStateRef =
          if b.Slot = 0 then "genesis" else b.stateRoot) ∧
      (∀ hdr, (exampleCacheMatching.deref 0).Epoch ≠ 0 →
        exampleClientNoHeader.getCachedBlock (exampleCacheMatching.deref 0).DependentRoot =
          none →
        exampleClientNoHeader.GetBlockHeaderByBlockroot
          (exampleCacheMatching.deref 0).DependentRoot = .ok (some hdr) →
        (res.cache.deref 0).dependentStateRef =
          if hdr.Slot = 0 then "genesis" else hdr.StateRoot) ∧
      ((exampleCacheMatching.deref 0).Epoch ≠ 0 →
        exampleClientNoHeader.getCachedBlock (exampleCacheMatching.deref 0).DependentRoot =
          none →
        (∀ hdr, exampleClientNoHeader.GetBlockHeaderByBlockroot
          (exampleCacheMatching.deref 0).DependentRoot ≠ .ok (some hdr)) →
        res.error ≠ none ∧
        (res.cache.deref 0).dependentStateRef = "" ∧
        (res.cache.deref 0).attestorAssignments =
          (exampleCacheMatching.deref 0).attestorAssignments ∧
        (res.cache.deref 0).syncAssignments = (exampleCacheMatching.deref 0).syncAssignments ∧
        (res.cache.deref 0).seenCount = (exampleCacheMatching.deref 0).seenCount)) ∧
    ((exampleEnv.WhiskForkEpoch = none ∨
        (exampleCacheMatching.deref 0).proposerAssignments ≠ none) → 2 ≤ 2 →
      ∃ res, ensureEpochStatsLazy exampleEnv exampleClientNoHeader 2 exampleCacheMatching
        0 none = some res)) :=
  ⟨⟨by decide, by decide⟩,
    ensureEpochStatsLazy_dependent_state_ref exampleEnv exampleClientNoHeader 2
      exampleCacheMatching 0 none (by decide) (by decide)⟩

/-- C16, as stated, fails at the largest `uint64`: a load without error and without
redirect on a record seen `2 ^ 64 - 1` times leaves its `seenCount` at 0. -/
theorem ensureEpochStatsLazy_seenCount_wraps :
    (exampleCacheSeenMax.deref 0).seenCount = 2 ^ 64 - 1 ∧
    (ensureEpochStatsLazy exampleEnv (exampleClient []) 1 exampleCacheSeenMax 0 none).map
        (fun res => (res.error, res.redirects, (res.cache.deref 0).seenCount)) =
      some (none, 0, 0) := by
  decide

/-- C16: `seenCount` accounting. A call of `ensureEpochStatsLazy` on the record `S` behind
`ptr` without redirect sets `S.seenCount` to `(S.seenCount + 1) % 2 ^ 64` when it returns
without error, which is `S.seenCount + 1` when `S.seenCount` is below `2 ^ 64 - 1`, and
leaves it unchanged when it returns an error; and no call lowers the `seenCount` of a
record for which it is below `2 ^ 64 - 1`. With no Whisk fork configured or the proposer
assignments set, the call returns (fuel 2 is enough). -/
theorem ensureEpochStatsLazy_seenCount (env : Env) (client : IndexerClient) (fuel : Nat)
    (cache : IndexerCache) (ptr : Nat) (proposerRsp : Option ProposerDuties)
    (hptr : ptr < cache.heap.length) :
    (∀ res, ensureEpochStatsLazy env client fuel cache ptr proposerRsp = some res →
      (res.redirects = 0 → res.error = none →
        (res.cache.deref ptr).seenCount = ((cache.deref ptr).seenCount + 1) % u64 ∧
        ((cache.deref ptr).seenCount + 1 < u64 →
          (res.cache.deref ptr).seenCount = (cache.deref ptr).seenCount + 1)) ∧
      (res.redirects = 0 → res.error ≠ none →
        (res.cache.deref ptr).seenCount = (cache.deref ptr).seenCount) ∧
      (∀ q, (cache.deref q).seenCount + 1 < u64 →
        (cache.deref q).seenCount ≤ (res.cache.deref q).seenCount)) ∧
    ((env.WhiskForkEpoch = none ∨ (cache.deref ptr).proposerAssignments ≠ none) → 2 ≤ fuel →
      ∃ res, ensureEpochStatsLazy env client fuel cache ptr proposerRsp = some res) := by
  refine ⟨?_, ensureEpochStatsLazy_total env client fuel cache ptr proposerRsp⟩
  intro res hres
  rcases ensureEpochStatsLazy_cases env client fuel cache ptr proposerRsp res hres with
    ⟨err, hpa, _, hr⟩ | ⟨calls, st, hstep, hr⟩ | ⟨rsp, inner, hstep, hin, hr⟩
  · subst hr
    exact ⟨fun _ h => by simp at h, fun _ _ => rfl, fun _ _ => le_refl _⟩
  · obtain ⟨⟨m, hm⟩, _, _⟩ := proposerStep_loaded_frame _ _ _ _ _ _ _ hstep
    obtain ⟨_, _, _, f4, f5, _⟩ := loadAfterProposer_frame env client ptr st
    have hk : st.seenCount = (cache.deref ptr).seenCount := by rw [hm]
    rw [hk] at f4 f5
    subst hr
    refine ⟨?_, ?_, ?_⟩
    · intro _ hok
      simp only [] at hok
      simp only [deref_store_self _ _ _ hptr]
      refine ⟨f4 hok, fun hlt => ?_⟩
      rw [f4 hok, Nat.mod_eq_of_lt hlt]
    · intro _ herr
      simp only [] at herr
      simp only [deref_store_self _ _ _ hptr]
      exact f5 herr
    · intro q hq
      apply store_seenCount_le
      intro hqp
      rw [← hk]
      apply loadAfterProposer_seenCount_le
      rw [hk, ← hqp]
      exact hq
  · obtain ⟨h1, _, _, hmono⟩ :=
      ensureEpochStatsLazy_redirect_frame env client fuel cache ptr proposerRsp res inner rsp
        hptr hstep hin hr
    refine ⟨fun h0 => ?_, fun h0 => ?_, hmono⟩ <;>
    · rw [h1] at h0
      exact absurd h0 (by decide)

/-- Witness of C16: the load of the record of epoch 1 of the example cache. -/
theorem ensureEpochStatsLazy_seenCount_witness :
    0 < exampleCacheMatching.heap.length ∧
    ((∀ res, ensureEpochStatsLazy exampleEnv (exampleClient []) 2 exampleCacheMatching 0 none =
        some res →
      (res.redirects = 0 → res.error = none →
        (res.cache.deref 0).seenCount = ((exampleCacheMatching.deref 0).seenCount + 1) % u64 ∧
        ((exampleCacheMatching.deref 0).seenCount + 1 < u64 →
          (res.cache.deref 0).seenCount = (exampleCacheMatching.deref 0).seenCount + 1)) ∧
      (res.redirects = 0 → res.error ≠ none →
        (res.cache.deref 0).seenCount = (exampleCacheMatching.deref 0).seenCount) ∧
      (∀ q, (exampleCacheMatching.deref q).seenCount + 1 < u64 →
        (exampleCacheMatching.deref q).seenCount ≤ (res.cache.deref q).seenCount)) ∧
    ((exampleEnv.WhiskForkEpoch = none ∨
        (exampleCacheMatching.deref 0).proposerAssignments ≠ none) → 2 ≤ 2 →
      ∃ res, ensureEpochStatsLazy exampleEnv (exampleClient []) 2 exampleCacheMatching 0 none =
        some res)) :=
  ⟨by decide,
    ensureEpochStatsLazy_seenCount exampleEnv (exampleClient []) 2 exampleCacheMatching 0 none
      (by decide)⟩

/-- C17: key uniqueness of the cache. The invariant `KeyUnique` (the list of every epoch
key is not empty, every record in it has the key as its epoch, no two records in it have
byte-equal dependent roots) holds for the empty cache and, on a cache whose pointers are
allocated, is kept by `createOrGetEpochStats` and by `removeEpochStats` for every
argument; under it `getEpochStats` with a root that is not nil returns a record exactly
when that record is in the list of the epoch with a byte-equal root, such a record has
the epoch asked for and is the only one, and nil is returned exactly when no record of
the list has a byte-equal root. -/
theorem keyUnique_invariant (cache : IndexerCache) (epoch : Nat) (dependendRoot : Bytes)
    (ptr : Nat) (hvalid : ValidPointers cache) (hinv : KeyUnique cache) :
    (KeyUnique emptyCache ∧ ValidPointers emptyCache) ∧
    (KeyUnique (createOrGetEpochStats cache epoch dependendRoot).1 ∧
      ValidPointers (createOrGetEpochStats cache epoch dependendRoot).1) ∧
    (KeyUnique (removeEpochStats cache ptr) ∧ ValidPointers (removeEpochStats cache ptr)) ∧
    (dependendRoot ≠ none →
      (∀ p, getEpochStats cache epoch dependendRoot = some p ↔
        p ∈ cache.epochStatsMap.get epoch [] ∧
        bytesEqual (cache.deref p).DependentRoot dependendRoot = true) ∧
      (∀ p, getEpochStats cache epoch dependendRoot = some p →
        (cache.deref p).Epoch = epoch) ∧
      (∀ p q, p ∈ cache.epochStatsMap.get epoch [] → q ∈ cache.epochStatsMap.get epoch [] →
        bytesEqual (cache.deref p).DependentRoot dependendRoot = true →
        bytesEqual (cache.deref q).DependentRoot dependendRoot = true → p = q) ∧
      (getEpochStats cache epoch dependendRoot = none ↔
        ∀ p ∈ cache.epochStatsMap.get epoch [],
          bytesEqual (cache.deref p).DependentRoot dependendRoot = false)) := by
  refine ⟨⟨by decide, by decide⟩, createOrGetEpochStats_keyUnique cache epoch dependendRoot
    hvalid hinv, removeEpochStats_keyUnique cache ptr hvalid hinv, ?_⟩
  intro hroot
  have hiff := getEpochStats_unique cache epoch dependendRoot hinv hroot
  refine ⟨hiff, ?_, ?_, ?_⟩
  · intro p hp
    have hmem := ((hiff p).1 hp).1
    unfold GoMap.get at hmem
    cases hf : cache.epochStatsMap.find epoch with
    | none => simp [hf] at hmem
    | some l =>
      rw [hf] at hmem
      exact (hinv _ (GoMap.mem_of_find _ _ _ hf)).2.1 p hmem
  · intro p q hp hq hpm hqm
    have h1 := (hiff p).2 ⟨hp, hpm⟩
    have h2 := (hiff q).2 ⟨hq, hqm⟩
    exact Option.some.inj (h1.symm.trans h2)
  · constructor
    · intro hnone p hp
      cases hb : bytesEqual (cache.deref p).DependentRoot dependendRoot with
      | false => rfl
      | true =>
        have := (hiff p).2 ⟨hp, hb⟩
        rw [hnone] at this
        exact absurd this (by simp)
    · intro hall
      cases hg : getEpochStats cache epoch dependendRoot with
      | none => rfl
      | some p =>
        obtain ⟨hp, hb⟩ := (hiff p).1 hg
        rw [hall p hp] at hb
        exact absurd hb (by decide)

/-- Witness of C17: the cache with two records for epoch 1 and one for epoch 2. -/
theorem keyUnique_invariant_witness :
    (ValidPointers exampleCacheThree ∧ KeyUnique exampleCacheThree) ∧
    KeyUnique (createOrGetEpochStats exampleCacheThree 1 (some [7])).1 ∧
    KeyUnique (removeEpochStats exampleCacheThree 0) ∧
    getEpochStats exampleCacheThree 1 (some [7]) = some 1 :=
  ⟨⟨by decide, by decide⟩,
    (keyUnique_invariant exampleCacheThree 1 (some [7]) 0 (by decide) (by decide)).2.1.1,
    (keyUnique_invariant exampleCacheThree 1 (some [7]) 0 (by decide) (by decide)).2.2.1.1,
    (((keyUnique_invariant exampleCacheThree 1 (some [7]) 0 (by decide) (by decide)).2.2.2
      (by decide)).1 1).2 ⟨by decide, by decide⟩⟩

/-- C18: `removeEpochStats` removes exactly the record. With `l` the list of the epoch of
the record behind `ptr`: when the pointer is in `l`, the list of that epoch afterwards is
`l` without one occurrence of the pointer, up to the order, and the key is deleted when
`l` held one record only and kept otherwise; when the pointer is not in `l` the cache is
unchanged; the lists of all other epochs and all records are never touched. -/
theorem removeEpochStats_removes_one (cache : IndexerCache) (ptr : Nat) :
    (ptr ∈ cache.epochStatsMap.get (cache.deref ptr).Epoch [] →
      ((removeEpochStats cache ptr).epochStatsMap.get (cache.deref ptr).Epoch []).Perm
        ((cache.epochStatsMap.get (cache.deref ptr).Epoch []).erase ptr) ∧
      ((cache.epochStatsMap.get (cache.deref ptr).Epoch []).length = 1 →
        (removeEpochStats cache ptr).epochStatsMap.find (cache.deref ptr).Epoch = none) ∧
      ((cache.epochStatsMap.get (cache.deref ptr).Epoch []).length ≠ 1 →
        (removeEpochStats cache ptr).epochStatsMap.find (cache.deref ptr).Epoch ≠ none)) ∧
    (ptr ∉ cache.epochStatsMap.get (cache.deref ptr).Epoch [] →
      removeEpochStats cache ptr = cache) ∧
    (∀ e, e ≠ (cache.deref ptr).Epoch →
      (removeEpochStats cache ptr).epochStatsMap.find e = cache.epochStatsMap.find e) ∧
    (removeEpochStats cache ptr).heap = cache.heap := by
  rcases removeEpochStats_cases cache ptr with
    ⟨hf, hr⟩ | ⟨l, hf, hmem, hr⟩ | ⟨l, hf, hmem, hlen, hr⟩ |
      ⟨l, l', hf, hmem, hlen, hperm, hne, hr⟩
  · rw [hr]
    refine ⟨fun h => ?_, fun _ => rfl, fun _ _ => rfl, rfl⟩
    simp [GoMap.get, hf] at h
  · rw [hr]
    refine ⟨fun h => ?_, fun _ => rfl, fun _ _ => rfl, rfl⟩
    simp only [GoMap.get, hf, Option.getD_some] at h
    exact absurd h hmem
  · rw [hr]
    have hfe : GoMap.find (GoMap.erase cache.epochStatsMap (cache.deref ptr).Epoch)
        (cache.deref ptr).Epoch = none := by
      rw [GoMap.find_erase, if_pos rfl]
    have hl : l = [ptr] := by
      match l, hlen, hmem with
      | [a], _, hm => rw [List.mem_singleton.1 hm]
    refine ⟨fun _ => ⟨?_, fun _ => hfe, fun h => ?_⟩, fun h => ?_, fun e he => ?_, rfl⟩
    · simp only [GoMap.get, hfe, hf, Option.getD_none, Option.getD_some, hl,
        List.erase_cons_head]
      exact List.Perm.refl _
    · simp only [GoMap.get, hf, Option.getD_some] at h
      exact absurd hlen h
    · simp only [GoMap.get, hf, Option.getD_some] at h
      exact absurd hmem h
    · simp only []
      rw [GoMap.find_erase, if_neg (fun h => he h.symm)]
  · rw [hr]
    have hfs : GoMap.find (GoMap.set cache.epochStatsMap (cache.deref ptr).Epoch l')
        (cache.deref ptr).Epoch = some l' := by
      rw [GoMap.find_set, if_pos rfl]
    refine ⟨fun _ => ⟨?_, fun h => ?_, fun _ => ?_⟩, fun h => ?_, fun e he => ?_, rfl⟩
    · simp only [GoMap.get, hfs, hf, Option.getD_some]
      exact hperm
    · simp only [GoMap.get, hf, Option.getD_some] at h
      exact absurd h hlen
    · simp only [hfs]
      exact fun h => Option.noConfusion h
    · simp only [GoMap.get, hf, Option.getD_some] at h
      exact absurd hmem h
    · simp only []
      rw [GoMap.find_set, if_neg (fun h => he h.symm)]

/-- Witness of C18: removing the first record of epoch 1 moves the second into its
place. -/
theorem removeEpochStats_removes_one_witness :
    removeEpochStats exampleCacheThree 0 =
      { exampleCacheThree with epochStatsMap := [(1, [1]), (2, [2])] } ∧
    ((removeEpochStats exampleCacheThree 0).epochStatsMap.get
        (exampleCacheThree.deref 0).Epoch []).Perm
      ((exampleCacheThree.epochStatsMap.get (exampleCacheThree.deref 0).Epoch []).erase 0) :=
  ⟨by decide, ((removeEpochStats_removes_one exampleCacheThree 0).1 (by decide)).1⟩

/-- C14: the attester assignments keep the order of the response. In a call of
`ensureEpochStatsLazy` without redirect on the record `S`: every committee duties call
is made on a record without attester assignments, with the dependent state reference `S`
has afterwards and with the epoch of `S`, and when the beacon node answers it with the
committees `parsedCommittees` the attester assignments of `S` afterwards are the map
`committeesToAssignments parsedCommittees`, whether a later step fails or not; and a call
that returns without error on a record without attester assignments has made the
committee duties call, got committees and published their map. With no Whisk fork
configured or the proposer assignments set, the call returns (fuel 2 is enough). For
every response whose pairs of slot and committee index are pairwise distinct, the map
holds under the key of every committee with at least one validator exactly the
validators of that committee, in the order of the response, and its keys are exactly the
keys of these committees. Distinct pairs of slot and committee index never share a
key. -/
theorem committeesToAssignments_order (env : Env) (client : IndexerClient) (fuel : Nat)
    (cache : IndexerCache) (ptr : Nat) (proposerRsp : Option ProposerDuties)
    (hptr : ptr < cache.heap.length) :
    (∀ res, ensureEpochStatsLazy env client fuel cache ptr proposerRsp = some res →
      res.redirects = 0 →
      (∀ ref e, RpcCall.committeeDuties ref e ∈ res.calls →
        ref = (res.cache.deref ptr).dependentStateRef ∧ e = (cache.deref ptr).Epoch ∧
        (cache.deref ptr).attestorAssignments = none ∧
        ∀ parsedCommittees,
          client.GetCommitteeDuties (res.cache.deref ptr).dependentStateRef
            (cache.deref ptr).Epoch = .ok parsedCommittees →
          (res.cache.deref ptr).attestorAssignments =
            some (committeesToAssignments parsedCommittees)) ∧
      ((cache.deref ptr).attestorAssignments = none → res.error = none →
        RpcCall.committeeDuties (res.cache.deref ptr).dependentStateRef
          (cache.deref ptr).Epoch ∈ res.calls ∧
        ∃ parsedCommittees,
          client.GetCommitteeDuties (res.cache.deref ptr).dependentStateRef
            (cache.deref ptr).Epoch = .ok parsedCommittees ∧
          (res.cache.deref ptr).attestorAssignments =
            some (committeesToAssignments parsedCommittees))) ∧
    ((env.WhiskForkEpoch = none ∨ (cache.deref ptr).proposerAssignments ≠ none) → 2 ≤ fuel →
      ∃ res, ensureEpochStatsLazy env client fuel cache ptr proposerRsp = some res) ∧
    (∀ parsedCommittees : List Committee,
      parsedCommittees.Pairwise (fun c d => ¬ (c.Slot = d.Slot ∧ c.Index = d.Index)) →
      (∀ c ∈ parsedCommittees, c.Validators ≠ [] →
        (committeesToAssignments parsedCommittees).find (attKey c.Slot c.Index) =
          some c.Validators) ∧
      (∀ k, k ∈ (committeesToAssignments parsedCommittees).keys ↔
        ∃ c ∈ parsedCommittees, c.Validators ≠ [] ∧ k = attKey c.Slot c.Index)) ∧
    (∀ slot index slot' index', attKey slot index = attKey slot' index' →
      slot = slot' ∧ index = index') := by
  refine ⟨?_, ensureEpochStatsLazy_total env client fuel cache ptr proposerRsp, ?_,
    attKey_injective⟩
  · intro res hres hdirect
    rcases ensureEpochStatsLazy_cases env client fuel cache ptr proposerRsp res hres with
      ⟨err, hpa, _, hr⟩ | ⟨calls, st, hstep, hr⟩ | ⟨rsp, inner, hstep, hin, hr⟩
    · subst hr
      exact ⟨fun ref e h => by simp at h, fun _ h => by simp at h⟩
    · obtain ⟨⟨m, hm⟩, _, hcalls⟩ := proposerStep_loaded_frame _ _ _ _ _ _ _ hstep
      obtain ⟨f1, f2⟩ := loadAfterProposer_committees env client ptr st
      have ha : st.attestorAssignments = (cache.deref ptr).attestorAssignments := by rw [hm]
      have he : st.Epoch = (cache.deref ptr).Epoch := by rw [hm]
      rw [ha, he] at f1 f2
      subst hr
      simp only [deref_store_self _ _ _ hptr, List.mem_append]
      refine ⟨?_, ?_⟩
      · intro ref e hc
        rcases hc with hc | hc
        · have := hcalls _ hc
          simp at this
        · exact f1 ref e hc
      · intro hunset hok
        obtain ⟨g1, cs, g2⟩ := f2 hunset hok
        exact ⟨Or.inr g1, cs, g2, (f1 _ _ g1).2.2.2 cs g2⟩
    · obtain ⟨h1, _⟩ :=
        ensureEpochStatsLazy_redirect_frame env client fuel cache ptr proposerRsp res inner rsp
          hptr hstep hin hr
      rw [h1] at hdirect
      exact absurd hdirect (by decide)
  · intro parsedCommittees hdistinct
    refine ⟨?_, ?_⟩
    · intro c hc hv
      rw [committeesToAssignments_find, committeeValidators_of_distinct _ hdistinct c hc,
        if_neg hv]
    · intro k
      rw [← committeeValidators_ne_nil, ← not_iff_not, ← GoMap.find_eq_none_iff,
        committeesToAssignments_find]
      by_cases h : committeeValidators k parsedCommittees = []
      · simp [h]
      · simp [h]

/-- Witness of C14: the load of the record of epoch 1 of the example cache from a beacon
node that answers with three committees, one of them empty: the map published holds the
validators 10, 11 under `"4-0"` and 12 under `"5-0"`, and no key `"4-1"`. -/
theorem committeesToAssignments_order_witness :
    0 < exampleCacheMatching.heap.length ∧
    (ensureEpochStatsLazy exampleEnv exampleClientCommittees 2 exampleCacheMatching 0
        none).map (fun res =>
          (res.redirects, res.error, (res.cache.deref 0).attestorAssignments)) =
      some (0, none, some [("4-0", [10, 11]), ("5-0", [12])]) ∧
    (∀ res, ensureEpochStatsLazy exampleEnv exampleClientCommittees 2 exampleCacheMatching 0
        none = some res →
      res.redirects = 0 →
      (∀ ref e, RpcCall.committeeDuties ref e ∈ res.calls →
        ref = (res.cache.deref 0).dependentStateRef ∧
        e = (exampleCacheMatching.deref 0).Epoch ∧
        (exampleCacheMatching.deref 0).attestorAssignments = none ∧
        ∀ parsedCommittees,
          exampleClientCommittees.GetCommitteeDuties (res.cache.deref 0).dependentStateRef
            (exampleCacheMatching.deref 0).Epoch = .ok parsedCommittees →
          (res.cache.deref 0).attestorAssignments =
            some (committeesToAssignments parsedCommittees)) ∧
      ((exampleCacheMatching.deref 0).attestorAssignments = none → res.error = none →
        RpcCall.committeeDuties (res.cache.deref 0).dependentStateRef
          (exampleCacheMatching.deref 0).Epoch ∈ res.calls ∧
        ∃ parsedCommittees,
          exampleClientCommittees.GetCommitteeDuties (res.cache.deref 0).dependentStateRef
            (exampleCacheMatching.deref 0).Epoch = .ok parsedCommittees ∧
          (res.cache.deref 0).attestorAssignments =
            some (committeesToAssignments parsedCommittees))) ∧
    (∀ c ∈ exampleCommittees, c.Validators ≠ [] →
      (committeesToAssignments exampleCommittees).find (attKey c.Slot c.Index) =
        some c.Validators) ∧
    (∀ k, k ∈ (committeesToAssignments exampleCommittees).keys ↔
      ∃ c ∈ exampleCommittees, c.Validators ≠ [] ∧ k = attKey c.Slot c.Index) :=
  ⟨by decide, by decide,
    (committeesToAssignments_order exampleEnv exampleClientCommittees 2 exampleCacheMatching 0
      none (by decide)).1,
    ((committeesToAssignments_order exampleEnv exampleClientCommittees 2 exampleCacheMatching 0
      none (by decide)).2.2.1 exampleCommittees (by decide)).1,
    ((committeesToAssignments_order exampleEnv exampleClientCommittees 2 exampleCacheMatching 0
      none (by decide)).2.2.1 exampleCommittees (by decide)).2⟩

/-- C20: `parseNamesMap` on the single key `"5"` names the validators 5 and 6 and adds 2
to the count, because `maxIdx` starts as `minIdx + 1` and the loop runs up to `maxIdx`
inclusive; the claim gives validator 5 only and a count of 1. The range keys `"5-5"` and
`"3-5"` name the validators 5, and 3 to 5, and add 1 and 3. -/
theorem parseNamesMap_single_index_names_two :
    parseNamesMap (fun _ => []) 5 { namesByIndex := [], namesByWithdrawal := [] }
        [("5", "alice")] =
      some ({ namesByIndex := [(5, "alice"), (6, "alice")], namesByWithdrawal := [] }, 2) ∧
    parseNamesMap (fun _ => []) 5 { namesByIndex := [], namesByWithdrawal := [] }
        [("5-5", "alice")] =
      some ({ namesByIndex := [(5, "alice")], namesByWithdrawal := [] }, 1) ∧
    parseNamesMap (fun _ => []) 5 { namesByIndex := [], namesByWithdrawal := [] }
        [("3-5", "bob")] =
      some ({ namesByIndex := [(3, "bob"), (4, "bob"), (5, "bob")], namesByWithdrawal := [] },
        3) := by
  decide

end Dora
